import Mathlib

/-!
# Buffer manager (Minirel `BufMgr`, `part3/buf.C`)

A shallow embedding of the clock-replacement buffer manager and a
verification of its contract.

Conventions of the embedding.

* A `File*` is a `FilePtr`: `none` is `NULL`, `some n` is the file object `n`.
* A page slot `bufPool[i]` is identified by its index `i`; page contents are
  opaque to the buffer manager and are not modelled.
* `pinCnt` and `pageNo` are C `int`s and are modelled as unbounded `Int`;
  pin counts are assumed to stay below `2^31` (signed overflow is undefined).
* Frame numbers and the clock hand are array indices and are modelled as `Nat`.
* The file collaborator and the outcome of an index insertion are an oracle
  (`Collab`) passed to each operation; each operation also returns the list
  of file calls it made (`IOCall`), in program order.
-/

namespace BufferManager

/-- A `File*`: `none` is the null pointer. -/
abbrev FilePtr := Option Nat

/-- Status codes. The named ones are those `buf.C` mentions; `other` stands
for the remaining codes a file operation may return. -/
inductive Status where
  | OK
  | UNIXERR
  | BUFFEREXCEEDED
  | HASHTBLERROR
  | HASHNOTFOUND
  | PAGENOTPINNED
  | PAGEPINNED
  | BADBUFFER
  | other (code : Nat)
  deriving DecidableEq, Repr

/-- Modelled from the spec: the frame descriptor `BufDesc` is declared in
`buf.h`, which is not part of the source; its fields are those of spec §3
and those `buf.C` reads and writes. -/
structure BufDesc where
  file : FilePtr
  pageNo : Int
  frameNo : Nat
  pinCnt : Int
  dirty : Bool
  valid : Bool
  refbit : Bool
  deriving DecidableEq, Repr

instance : Inhabited BufDesc := ⟨⟨none, 0, 0, 0, false, false, false⟩⟩

/-- Modelled from the spec: `BufDesc::Clear` (declared in `buf.h`) resets the
descriptor: mapping fields cleared, `pinCnt=0`, `dirty=false`,
`refbit=false`, `valid=false` (spec §4.1); the cleared page number is `-1`,
as in `flushFile`. -/
def BufDesc.Clear (d : BufDesc) : BufDesc :=
  { d with pinCnt := 0, file := none, pageNo := -1, dirty := false, refbit := false,
           valid := false }

/-- Modelled from the spec: `BufDesc::Set` (declared in `buf.h`) initialises
the descriptor: `valid=true`, `fileRef=file`, `pageNo=pageNo`, `pinCnt=1`,
`refbit=true`, `dirty=false` (spec §4.2). -/
def BufDesc.Set (d : BufDesc) (filePtr : FilePtr) (pageNum : Int) : BufDesc :=
  { d with file := filePtr, pageNo := pageNum, pinCnt := 1, dirty := false, refbit := true,
           valid := true }

/-- Modelled from the spec: the page-directory index `BufHashTbl` (declared in
`buf.h`) is a finite map from (file, pageNo) to a frame number, here an
association list read from the front. -/
abbrev BufHashTbl := List ((FilePtr × Int) × Nat)

/-- Modelled from the spec: `lookup(file, pageNo) -> frameNo | not-found`. -/
def BufHashTbl.lookup : BufHashTbl → FilePtr → Int → Option Nat
  | [], _, _ => none
  | (k, v) :: rest, file, pageNo =>
    if k = (file, pageNo) then some v else BufHashTbl.lookup rest file pageNo

/-- The table with every entry of the key (file, pageNo) dropped. -/
def BufHashTbl.erase (h : BufHashTbl) (file : FilePtr) (pageNo : Int) : BufHashTbl :=
  h.filter (fun e => decide (e.1 ≠ (file, pageNo)))

/-- Modelled from the spec: `remove(file, pageNo) -> status`. Removing a key
that is present succeeds; removing an absent key is an index failure and
leaves the table as it was. -/
def BufHashTbl.remove (h : BufHashTbl) (file : FilePtr) (pageNo : Int) : Status × BufHashTbl :=
  match h.lookup file pageNo with
  | none => (Status.HASHTBLERROR, h)
  | some _ => (Status.OK, h.erase file pageNo)

/-- Modelled from the spec: `insert(file, pageNo, frameNo) -> status`. The
insertion either fails (`ok = false`, an index failure that leaves the table
as it was) or binds the key to the frame. -/
def BufHashTbl.insert (h : BufHashTbl) (ok : Bool) (file : FilePtr) (pageNo : Int)
    (frameNo : Nat) : Status × BufHashTbl :=
  if ok then (Status.OK, ((file, pageNo), frameNo) :: h.erase file pageNo)
  else (Status.HASHTBLERROR, h)

/-- A call made to the file collaborator: the file it is made on, the page
number, and (for reads and writes) the index of the pool slot passed. -/
inductive IOCall where
  | read (file : FilePtr) (pageNo : Int) (slot : Nat)
  | write (file : FilePtr) (pageNo : Int) (slot : Nat)
  | dispose (file : FilePtr) (pageNo : Int)
  deriving DecidableEq, Repr

/-- Whether the call is a `readPage` of the file collaborator. -/
def IOCall.isRead : IOCall → Bool
  | IOCall.read _ _ _ => true
  | _ => false

/-- Whether the call is a `writePage` of the file collaborator. -/
def IOCall.isWrite : IOCall → Bool
  | IOCall.write _ _ _ => true
  | _ => false

/-- The collaborators seen from one operation: the status each file call
returns, and whether the index insertion succeeds. -/
structure Collab where
  fileRead : FilePtr → Int → Nat → Status
  fileWrite : FilePtr → Int → Nat → Status
  fileDispose : FilePtr → Int → Status
  insertOk : Bool

/-- The buffer manager: descriptor table, clock hand and index. `numBufs` is
the length of the descriptor table. -/
structure BufMgr where
  bufTable : List BufDesc
  clockHand : Nat
  hashTable : BufHashTbl
  deriving DecidableEq, Repr

/-- Number of frames. -/
def BufMgr.numBufs (s : BufMgr) : Nat := s.bufTable.length

/-- The descriptor `bufTable[i]`. -/
def BufMgr.desc (s : BufMgr) (i : Nat) : BufDesc := s.bufTable.getD i default

/-- The manager with `bufTable[i]` overwritten. -/
def BufMgr.setDesc (s : BufMgr) (i : Nat) (d : BufDesc) : BufMgr :=
  { s with bufTable := s.bufTable.set i d }

/-- Constructor `BufMgr::BufMgr(bufs)`: the table is zeroed, each frame gets
its number and `valid = false`, the index is empty and the clock hand is
`bufs - 1` (for `bufs = 0` the C++ hand is `-1` and is never read, as the
allocation loop then makes no examination; it is `0` here). -/
def BufMgr.init (bufs : Nat) : BufMgr :=
  { bufTable := (List.range bufs).map
      (fun i => { file := none, pageNo := 0, frameNo := i, pinCnt := 0, dirty := false,
                  valid := false, refbit := false })
    clockHand := bufs - 1
    hashTable := [] }

/-- Modelled from the spec: `advanceClock` (declared in `buf.h`) moves the
clock hand one frame forward, circularly. -/
def BufMgr.advanceClock (s : BufMgr) : BufMgr :=
  { s with clockHand := (s.clockHand + 1) % s.numBufs }

/-- Result of `allocBuf`: status, the reference parameter `frame`, the
manager afterwards and the file calls made. -/
structure AllocOut where
  status : Status
  frame : Nat
  st : BufMgr
  io : List IOCall
  deriving DecidableEq, Repr

/-- The loop of `allocBuf` with `n` examinations left. In the last branch
`curBuf->valid` holds (an invalid frame was returned earlier), so the guard
`curBuf->valid && hashTable->remove(...) != OK` always attempts the removal. -/
def allocLoop (env : Collab) : Nat → BufMgr → Nat → AllocOut
  | 0, s, frame => ⟨Status.BUFFEREXCEEDED, frame, s, []⟩
  | n + 1, s, frame =>
    let s1 := s.advanceClock
    let curBuf := s1.desc s1.clockHand
    if curBuf.valid = false then
      ⟨Status.OK, s1.clockHand, s1.setDesc s1.clockHand curBuf.Clear, []⟩
    else if curBuf.refbit = true then
      allocLoop env n (s1.setDesc s1.clockHand { curBuf with refbit := false }) frame
    else if curBuf.pinCnt > 0 then
      allocLoop env n s1 frame
    else if curBuf.dirty = true ∧
        env.fileWrite curBuf.file curBuf.pageNo s1.clockHand ≠ Status.OK then
      ⟨Status.UNIXERR, frame, s1, [IOCall.write curBuf.file curBuf.pageNo s1.clockHand]⟩
    else
      let io := if curBuf.dirty = true
        then [IOCall.write curBuf.file curBuf.pageNo s1.clockHand] else []
      let rm := s1.hashTable.remove curBuf.file curBuf.pageNo
      if rm.1 ≠ Status.OK then
        ⟨Status.HASHTBLERROR, frame, { s1 with hashTable := rm.2 }, io⟩
      else
        ⟨Status.OK, s1.clockHand,
          ({ s1 with hashTable := rm.2 }).setDesc s1.clockHand curBuf.Clear, io⟩

/-- The method `BufMgr::allocBuf(frame)`: at most `2 * numBufs` examinations. -/
def allocBuf (env : Collab) (s : BufMgr) (frame : Nat) : AllocOut :=
  allocLoop env (s.numBufs * 2) s frame

/-- Result of an operation: status, the page reference returned (a slot
index; `none` when the reference parameter is not assigned), the manager
afterwards and the file calls made. -/
structure OpOut where
  status : Status
  page : Option Nat
  st : BufMgr
  io : List IOCall
  deriving DecidableEq, Repr

/-- The method `BufMgr::readPage(file, PageNo, page)`. -/
def readPage (env : Collab) (s : BufMgr) (file : FilePtr) (PageNo : Int) : OpOut :=
  match s.hashTable.lookup file PageNo with
  | some framePointer =>
    let currentFrame := s.desc framePointer
    ⟨Status.OK, some framePointer,
      s.setDesc framePointer
        { currentFrame with pinCnt := currentFrame.pinCnt + 1, refbit := true }, []⟩
  | none =>
    let a := allocBuf env s 0
    if a.status ≠ Status.OK then ⟨a.status, none, a.st, a.io⟩
    else
      let readStatus := env.fileRead file PageNo a.frame
      let io := a.io ++ [IOCall.read file PageNo a.frame]
      if readStatus ≠ Status.OK then ⟨readStatus, none, a.st, io⟩
      else
        let ins := a.st.hashTable.insert env.insertOk file PageNo a.frame
        if ins.1 ≠ Status.OK then ⟨ins.1, none, { a.st with hashTable := ins.2 }, io⟩
        else
          let s2 : BufMgr := { a.st with hashTable := ins.2 }
          ⟨Status.OK, some a.frame,
            s2.setDesc a.frame ((s2.desc a.frame).Set file PageNo), io⟩

/-- The method `BufMgr::unPinPage(file, PageNo, dirty)`. -/
def unPinPage (s : BufMgr) (file : FilePtr) (PageNo : Int) (dirty : Bool) : OpOut :=
  match s.hashTable.lookup file PageNo with
  | none => ⟨Status.HASHNOTFOUND, none, s, []⟩
  | some framePointer =>
    let currentFrame := s.desc framePointer
    if currentFrame.pinCnt > 0 then
      ⟨Status.OK, none,
        s.setDesc framePointer
          { currentFrame with pinCnt := currentFrame.pinCnt - 1,
                              dirty := currentFrame.dirty || dirty }, []⟩
    else ⟨Status.PAGENOTPINNED, none, s, []⟩

/-- The method `BufMgr::disposePage(file, pageNo)`. -/
def disposePage (env : Collab) (s : BufMgr) (file : FilePtr) (pageNo : Int) : OpOut :=
  let s1 := match s.hashTable.lookup file pageNo with
    | some frameNo => s.setDesc frameNo (s.desc frameNo).Clear
    | none => s
  let rm := s1.hashTable.remove file pageNo
  ⟨env.fileDispose file pageNo, none, { s1 with hashTable := rm.2 },
    [IOCall.dispose file pageNo]⟩

/-- The loop of `flushFile`: `n` frames left, `i` the frame examined next.
The file calls of the frames examined later follow the call of this frame. -/
def flushLoop (env : Collab) (file : FilePtr) : Nat → Nat → BufMgr → OpOut
  | 0, _, s => ⟨Status.OK, none, s, []⟩
  | n + 1, i, s =>
    let tmpbuf := s.desc i
    if tmpbuf.valid = true ∧ tmpbuf.file = file then
      if tmpbuf.pinCnt > 0 then ⟨Status.PAGEPINNED, none, s, []⟩
      else if tmpbuf.dirty = true then
        let status := env.fileWrite tmpbuf.file tmpbuf.pageNo i
        if status ≠ Status.OK then
          ⟨status, none, s, [IOCall.write tmpbuf.file tmpbuf.pageNo i]⟩
        else
          let s1 : BufMgr :=
            { s with hashTable := (s.hashTable.remove file tmpbuf.pageNo).2 }
          let r := flushLoop env file n (i + 1)
            (s1.setDesc i { tmpbuf with dirty := false, file := none, pageNo := -1,
                                        valid := false })
          ⟨r.status, r.page, r.st, IOCall.write tmpbuf.file tmpbuf.pageNo i :: r.io⟩
      else
        let s1 : BufMgr :=
          { s with hashTable := (s.hashTable.remove file tmpbuf.pageNo).2 }
        flushLoop env file n (i + 1)
          (s1.setDesc i { tmpbuf with file := none, pageNo := -1, valid := false })
    else if tmpbuf.valid = false ∧ tmpbuf.file = file then
      ⟨Status.BADBUFFER, none, s, []⟩
    else flushLoop env file n (i + 1) s

/-- The method `BufMgr::flushFile(file)`. -/
def flushFile (env : Collab) (s : BufMgr) (file : FilePtr) : OpOut :=
  flushLoop env file s.numBufs 0 s

/-- States reachable from a freshly constructed manager by calls of
`readPage`, `unPinPage`, `disposePage` and `flushFile`, with any behaviour of
the collaborators at each call. `readPage` and `disposePage` dereference
`file`, so they are called on a file object. -/
inductive Reachable : BufMgr → Prop where
  | init (bufs : Nat) : Reachable (BufMgr.init bufs)
  | readPage (env : Collab) (s : BufMgr) (file : Nat) (PageNo : Int) :
      Reachable s → Reachable (readPage env s (some file) PageNo).st
  | unPinPage (s : BufMgr) (file : FilePtr) (PageNo : Int) (dirty : Bool) :
      Reachable s → Reachable (unPinPage s file PageNo dirty).st
  | disposePage (env : Collab) (s : BufMgr) (file : Nat) (pageNo : Int) :
      Reachable s → Reachable (disposePage env s (some file) pageNo).st
  | flushFile (env : Collab) (s : BufMgr) (file : FilePtr) :
      Reachable s → Reachable (flushFile env s file).st

/-- A collaborator whose every call succeeds. -/
def okEnv : Collab :=
  { fileRead := fun _ _ _ => Status.OK
    fileWrite := fun _ _ _ => Status.OK
    fileDispose := fun _ _ => Status.OK
    insertOk := true }

/-- A collaborator whose file reads fail and whose other calls succeed. -/
def readFailEnv : Collab :=
  { fileRead := fun _ _ _ => Status.UNIXERR
    fileWrite := fun _ _ _ => Status.OK
    fileDispose := fun _ _ => Status.OK
    insertOk := true }

/-- A collaborator whose file writes fail and whose other calls succeed. -/
def writeFailEnv : Collab :=
  { fileRead := fun _ _ _ => Status.OK
    fileWrite := fun _ _ _ => Status.UNIXERR
    fileDispose := fun _ _ => Status.OK
    insertOk := true }

/-- Scenario state: a 3-frame cache after reading pages 1, 2, 3 of file 1. -/
def pinned3 : BufMgr :=
  (readPage okEnv (readPage okEnv (readPage okEnv (BufMgr.init 3) (some 1) 1).st
    (some 1) 2).st (some 1) 3).st

/-- Scenario state: a 2-frame cache after reading page 1 of file 1, a failed
read of page 2 of file 1, and reading page 7 of file 2. -/
def mixed2 : BufMgr :=
  (readPage okEnv (readPage readFailEnv (readPage okEnv (BufMgr.init 2) (some 1) 1).st
    (some 1) 2).st (some 2) 7).st

/-- Scenario state: a 2-frame cache holding page 5 of file 1, pinned once and then
unpinned dirty. -/
def dirty2 : BufMgr :=
  (unPinPage (readPage okEnv (BufMgr.init 2) (some 1) 5).st (some 1) 5 true).st

/-- A run of `readPage` calls, each with its own collaborator behaviour, on
file objects: the state after the last call when every call returned OK. -/
def readAll : BufMgr → List (Collab × Nat × Int) → Option BufMgr
  | s, [] => some s
  | s, (env, file, PageNo) :: rest =>
    if (readPage env s (some file) PageNo).status = Status.OK
    then readAll (readPage env s (some file) PageNo).st rest else none

/-- The page a call of a run reads. -/
def callKey (c : Collab × Nat × Int) : FilePtr × Int := (some c.2.1, c.2.2)

/-- The reference for `unPinPage` in the words of the specification: not
found if the page is not in the index, not pinned if the pin count of its
frame equals 0, else decrement the pin count and accumulate the dirty flag. -/
def unPinPageSpec (s : BufMgr) (file : FilePtr) (PageNo : Int) (dirty : Bool) : OpOut :=
  match s.hashTable.lookup file PageNo with
  | none => ⟨Status.HASHNOTFOUND, none, s, []⟩
  | some f =>
    if (s.desc f).pinCnt = 0 then ⟨Status.PAGENOTPINNED, none, s, []⟩
    else
      ⟨Status.OK, none,
        s.setDesc f { s.desc f with pinCnt := (s.desc f).pinCnt - 1,
                                    dirty := (s.desc f).dirty || dirty }, []⟩

/-- The invariant of the buffer manager: the index and the valid frames
describe each other, a valid frame belongs to a file object, an invalid frame
is clean, unpinned and belongs to no file, pin counts are non-negative and
the clock hand is a frame number. -/
structure Inv (s : BufMgr) : Prop where
  validMapped : ∀ i, i < s.numBufs → (s.desc i).valid = true →
    s.hashTable.lookup (s.desc i).file (s.desc i).pageNo = some i
  mappedValid : ∀ f p i, s.hashTable.lookup f p = some i →
    i < s.numBufs ∧ (s.desc i).valid = true ∧ (s.desc i).file = f ∧ (s.desc i).pageNo = p
  validFile : ∀ i, i < s.numBufs → (s.desc i).valid = true → (s.desc i).file ≠ none
  invalidClean : ∀ i, i < s.numBufs → (s.desc i).valid = false →
    (s.desc i).file = none ∧ (s.desc i).pinCnt = 0 ∧ (s.desc i).dirty = false
  pinNonneg : ∀ i, i < s.numBufs → 0 ≤ (s.desc i).pinCnt
  hand : s.clockHand < s.numBufs ∨ s.numBufs = 0

/-- The state `m` differs from `s` at most in the clock hand and in reference
bits that went from true to false. -/
structure RefbitOnly (s m : BufMgr) : Prop where
  len : m.numBufs = s.numBufs
  tbl : m.hashTable = s.hashTable
  same : ∀ i, m.desc i = { s.desc i with refbit := (m.desc i).refbit }
  mono : ∀ i, (m.desc i).refbit = true → (s.desc i).refbit = true

/-- The last branch of an examination in `allocBuf`: the frame under the clock
hand is the eviction candidate. -/
def evictStep (env : Collab) (m : BufMgr) (frame : Nat) : AllocOut :=
  let curBuf := m.desc m.clockHand
  if curBuf.dirty = true ∧
      env.fileWrite curBuf.file curBuf.pageNo m.clockHand ≠ Status.OK then
    ⟨Status.UNIXERR, frame, m, [IOCall.write curBuf.file curBuf.pageNo m.clockHand]⟩
  else
    let io := if curBuf.dirty = true
      then [IOCall.write curBuf.file curBuf.pageNo m.clockHand] else []
    let rm := m.hashTable.remove curBuf.file curBuf.pageNo
    if rm.1 ≠ Status.OK then
      ⟨Status.HASHTBLERROR, frame, { m with hashTable := rm.2 }, io⟩
    else
      ⟨Status.OK, m.clockHand,
        ({ m with hashTable := rm.2 }).setDesc m.clockHand curBuf.Clear, io⟩

/-- How a run of the allocation loop ends, seen from the state `m` in which
the last examination takes place. -/
def AllocEnd (env : Collab) (m : BufMgr) (frame : Nat) (r : AllocOut) : Prop :=
  r = ⟨Status.BUFFEREXCEEDED, frame, m, []⟩ ∨
  (m.clockHand < m.numBufs ∧ (m.desc m.clockHand).valid = false ∧
    r = ⟨Status.OK, m.clockHand, m.setDesc m.clockHand (m.desc m.clockHand).Clear, []⟩) ∨
  (m.clockHand < m.numBufs ∧ (m.desc m.clockHand).valid = true ∧
    (m.desc m.clockHand).refbit = false ∧ (m.desc m.clockHand).pinCnt ≤ 0 ∧
    r = evictStep env m frame)

/-- The ways `allocBuf` ends on a coherent state; `m` is the state of the last
examination. -/
inductive AllocCase (env : Collab) (s : BufMgr) (frame : Nat) (r : AllocOut) : Prop where
  | exceeded (m : BufMgr) (hm : RefbitOnly s m) (hi : Inv m)
      (e : r = ⟨Status.BUFFEREXCEEDED, frame, m, []⟩)
  | free (m : BufMgr) (hm : RefbitOnly s m) (hi : Inv m) (hc : m.clockHand < m.numBufs)
      (hv : (m.desc m.clockHand).valid = false)
      (e : r = ⟨Status.OK, m.clockHand,
        m.setDesc m.clockHand (m.desc m.clockHand).Clear, []⟩)
  | writeFail (m : BufMgr) (hm : RefbitOnly s m) (hi : Inv m) (hc : m.clockHand < m.numBufs)
      (hv : (m.desc m.clockHand).valid = true) (hr : (m.desc m.clockHand).refbit = false)
      (hp : (m.desc m.clockHand).pinCnt = 0) (hd : (m.desc m.clockHand).dirty = true)
      (hw : env.fileWrite (m.desc m.clockHand).file (m.desc m.clockHand).pageNo m.clockHand
        ≠ Status.OK)
      (e : r = ⟨Status.UNIXERR, frame, m,
        [IOCall.write (m.desc m.clockHand).file (m.desc m.clockHand).pageNo m.clockHand]⟩)
  | evict (m : BufMgr) (hm : RefbitOnly s m) (hi : Inv m) (hc : m.clockHand < m.numBufs)
      (hv : (m.desc m.clockHand).valid = true) (hr : (m.desc m.clockHand).refbit = false)
      (hp : (m.desc m.clockHand).pinCnt = 0)
      (hw : (m.desc m.clockHand).dirty = true →
        env.fileWrite (m.desc m.clockHand).file (m.desc m.clockHand).pageNo m.clockHand
          = Status.OK)
      (e : r = ⟨Status.OK, m.clockHand,
        ({ m with hashTable :=
            m.hashTable.erase (m.desc m.clockHand).file (m.desc m.clockHand).pageNo }
          : BufMgr).setDesc m.clockHand (m.desc m.clockHand).Clear,
        if (m.desc m.clockHand).dirty = true
          then [IOCall.write (m.desc m.clockHand).file (m.desc m.clockHand).pageNo m.clockHand]
          else []⟩)

/-- What `allocBuf` does to a coherent state `s`, in terms of `s` and the
result `r` alone. -/
structure AllocSummary (env : Collab) (s : BufMgr) (frame : Nat) (r : AllocOut) : Prop where
  inv : Inv r.st
  len : r.st.numBufs = s.numBufs
  stat : r.status = Status.OK ∨ r.status = Status.BUFFEREXCEEDED ∨ r.status = Status.UNIXERR
  others : ∀ j, (r.status ≠ Status.OK ∨ j ≠ r.frame) →
    r.st.desc j = { s.desc j with refbit := (r.st.desc j).refbit } ∧
    ((r.st.desc j).refbit = true → (s.desc j).refbit = true)
  idx : ∀ f p, r.st.hashTable.lookup f p
    = if r.status = Status.OK ∧ s.hashTable.lookup f p = some r.frame then none
      else s.hashTable.lookup f p
  chosen : r.status = Status.OK →
    r.frame < s.numBufs ∧ r.st.clockHand = r.frame ∧
    r.st.desc r.frame = (s.desc r.frame).Clear ∧ (s.desc r.frame).pinCnt = 0 ∧
    r.io = (if (s.desc r.frame).valid = true ∧ (s.desc r.frame).dirty = true
      then [IOCall.write (s.desc r.frame).file (s.desc r.frame).pageNo r.frame] else []) ∧
    ((s.desc r.frame).valid = true → (s.desc r.frame).dirty = true →
      env.fileWrite (s.desc r.frame).file (s.desc r.frame).pageNo r.frame = Status.OK)
  failed : r.status ≠ Status.OK → r.frame = frame
  exceeded : r.status = Status.BUFFEREXCEEDED → r.io = []
  unixerr : r.status = Status.UNIXERR → ∃ j, j < s.numBufs ∧ (s.desc j).valid = true ∧
    (s.desc j).dirty = true ∧ (s.desc j).pinCnt = 0 ∧
    env.fileWrite (s.desc j).file (s.desc j).pageNo j ≠ Status.OK ∧
    r.io = [IOCall.write (s.desc j).file (s.desc j).pageNo j]

/-- The state after a successful miss of `readPage`: the index binds the page
to frame `fr` and the descriptor of `fr` is initialised. -/
def installPage (t : BufMgr) (fr : Nat) (file : FilePtr) (PageNo : Int) : BufMgr :=
  (BufMgr.mk t.bufTable t.clockHand (t.hashTable.insert true file PageNo fr).2).setDesc fr
    ((t.desc fr).Set file PageNo)

/-- The descriptor `flushFile` leaves in a frame it has flushed. -/
def BufDesc.flushed (d : BufDesc) : BufDesc :=
  { d with dirty := false, file := none, pageNo := -1, valid := false }

/-- The state after `flushFile(file)` has flushed frame `i`. -/
def flushFrame (s : BufMgr) (file : FilePtr) (i : Nat) : BufMgr :=
  (BufMgr.mk s.bufTable s.clockHand (s.hashTable.remove file (s.desc i).pageNo).2).setDesc i
    (s.desc i).flushed

/-- The writes `flushFile(file)` issues for the frames `i, ..., i+n-1` of the
state `s`: one per valid dirty frame of `file`, in frame order. -/
def dirtyWrites (s : BufMgr) (file : FilePtr) : Nat → Nat → List IOCall
  | _, 0 => []
  | i, n + 1 =>
    (if (s.desc i).valid = true ∧ (s.desc i).file = file ∧ (s.desc i).dirty = true
      then [IOCall.write file (s.desc i).pageNo i] else []) ++ dirtyWrites s file (i + 1) n

/-- Why the scan of `flushFile` over the frames `i, ..., i+n-1` stopped at
frame `k`, with the status and the file calls of the result `r`. -/
def FlushStop (env : Collab) (s : BufMgr) (file : FilePtr) (i n : Nat) (r : OpOut)
    (k : Nat) : Prop :=
  (k = i + n ∧ r.status = Status.OK ∧ r.io = dirtyWrites s file i (k - i)) ∨
  (k < i + n ∧ (s.desc k).valid = true ∧ (s.desc k).file = file ∧ 0 < (s.desc k).pinCnt ∧
    r.status = Status.PAGEPINNED ∧ r.io = dirtyWrites s file i (k - i)) ∨
  (k < i + n ∧ (s.desc k).valid = true ∧ (s.desc k).file = file ∧ (s.desc k).pinCnt = 0 ∧
    (s.desc k).dirty = true ∧ r.status = env.fileWrite file (s.desc k).pageNo k ∧
    r.status ≠ Status.OK ∧
    r.io = dirtyWrites s file i (k - i) ++ [IOCall.write file (s.desc k).pageNo k]) ∨
  (k < i + n ∧ (s.desc k).valid = false ∧ (s.desc k).file = file ∧
    r.status = Status.BADBUFFER ∧ r.io = dirtyWrites s file i (k - i))

/-- The effect of the scan of `flushFile(file)` over the frames `i, ..., i+n-1`
of a coherent state `s`, when it stops at frame `k`: the valid frames of
`file` before `k` were unpinned and are flushed, every other frame is
untouched, and the index lost exactly the entries of `file` that pointed
into the flushed range. -/
structure FlushTrace (env : Collab) (s : BufMgr) (file : FilePtr) (i n : Nat) (r : OpOut)
    (k : Nat) : Prop where
  lo : i ≤ k
  hi : k ≤ i + n
  flushedFrames : ∀ j, i ≤ j → j < k → (s.desc j).valid = true → (s.desc j).file = file →
    (s.desc j).pinCnt = 0 ∧ r.st.desc j = (s.desc j).flushed ∧
    ((s.desc j).dirty = true → env.fileWrite file (s.desc j).pageNo j = Status.OK)
  kept : ∀ j, ¬(i ≤ j ∧ j < k ∧ (s.desc j).valid = true ∧ (s.desc j).file = file) →
    r.st.desc j = s.desc j
  noBad : ∀ j, i ≤ j → j < k → (s.desc j).file = file → (s.desc j).valid = true
  idxKept : ∀ f p j, s.hashTable.lookup f p = some j → ¬(i ≤ j ∧ j < k ∧ f = file) →
    r.st.hashTable.lookup f p = some j
  idxGone : ∀ f p j, s.hashTable.lookup f p = some j → (i ≤ j ∧ j < k ∧ f = file) →
    r.st.hashTable.lookup f p = none
  idxNone : ∀ f p, s.hashTable.lookup f p = none → r.st.hashTable.lookup f p = none
  len : r.st.numBufs = s.numBufs
  hand : r.st.clockHand = s.clockHand
  stop : FlushStop env s file i n r k

/-- The page (F, p) is still resident in frame `f` after the operation with
result `r`, and the operation made no file read into slot `f`. -/
def StaysResident (F : FilePtr) (p : Int) (f : Nat) (r : OpOut) : Prop :=
  r.st.hashTable.lookup F p = some f ∧ (r.st.desc f).valid = true ∧
  (r.st.desc f).file = F ∧ (r.st.desc f).pageNo = p ∧
  ∀ G q, IOCall.read G q f ∉ r.io

/-- Frame `f` still holds the dirty page (F, p) after the operation with
result `r`, or the operation wrote the page back from slot `f` successfully. -/
def DirtyKept (env : Collab) (F : FilePtr) (p : Int) (f : Nat) (r : OpOut) : Prop :=
  ((r.st.desc f).valid = true ∧ (r.st.desc f).file = F ∧ (r.st.desc f).pageNo = p ∧
    (r.st.desc f).dirty = true) ∨
  (IOCall.write F p f ∈ r.io ∧ env.fileWrite F p f = Status.OK)

/-- Every frame of the pool is valid and pinned. -/
def AllPinned (s : BufMgr) : Prop :=
  ∀ i, i < s.numBufs → (s.desc i).valid = true ∧ 0 < (s.desc i).pinCnt

/-- Number of clock steps after which a hand at `c` examines frame `j`. -/
def clockDist (c j N : Nat) : Nat := if c < j then j - c else j + N - c

/-- Number of examinations within which the sweep from `s` is sure to end
when frame `j` is invalid or unpinned: the steps until the hand reaches `j`,
plus one more round when `j` still has its reference bit. -/
def sweepBudget (s : BufMgr) (j : Nat) : Nat :=
  clockDist s.clockHand j s.numBufs +
    (if (s.desc j).valid = true ∧ (s.desc j).refbit = true then s.numBufs else 0)

/-- The cache while a fresh cache is being filled by successful reads of
distinct pages: frames `0, ..., k-1` are valid and pinned, the others are
invalid, the clock hand is just before frame `k`, and only pages in `seen`
are in the index. -/
structure Filled (N : Nat) (s : BufMgr) (k : Nat) (seen : List (FilePtr × Int)) : Prop where
  len : s.numBufs = N
  le : k ≤ N
  pinned : ∀ i, i < k → (s.desc i).valid = true ∧ 0 < (s.desc i).pinCnt
  free : ∀ i, k ≤ i → (s.desc i).valid = false
  next : k < N → (s.clockHand + 1) % N = k
  handLt : s.clockHand < N ∨ N = 0
  idx : ∀ f p, (f, p) ∉ seen → s.hashTable.lookup f p = none

/-- The write-back loop of the destructor `BufMgr::~BufMgr()`: the file calls
it makes with `n` frames left, `i` being the frame examined next. The status
each `writePage` returns is discarded by the destructor. -/
def teardownLoop (s : BufMgr) : Nat → Nat → List IOCall
  | 0, _ => []
  | n + 1, i =>
    let tmpbuf := s.desc i
    if tmpbuf.valid = true ∧ tmpbuf.dirty = true then
      IOCall.write tmpbuf.file tmpbuf.pageNo i :: teardownLoop s n (i + 1)
    else teardownLoop s n (i + 1)

/-- The destructor `BufMgr::~BufMgr()`: the file calls made before the table
and the pool are released. -/
def teardown (s : BufMgr) : List IOCall := teardownLoop s s.numBufs 0

/-- Scenario state: `dirty2` after also reading page 6 of file 1: frame 0 holds
the unpinned dirty page 5, frame 1 the pinned page 6. -/
def full2 : BufMgr := (readPage okEnv dirty2 (some 1) 6).st

/-- Scenario state: `full2` after a `readPage` of page 7 whose eviction write
failed: both reference bits are cleared and the clock hand is at frame 0. -/
def cold2 : BufMgr := (readPage writeFailEnv full2 (some 1) 7).st

/-- Scenario A state: a 3-frame cache after reading pages 1, 2, 3 of file 1 and
unpinning page 2 without marking it dirty. -/
def scenarioA : BufMgr := (unPinPage pinned3 (some 1) 2 false).st

/-! ## Descriptor table and index: basic facts -/

theorem numBufs_setDesc (s : BufMgr) (i : Nat) (d : BufDesc) :
    (s.setDesc i d).numBufs = s.numBufs := by
  simp [BufMgr.setDesc, BufMgr.numBufs]

theorem desc_setDesc (s : BufMgr) (i : Nat) (d : BufDesc) (j : Nat) :
    (s.setDesc i d).desc j = if j = i ∧ i < s.numBufs then d else s.desc j := by
  simp only [BufMgr.setDesc, BufMgr.desc, BufMgr.numBufs, List.getD_eq_getElem?_getD,
    List.getElem?_set]
  by_cases h : i = j
  · subst h
    by_cases h2 : i < s.bufTable.length
    · simp [h2]
    · have h3 : s.bufTable.length ≤ i := Nat.le_of_not_lt h2
      simp [h2, List.getElem?_eq_none h3]
  · have h2 : ¬ j = i := fun e => h e.symm
    simp [h, h2]

theorem desc_setDesc_self (s : BufMgr) (i : Nat) (d : BufDesc) (h : i < s.numBufs) :
    (s.setDesc i d).desc i = d := by
  simp [desc_setDesc, h]

theorem desc_setDesc_ne (s : BufMgr) (i : Nat) (d : BufDesc) (j : Nat) (h : j ≠ i) :
    (s.setDesc i d).desc j = s.desc j := by
  simp [desc_setDesc, h]

theorem hashTable_setDesc (s : BufMgr) (i : Nat) (d : BufDesc) :
    (s.setDesc i d).hashTable = s.hashTable := rfl

theorem clockHand_setDesc (s : BufMgr) (i : Nat) (d : BufDesc) :
    (s.setDesc i d).clockHand = s.clockHand := rfl

theorem setDesc_desc_self (s : BufMgr) (i : Nat) : s.setDesc i (s.desc i) = s := by
  cases s with
  | mk t c h =>
    simp only [BufMgr.setDesc, BufMgr.desc, BufMgr.mk.injEq, and_true]
    apply List.ext_getElem?
    intro j
    simp only [List.getElem?_set, List.getD_eq_getElem?_getD]
    by_cases hij : i = j
    · subst hij
      by_cases hl : i < t.length
      · simp [hl, List.getElem?_eq_getElem hl]
      · simp [hl, List.getElem?_eq_none (Nat.le_of_not_lt hl)]
    · simp [hij]

theorem desc_default_of_le (s : BufMgr) (i : Nat) (h : s.numBufs ≤ i) : s.desc i = default := by
  simp [BufMgr.desc, List.getD_eq_getElem?_getD, List.getElem?_eq_none h]

theorem bufTable_ext (s t : BufMgr) (hl : t.numBufs = s.numBufs)
    (h : ∀ i, i < s.numBufs → t.desc i = s.desc i) : t.bufTable = s.bufTable := by
  apply List.ext_getElem?
  intro i
  by_cases hi : i < s.numBufs
  · have h1 := h i hi
    have hi2 : i < t.bufTable.length := by rw [← hl] at hi; exact hi
    have hi3 : i < s.bufTable.length := hi
    simp only [BufMgr.desc, List.getD_eq_getElem?_getD, List.getElem?_eq_getElem hi2,
      List.getElem?_eq_getElem hi3, Option.getD_some] at h1
    simp [List.getElem?_eq_getElem hi2, List.getElem?_eq_getElem hi3, h1]
  · have h1 : s.bufTable.length ≤ i := Nat.le_of_not_lt hi
    have h2 : t.bufTable.length ≤ i := by
      have : t.bufTable.length = s.bufTable.length := hl
      omega
    simp [List.getElem?_eq_none h1, List.getElem?_eq_none h2]

theorem erase_cons (e : (FilePtr × Int) × Nat) (rest : BufHashTbl) (file : FilePtr)
    (pageNo : Int) :
    BufHashTbl.erase (e :: rest) file pageNo
      = if e.1 = (file, pageNo) then BufHashTbl.erase rest file pageNo
        else e :: BufHashTbl.erase rest file pageNo := by
  by_cases hk : e.1 = (file, pageNo)
  · simp only [BufHashTbl.erase, hk, if_true]
    rw [List.filter_cons_of_neg]
    simp [hk]
  · simp only [BufHashTbl.erase, hk, if_false]
    rw [List.filter_cons_of_pos]
    simp [hk]

theorem lookup_cons (k : FilePtr × Int) (v : Nat) (rest : BufHashTbl) (f : FilePtr) (p : Int) :
    BufHashTbl.lookup ((k, v) :: rest) f p
      = if k = (f, p) then some v else BufHashTbl.lookup rest f p := rfl

theorem lookup_erase_self (h : BufHashTbl) (file : FilePtr) (pageNo : Int) :
    (h.erase file pageNo).lookup file pageNo = none := by
  induction h with
  | nil => rfl
  | cons e rest ih =>
    obtain ⟨k, v⟩ := e
    rw [erase_cons]
    by_cases hk : k = (file, pageNo)
    · simp only [hk, if_true]; exact ih
    · simp only [hk, if_false, lookup_cons]; exact ih

theorem lookup_erase_ne (h : BufHashTbl) (file : FilePtr) (pageNo : Int) (f : FilePtr)
    (p : Int) (hne : (f, p) ≠ (file, pageNo)) :
    (h.erase file pageNo).lookup f p = h.lookup f p := by
  induction h with
  | nil => rfl
  | cons e rest ih =>
    obtain ⟨k, v⟩ := e
    rw [erase_cons]
    by_cases hk : k = (file, pageNo)
    · have hk2 : ¬ k = (f, p) := by rw [hk]; exact fun e => hne e.symm
      simp only [hk, if_true, lookup_cons]
      rw [if_neg (fun e => hne e.symm)]
      exact ih
    · by_cases hk3 : k = (f, p)
      · subst hk3
        rw [if_neg hk, lookup_cons, if_pos rfl, lookup_cons, if_pos rfl]
      · simp only [hk, if_false, lookup_cons, hk3]
        exact ih

theorem lookup_erase (h : BufHashTbl) (file : FilePtr) (pageNo : Int) (f : FilePtr) (p : Int) :
    (h.erase file pageNo).lookup f p
      = if (f, p) = (file, pageNo) then none else h.lookup f p := by
  by_cases hk : (f, p) = (file, pageNo)
  · have h1 : f = file := congrArg Prod.fst hk
    have h2 : p = pageNo := congrArg Prod.snd hk
    subst h1; subst h2
    simp [lookup_erase_self]
  · simp [hk, lookup_erase_ne h file pageNo f p hk]

theorem lookup_remove (h : BufHashTbl) (file : FilePtr) (pageNo : Int) (f : FilePtr) (p : Int) :
    (h.remove file pageNo).2.lookup f p
      = if (f, p) = (file, pageNo) then none else h.lookup f p := by
  unfold BufHashTbl.remove
  cases hl : h.lookup file pageNo with
  | none =>
    by_cases hk : (f, p) = (file, pageNo)
    · have h1 : f = file := congrArg Prod.fst hk
      have h2 : p = pageNo := congrArg Prod.snd hk
      subst h1; subst h2
      simp [hl]
    · simp [hk]
  | some v => simp [lookup_erase]

theorem remove_status (h : BufHashTbl) (file : FilePtr) (pageNo : Int) :
    (h.remove file pageNo).1
      = if h.lookup file pageNo = none then Status.HASHTBLERROR else Status.OK := by
  unfold BufHashTbl.remove
  cases hl : h.lookup file pageNo <;> simp

theorem remove_of_lookup_none (h : BufHashTbl) (file : FilePtr) (pageNo : Int)
    (hl : h.lookup file pageNo = none) : (h.remove file pageNo).2 = h := by
  unfold BufHashTbl.remove
  simp [hl]

theorem lookup_insert (h : BufHashTbl) (file : FilePtr) (pageNo : Int) (v : Nat) (f : FilePtr)
    (p : Int) :
    (h.insert true file pageNo v).2.lookup f p
      = if (f, p) = (file, pageNo) then some v else h.lookup f p := by
  by_cases hk : (f, p) = (file, pageNo)
  · simp [BufHashTbl.insert, BufHashTbl.lookup, hk]
  · have hk2 : ¬ (file, pageNo) = (f, p) := fun e => hk e.symm
    simp only [BufHashTbl.insert, BufHashTbl.lookup, hk, hk2, if_true, if_false]
    exact lookup_erase_ne h file pageNo f p hk

/-! ## The coherence invariant -/

theorem Inv.lookup_none_file {s : BufMgr} (h : Inv s) (p : Int) :
    s.hashTable.lookup none p = none := by
  cases hl : s.hashTable.lookup none p with
  | none => rfl
  | some i =>
    obtain ⟨hi, hv, hf, _⟩ := h.mappedValid none p i hl
    exact absurd hf (h.validFile i hi hv)

/-- The invariant survives a change that keeps every frame's validity, file
and page number, keeps pin counts non-negative and leaves invalid frames
clean and unpinned. -/
theorem Inv.touch {s t : BufMgr} (h : Inv s) (hlen : t.numBufs = s.numBufs)
    (hh : t.hashTable = s.hashTable) (hhand : t.clockHand < t.numBufs ∨ t.numBufs = 0)
    (hd : ∀ j, j < s.numBufs →
      (t.desc j).valid = (s.desc j).valid ∧ (t.desc j).file = (s.desc j).file ∧
      (t.desc j).pageNo = (s.desc j).pageNo ∧ 0 ≤ (t.desc j).pinCnt ∧
      ((s.desc j).valid = false →
        (t.desc j).pinCnt = (s.desc j).pinCnt ∧ (t.desc j).dirty = (s.desc j).dirty)) :
    Inv t := by
  refine ⟨?_, ?_, ?_, ?_, ?_, hhand⟩
  · intro i hi hv
    rw [hlen] at hi
    obtain ⟨h1, h2, h3, _, _⟩ := hd i hi
    rw [hh, h2, h3]
    exact h.validMapped i hi (h1 ▸ hv)
  · intro f p i hl
    rw [hh] at hl
    obtain ⟨hi, hv, hf, hp⟩ := h.mappedValid f p i hl
    obtain ⟨h1, h2, h3, _, _⟩ := hd i hi
    exact ⟨hlen ▸ hi, h1 ▸ hv, h2 ▸ hf, h3 ▸ hp⟩
  · intro i hi hv
    rw [hlen] at hi
    obtain ⟨h1, h2, _, _, _⟩ := hd i hi
    rw [h2]
    exact h.validFile i hi (h1 ▸ hv)
  · intro i hi hv
    rw [hlen] at hi
    obtain ⟨h1, h2, _, _, h5⟩ := hd i hi
    have hv0 : (s.desc i).valid = false := h1 ▸ hv
    obtain ⟨a, b, c⟩ := h.invalidClean i hi hv0
    obtain ⟨e1, e2⟩ := h5 hv0
    exact ⟨h2 ▸ a, e1 ▸ b, e2 ▸ c⟩
  · intro i hi
    rw [hlen] at hi
    exact (hd i hi).2.2.2.1

/-- The invariant survives emptying frame `i`: its descriptor becomes invalid,
clean and unpinned, and the index loses exactly the entries pointing at `i`. -/
theorem Inv.drop {s t : BufMgr} (h : Inv s) (i : Nat) (hlen : t.numBufs = s.numBufs)
    (hhand : t.clockHand < t.numBufs ∨ t.numBufs = 0)
    (hi : (t.desc i).valid = false ∧ (t.desc i).file = none ∧ (t.desc i).pinCnt = 0 ∧
      (t.desc i).dirty = false)
    (hd : ∀ j, j < s.numBufs → j ≠ i → t.desc j = s.desc j)
    (hidx1 : ∀ f p v, t.hashTable.lookup f p = some v →
      s.hashTable.lookup f p = some v ∧ v ≠ i)
    (hidx2 : ∀ f p v, s.hashTable.lookup f p = some v → v ≠ i →
      t.hashTable.lookup f p = some v) :
    Inv t := by
  refine ⟨?_, ?_, ?_, ?_, ?_, hhand⟩
  · intro j hj hv
    rw [hlen] at hj
    by_cases hji : j = i
    · subst hji; rw [hi.1] at hv; exact absurd hv (by decide)
    · have e := hd j hj hji
      rw [e] at hv ⊢
      exact hidx2 _ _ _ (h.validMapped j hj hv) hji
  · intro f p v hl
    obtain ⟨hl1, hvi⟩ := hidx1 f p v hl
    obtain ⟨hv, a, b, c⟩ := h.mappedValid f p v hl1
    rw [hd v hv hvi]
    exact ⟨hlen ▸ hv, a, b, c⟩
  · intro j hj hv
    rw [hlen] at hj
    by_cases hji : j = i
    · subst hji; rw [hi.1] at hv; exact absurd hv (by decide)
    · rw [hd j hj hji] at hv ⊢
      exact h.validFile j hj hv
  · intro j hj hv
    rw [hlen] at hj
    by_cases hji : j = i
    · subst hji; exact ⟨hi.2.1, hi.2.2.1, hi.2.2.2⟩
    · rw [hd j hj hji] at hv ⊢
      exact h.invalidClean j hj hv
  · intro j hj
    rw [hlen] at hj
    by_cases hji : j = i
    · subst hji; rw [hi.2.2.1]
    · rw [hd j hj hji]
      exact h.pinNonneg j hj

/-- The invariant survives loading a page of a file object, absent from the
index, into the invalid frame `i`. -/
theorem Inv.install {s t : BufMgr} (h : Inv s) (i : Nat) (hiN : i < s.numBufs)
    (file : FilePtr) (p : Int) (hf : file ≠ none) (hlen : t.numBufs = s.numBufs)
    (hhand : t.clockHand < t.numBufs ∨ t.numBufs = 0)
    (hold : (s.desc i).valid = false)
    (hi : (t.desc i).valid = true ∧ (t.desc i).file = file ∧ (t.desc i).pageNo = p ∧
      0 ≤ (t.desc i).pinCnt)
    (hd : ∀ j, j < s.numBufs → j ≠ i → t.desc j = s.desc j)
    (hidx : ∀ f q, t.hashTable.lookup f q
      = if (f, q) = (file, p) then some i else s.hashTable.lookup f q)
    (hnew : s.hashTable.lookup file p = none) :
    Inv t := by
  refine ⟨?_, ?_, ?_, ?_, ?_, hhand⟩
  · intro j hj hv
    rw [hlen] at hj
    by_cases hji : j = i
    · subst hji
      rw [hidx, hi.2.1, hi.2.2.1]
      simp
    · rw [hd j hj hji] at hv ⊢
      have hm := h.validMapped j hj hv
      rw [hidx]
      by_cases hk : ((s.desc j).file, (s.desc j).pageNo) = (file, p)
      · have h1 : (s.desc j).file = file := congrArg Prod.fst hk
        have h2 : (s.desc j).pageNo = p := congrArg Prod.snd hk
        rw [h1, h2, hnew] at hm
        exact absurd hm (by simp)
      · rw [if_neg hk]; exact hm
  · intro f q v hl
    rw [hidx] at hl
    by_cases hk : (f, q) = (file, p)
    · rw [if_pos hk] at hl
      have hv : i = v := Option.some.inj hl
      subst hv
      have h1 : f = file := congrArg Prod.fst hk
      have h2 : q = p := congrArg Prod.snd hk
      exact ⟨hlen ▸ hiN, hi.1, h1 ▸ hi.2.1, h2 ▸ hi.2.2.1⟩
    · rw [if_neg hk] at hl
      obtain ⟨hv, a, b, c⟩ := h.mappedValid f q v hl
      have hvi : v ≠ i := by
        intro e; subst e; rw [hold] at a; exact absurd a (by decide)
      rw [hd v hv hvi]
      exact ⟨hlen ▸ hv, a, b, c⟩
  · intro j hj hv
    rw [hlen] at hj
    by_cases hji : j = i
    · subst hji; rw [hi.2.1]; exact hf
    · rw [hd j hj hji] at hv ⊢
      exact h.validFile j hj hv
  · intro j hj hv
    rw [hlen] at hj
    by_cases hji : j = i
    · subst hji; rw [hi.1] at hv; exact absurd hv (by decide)
    · rw [hd j hj hji] at hv ⊢
      exact h.invalidClean j hj hv
  · intro j hj
    rw [hlen] at hj
    by_cases hji : j = i
    · subst hji; exact hi.2.2.2
    · rw [hd j hj hji]
      exact h.pinNonneg j hj

/-! ## The clock sweep -/

theorem RefbitOnly.refl (s : BufMgr) : RefbitOnly s s :=
  ⟨rfl, rfl, fun _ => rfl, fun _ h => h⟩

theorem RefbitOnly.trans {s m k : BufMgr} (h1 : RefbitOnly s m) (h2 : RefbitOnly m k) :
    RefbitOnly s k := by
  refine ⟨h2.len.trans h1.len, h2.tbl.trans h1.tbl, ?_, fun i h => h1.mono i (h2.mono i h)⟩
  intro i
  have a := h2.same i
  have b := h1.same i
  rw [b] at a
  exact a

theorem RefbitOnly.advance (s : BufMgr) : RefbitOnly s s.advanceClock :=
  ⟨rfl, rfl, fun _ => rfl, fun _ h => h⟩

theorem RefbitOnly.clear (s : BufMgr) (i : Nat) :
    RefbitOnly s (s.setDesc i { s.desc i with refbit := false }) := by
  refine ⟨numBufs_setDesc _ _ _, rfl, ?_, ?_⟩
  · intro j
    rw [desc_setDesc]
    by_cases hj : j = i ∧ i < s.numBufs
    · rw [if_pos hj, hj.1]
    · rw [if_neg hj]
  · intro j
    rw [desc_setDesc]
    by_cases hj : j = i ∧ i < s.numBufs
    · rw [if_pos hj]; intro h; exact absurd h (by simp)
    · rw [if_neg hj]; exact fun h => h

theorem RefbitOnly.valid_eq {s m : BufMgr} (h : RefbitOnly s m) (i : Nat) :
    (m.desc i).valid = (s.desc i).valid := by rw [h.same i]

theorem RefbitOnly.file_eq {s m : BufMgr} (h : RefbitOnly s m) (i : Nat) :
    (m.desc i).file = (s.desc i).file := by rw [h.same i]

theorem RefbitOnly.pageNo_eq {s m : BufMgr} (h : RefbitOnly s m) (i : Nat) :
    (m.desc i).pageNo = (s.desc i).pageNo := by rw [h.same i]

theorem RefbitOnly.pinCnt_eq {s m : BufMgr} (h : RefbitOnly s m) (i : Nat) :
    (m.desc i).pinCnt = (s.desc i).pinCnt := by rw [h.same i]

theorem RefbitOnly.dirty_eq {s m : BufMgr} (h : RefbitOnly s m) (i : Nat) :
    (m.desc i).dirty = (s.desc i).dirty := by rw [h.same i]

theorem RefbitOnly.frameNo_eq {s m : BufMgr} (h : RefbitOnly s m) (i : Nat) :
    (m.desc i).frameNo = (s.desc i).frameNo := by rw [h.same i]

theorem RefbitOnly.keepsInv {s m : BufMgr} (h : RefbitOnly s m) (hs : Inv s)
    (hhand : m.clockHand < m.numBufs ∨ m.numBufs = 0) : Inv m :=
  hs.touch h.len h.tbl hhand (fun j hj =>
    ⟨h.valid_eq j, h.file_eq j, h.pageNo_eq j, by rw [h.pinCnt_eq j]; exact hs.pinNonneg j hj,
      fun _ => ⟨h.pinCnt_eq j, h.dirty_eq j⟩⟩)

theorem advanceClock_lt (s : BufMgr) (hN : 0 < s.numBufs) :
    s.advanceClock.clockHand < s.advanceClock.numBufs :=
  Nat.mod_lt _ hN

/-- Every run of the allocation loop clears some reference bits and then
either gives up, takes an invalid frame, or ends in the eviction branch. -/
theorem allocLoop_char (env : Collab) (n : Nat) (s : BufMgr) (frame : Nat)
    (hN : 0 < s.numBufs) :
    ∃ m, RefbitOnly s m ∧ (m.clockHand < m.numBufs ∨ n = 0) ∧
      AllocEnd env m frame (allocLoop env n s frame) := by
  induction n generalizing s with
  | zero => exact ⟨s, RefbitOnly.refl s, Or.inr rfl, Or.inl rfl⟩
  | succ n ih =>
    have hlt := advanceClock_lt s hN
    simp only [allocLoop]
    split
    · rename_i hv
      exact ⟨s.advanceClock, RefbitOnly.advance s, Or.inl hlt, Or.inr (Or.inl ⟨hlt, hv, rfl⟩)⟩
    · rename_i hv
      split
      · have hN2 : 0 < (s.advanceClock.setDesc s.advanceClock.clockHand
            { s.advanceClock.desc s.advanceClock.clockHand with refbit := false }).numBufs := by
          rw [numBufs_setDesc]; exact hN
        obtain ⟨m, hm, hh, he⟩ := ih _ hN2
        refine ⟨m, ((RefbitOnly.advance s).trans (RefbitOnly.clear _ _)).trans hm, ?_, he⟩
        rcases hh with hh | hh
        · exact Or.inl hh
        · subst hh
          rcases he with he | he | he
          · simp only [allocLoop] at he
            have := congrArg AllocOut.st he
            simp only at this
            rw [← this, numBufs_setDesc]
            exact Or.inl hlt
          · exact Or.inl he.1
          · exact Or.inl he.1
      · rename_i hr
        split
        · obtain ⟨m, hm, hh, he⟩ := ih s.advanceClock hN
          refine ⟨m, (RefbitOnly.advance s).trans hm, ?_, he⟩
          rcases hh with hh | hh
          · exact Or.inl hh
          · subst hh
            rcases he with he | he | he
            · simp only [allocLoop] at he
              have := congrArg AllocOut.st he
              simp only at this
              rw [← this]
              exact Or.inl hlt
            · exact Or.inl he.1
            · exact Or.inl he.1
        · rename_i hp
          refine ⟨s.advanceClock, RefbitOnly.advance s, Or.inl hlt, Or.inr (Or.inr ⟨hlt, ?_, ?_, ?_, ?_⟩)⟩
          · simpa using hv
          · simpa using hr
          · exact Int.not_lt.mp hp
          · simp only [evictStep]

theorem valid_lt (s : BufMgr) (i : Nat) (h : (s.desc i).valid = true) : i < s.numBufs := by
  by_contra hlt
  rw [desc_default_of_le s i (Nat.le_of_not_lt hlt)] at h
  exact absurd h (by decide)

/-- The invariant survives emptying frame `c` together with the removal of
its key from the index. -/
theorem Inv.dropFrame {m : BufMgr} (h : Inv m) (c : Nat) (d : BufDesc) (ht : BufHashTbl)
    (hd : d.valid = false ∧ d.file = none ∧ d.pinCnt = 0 ∧ d.dirty = false)
    (hidx : ∀ f p, ht.lookup f p
      = if (f, p) = ((m.desc c).file, (m.desc c).pageNo) then none
        else m.hashTable.lookup f p)
    (hc : c < m.numBufs) :
    Inv (({ m with hashTable := ht } : BufMgr).setDesc c d) := by
  have hc2 : c < ({ m with hashTable := ht } : BufMgr).numBufs := hc
  refine h.drop c (numBufs_setDesc _ _ _) ?_ ?_ ?_ ?_ ?_
  · rw [numBufs_setDesc]; exact h.hand
  · rw [desc_setDesc_self _ _ _ hc2]; exact hd
  · intro j _ hji
    rw [desc_setDesc_ne _ _ _ _ hji]; rfl
  · intro f p v hl
    rw [hashTable_setDesc] at hl
    simp only at hl
    rw [hidx] at hl
    by_cases hk : (f, p) = ((m.desc c).file, (m.desc c).pageNo)
    · rw [if_pos hk] at hl; exact absurd hl (by simp)
    · rw [if_neg hk] at hl
      refine ⟨hl, ?_⟩
      intro e
      subst e
      obtain ⟨_, _, a, b⟩ := h.mappedValid f p v hl
      exact hk (by rw [a, b])
  · intro f p v hl hvc
    rw [hashTable_setDesc]
    simp only
    rw [hidx]
    by_cases hk : (f, p) = ((m.desc c).file, (m.desc c).pageNo)
    · exfalso
      have h1 : f = (m.desc c).file := congrArg Prod.fst hk
      have h2 : p = (m.desc c).pageNo := congrArg Prod.snd hk
      cases hv : (m.desc c).valid with
      | true =>
        have := h.validMapped c hc hv
        rw [← h1, ← h2, hl] at this
        exact hvc (Option.some.inj this)
      | false =>
        have hn := (h.invalidClean c hc hv).1
        rw [h1, hn, h.lookup_none_file] at hl
        exact absurd hl (by simp)
    · rw [if_neg hk]; exact hl

theorem allocBuf_cases (env : Collab) (s : BufMgr) (frame : Nat) (hs : Inv s) :
    AllocCase env s frame (allocBuf env s frame) := by
  by_cases hN : 0 < s.numBufs
  · obtain ⟨m, hm, hh, he⟩ := allocLoop_char env (s.numBufs * 2) s frame hN
    have hhand : m.clockHand < m.numBufs := by
      rcases hh with hh | hh
      · exact hh
      · omega
    have hi : Inv m := hm.keepsInv hs (Or.inl hhand)
    rcases he with he | ⟨hc, hv, he⟩ | ⟨hc, hv, hr, hp, he⟩
    · exact AllocCase.exceeded m hm hi he
    · exact AllocCase.free m hm hi hc hv he
    · have hp0 : (m.desc m.clockHand).pinCnt = 0 :=
        Int.le_antisymm hp (hi.pinNonneg _ hc)
      have hl := hi.validMapped _ hc hv
      by_cases hw : (m.desc m.clockHand).dirty = true ∧
          env.fileWrite (m.desc m.clockHand).file (m.desc m.clockHand).pageNo m.clockHand
            ≠ Status.OK
      · refine AllocCase.writeFail m hm hi hc hv hr hp0 hw.1 hw.2 ?_
        rw [show allocBuf env s frame = _ from he]
        simp only [evictStep, if_pos hw]
      · refine AllocCase.evict m hm hi hc hv hr hp0 ?_ ?_
        · intro hd
          by_contra hne
          exact hw ⟨hd, hne⟩
        · rw [show allocBuf env s frame = _ from he]
          simp only [evictStep, if_neg hw, BufHashTbl.remove, hl]
          simp
  · have h0 : s.numBufs = 0 := Nat.eq_zero_of_not_pos hN
    refine AllocCase.exceeded s (RefbitOnly.refl s) hs ?_
    simp only [allocBuf, h0, allocLoop]

theorem allocBuf_inv (env : Collab) (s : BufMgr) (frame : Nat) (hs : Inv s) :
    Inv (allocBuf env s frame).st := by
  rcases allocBuf_cases env s frame hs with ⟨m, _, hi, e⟩ | ⟨m, _, hi, hc, hv, e⟩ |
    ⟨m, _, hi, _, _, _, _, _, _, e⟩ | ⟨m, _, hi, hc, hv, _, _, _, e⟩
  · rw [e]; exact hi
  · rw [e]
    have := hi.dropFrame m.clockHand (m.desc m.clockHand).Clear m.hashTable
      ⟨rfl, rfl, rfl, rfl⟩ ?_ hc
    · exact this
    · intro f p
      by_cases hk : (f, p) = ((m.desc m.clockHand).file, (m.desc m.clockHand).pageNo)
      · rw [if_pos hk]
        have h1 : f = (m.desc m.clockHand).file := congrArg Prod.fst hk
        rw [h1, (hi.invalidClean _ hc hv).1, hi.lookup_none_file]
      · rw [if_neg hk]
  · rw [e]; exact hi
  · rw [e]
    exact hi.dropFrame m.clockHand (m.desc m.clockHand).Clear _ ⟨rfl, rfl, rfl, rfl⟩
      (fun f p => lookup_erase _ _ _ f p) hc

theorem Clear_congr (d e : BufDesc) (h : d.frameNo = e.frameNo) : d.Clear = e.Clear := by
  simp [BufDesc.Clear, h]

theorem allocBuf_summary (env : Collab) (s : BufMgr) (frame : Nat) (hs : Inv s) :
    AllocSummary env s frame (allocBuf env s frame) := by
  have hinv := allocBuf_inv env s frame hs
  rcases allocBuf_cases env s frame hs with ⟨m, hm, hi, e⟩ | ⟨m, hm, hi, hc, hv, e⟩ |
    ⟨m, hm, hi, hc, hv, hr, hp, hd, hw, e⟩ | ⟨m, hm, hi, hc, hv, hr, hp, hw, e⟩
  · rw [e] at hinv ⊢
    refine ⟨hinv, hm.len, Or.inr (Or.inl rfl), fun j _ => ⟨hm.same j, hm.mono j⟩, ?_,
      fun h => Status.noConfusion h, fun _ => rfl, fun _ => rfl, fun h => Status.noConfusion h⟩
    intro f p
    simp [hm.tbl]
  · rw [e] at hinv ⊢
    have hcs : m.clockHand < s.numBufs := hm.len ▸ hc
    refine ⟨hinv, by rw [numBufs_setDesc]; exact hm.len, Or.inl rfl, ?_, ?_, ?_,
      fun h => absurd rfl h, fun h => Status.noConfusion h, fun h => Status.noConfusion h⟩
    · intro j hj
      have hj2 : j ≠ m.clockHand := by
        rcases hj with hj | hj
        · exact absurd rfl hj
        · exact hj
      simp only
      rw [desc_setDesc_ne _ _ _ _ hj2]
      exact ⟨hm.same j, hm.mono j⟩
    · intro f p
      simp only [hashTable_setDesc, hm.tbl, true_and]
      by_cases hl : s.hashTable.lookup f p = some m.clockHand
      · exfalso
        have := (hs.mappedValid f p _ hl).2.1
        rw [← hm.valid_eq, hv] at this
        exact absurd this (by decide)
      · rw [if_neg hl]
    · intro _
      simp only
      have hvs : (s.desc m.clockHand).valid = false := by rw [← hm.valid_eq]; exact hv
      refine ⟨hcs, rfl, ?_, (hs.invalidClean _ hcs hvs).2.1, ?_, ?_⟩
      · rw [desc_setDesc_self _ _ _ hc]
        exact Clear_congr _ _ (hm.frameNo_eq _)
      · simp [hvs]
      · intro h; rw [hvs] at h; exact absurd h (by decide)
  · rw [e] at hinv ⊢
    have hcs : m.clockHand < s.numBufs := hm.len ▸ hc
    refine ⟨hinv, hm.len, Or.inr (Or.inr rfl), fun j _ => ⟨hm.same j, hm.mono j⟩, ?_,
      fun h => Status.noConfusion h, fun _ => rfl, fun h => Status.noConfusion h, ?_⟩
    · intro f p
      simp [hm.tbl]
    · intro _
      refine ⟨m.clockHand, hcs, ?_, ?_, ?_, ?_, ?_⟩
      · rw [← hm.valid_eq]; exact hv
      · rw [← hm.dirty_eq]; exact hd
      · rw [← hm.pinCnt_eq]; exact hp
      · rw [← hm.file_eq, ← hm.pageNo_eq]; exact hw
      · rw [← hm.file_eq, ← hm.pageNo_eq]
  · rw [e] at hinv ⊢
    have hcs : m.clockHand < s.numBufs := hm.len ▸ hc
    have hvs : (s.desc m.clockHand).valid = true := by rw [← hm.valid_eq]; exact hv
    refine ⟨hinv, by rw [numBufs_setDesc]; exact hm.len, Or.inl rfl, ?_, ?_, ?_,
      fun h => absurd rfl h, fun h => Status.noConfusion h, fun h => Status.noConfusion h⟩
    · intro j hj
      have hj2 : j ≠ m.clockHand := by
        rcases hj with hj | hj
        · exact absurd rfl hj
        · exact hj
      simp only
      rw [desc_setDesc_ne _ _ _ _ hj2]
      exact ⟨hm.same j, hm.mono j⟩
    · intro f p
      simp only [hashTable_setDesc, true_and]
      rw [lookup_erase, hm.tbl, hm.file_eq, hm.pageNo_eq]
      by_cases hl : s.hashTable.lookup f p = some m.clockHand
      · obtain ⟨_, _, a, b⟩ := hs.mappedValid f p _ hl
        rw [if_pos hl, if_pos (by rw [a, b])]
      · rw [if_neg hl]
        by_cases hk : (f, p) = ((s.desc m.clockHand).file, (s.desc m.clockHand).pageNo)
        · exfalso
          have h1 : f = (s.desc m.clockHand).file := congrArg Prod.fst hk
          have h2 : p = (s.desc m.clockHand).pageNo := congrArg Prod.snd hk
          exact hl (by rw [h1, h2]; exact hs.validMapped _ hcs hvs)
        · rw [if_neg hk]
    · intro _
      simp only
      have hc3 : m.clockHand < (BufMgr.mk m.bufTable m.clockHand
          (m.hashTable.erase (m.desc m.clockHand).file (m.desc m.clockHand).pageNo)).numBufs := hc
      refine ⟨hcs, rfl, ?_, ?_, ?_, ?_⟩
      · rw [desc_setDesc_self _ _ _ hc3]
        exact Clear_congr _ _ (hm.frameNo_eq _)
      · rw [← hm.pinCnt_eq]; exact hp
      · rw [← hm.file_eq, ← hm.pageNo_eq, ← hm.dirty_eq]
        simp [hvs]
      · intro _ hd
        rw [← hm.file_eq, ← hm.pageNo_eq]
        exact hw (by rw [hm.dirty_eq]; exact hd)

/-! ## Every operation keeps the invariant -/

theorem numBufs_init (bufs : Nat) : (BufMgr.init bufs).numBufs = bufs := by
  simp [BufMgr.init, BufMgr.numBufs]

theorem desc_init (bufs i : Nat) :
    (BufMgr.init bufs).desc i
      = if i < bufs then ⟨none, 0, i, 0, false, false, false⟩ else default := by
  simp only [BufMgr.init, BufMgr.desc, List.getD_eq_getElem?_getD, List.getElem?_map]
  by_cases h : i < bufs
  · simp [h, List.getElem?_range h]
  · have h2 : (List.range bufs).length ≤ i := by simpa using h
    simp [h, List.getElem?_eq_none h2]

theorem desc_init_fields (bufs i : Nat) :
    ((BufMgr.init bufs).desc i).valid = false ∧ ((BufMgr.init bufs).desc i).file = none ∧
    ((BufMgr.init bufs).desc i).pinCnt = 0 ∧ ((BufMgr.init bufs).desc i).dirty = false ∧
    ((BufMgr.init bufs).desc i).refbit = false := by
  rw [desc_init]
  by_cases h : i < bufs
  · rw [if_pos h]; exact ⟨rfl, rfl, rfl, rfl, rfl⟩
  · rw [if_neg h]; exact ⟨rfl, rfl, rfl, rfl, rfl⟩

theorem init_inv (bufs : Nat) : Inv (BufMgr.init bufs) := by
  have hf := desc_init_fields bufs
  refine ⟨?_, ?_, ?_, ?_, ?_, ?_⟩
  · intro i _ hv
    rw [(hf i).1] at hv; exact absurd hv (by decide)
  · intro f p i hl
    exact absurd hl (by simp [BufMgr.init, BufHashTbl.lookup])
  · intro i _ hv
    rw [(hf i).1] at hv; exact absurd hv (by decide)
  · intro i _ _
    exact ⟨(hf i).2.1, (hf i).2.2.1, (hf i).2.2.2.1⟩
  · intro i _
    rw [(hf i).2.2.1]
  · rw [numBufs_init]
    by_cases h : bufs = 0
    · exact Or.inr h
    · left
      show bufs - 1 < bufs
      omega

theorem numBufs_installPage (t : BufMgr) (fr : Nat) (file : FilePtr) (PageNo : Int) :
    (installPage t fr file PageNo).numBufs = t.numBufs := by
  simp [installPage, BufMgr.setDesc, BufMgr.numBufs]

theorem clockHand_installPage (t : BufMgr) (fr : Nat) (file : FilePtr) (PageNo : Int) :
    (installPage t fr file PageNo).clockHand = t.clockHand := rfl

theorem desc_installPage_self (t : BufMgr) (fr : Nat) (file : FilePtr) (PageNo : Int)
    (h : fr < t.numBufs) :
    (installPage t fr file PageNo).desc fr = (t.desc fr).Set file PageNo := by
  unfold installPage
  have h2 : fr < (BufMgr.mk t.bufTable t.clockHand
      (t.hashTable.insert true file PageNo fr).2).numBufs := h
  rw [desc_setDesc_self _ _ _ h2]

theorem desc_installPage_ne (t : BufMgr) (fr : Nat) (file : FilePtr) (PageNo : Int) (j : Nat)
    (h : j ≠ fr) : (installPage t fr file PageNo).desc j = t.desc j := by
  unfold installPage
  rw [desc_setDesc_ne _ _ _ _ h]
  rfl

theorem lookup_installPage (t : BufMgr) (fr : Nat) (file : FilePtr) (PageNo : Int)
    (f : FilePtr) (q : Int) :
    (installPage t fr file PageNo).hashTable.lookup f q
      = if (f, q) = (file, PageNo) then some fr else t.hashTable.lookup f q := by
  unfold installPage
  rw [hashTable_setDesc]
  exact lookup_insert _ _ _ _ f q

theorem readPage_hit (env : Collab) (s : BufMgr) (file : FilePtr) (PageNo : Int) (fp : Nat)
    (hl : s.hashTable.lookup file PageNo = some fp) :
    readPage env s file PageNo
      = ⟨Status.OK, some fp,
          s.setDesc fp { s.desc fp with pinCnt := (s.desc fp).pinCnt + 1, refbit := true },
          []⟩ := by
  simp only [readPage, hl]

theorem readPage_allocFail (env : Collab) (s : BufMgr) (file : FilePtr) (PageNo : Int)
    (hl : s.hashTable.lookup file PageNo = none)
    (ha : (allocBuf env s 0).status ≠ Status.OK) :
    readPage env s file PageNo
      = ⟨(allocBuf env s 0).status, none, (allocBuf env s 0).st, (allocBuf env s 0).io⟩ := by
  simp only [readPage, hl, if_pos ha]

theorem readPage_readFail (env : Collab) (s : BufMgr) (file : FilePtr) (PageNo : Int)
    (hl : s.hashTable.lookup file PageNo = none)
    (ha : (allocBuf env s 0).status = Status.OK)
    (hr : env.fileRead file PageNo (allocBuf env s 0).frame ≠ Status.OK) :
    readPage env s file PageNo
      = ⟨env.fileRead file PageNo (allocBuf env s 0).frame, none, (allocBuf env s 0).st,
          (allocBuf env s 0).io ++ [IOCall.read file PageNo (allocBuf env s 0).frame]⟩ := by
  simp only [readPage, hl, ha, ne_eq, not_true_eq_false, if_false]
  rw [if_pos hr]

theorem readPage_insertFail (env : Collab) (s : BufMgr) (file : FilePtr) (PageNo : Int)
    (hl : s.hashTable.lookup file PageNo = none)
    (ha : (allocBuf env s 0).status = Status.OK)
    (hr : env.fileRead file PageNo (allocBuf env s 0).frame = Status.OK)
    (hi : env.insertOk = false) :
    readPage env s file PageNo
      = ⟨Status.HASHTBLERROR, none, (allocBuf env s 0).st,
          (allocBuf env s 0).io ++ [IOCall.read file PageNo (allocBuf env s 0).frame]⟩ := by
  simp [readPage, hl, ha, hr, hi, BufHashTbl.insert]

theorem readPage_miss (env : Collab) (s : BufMgr) (file : FilePtr) (PageNo : Int)
    (hl : s.hashTable.lookup file PageNo = none)
    (ha : (allocBuf env s 0).status = Status.OK)
    (hr : env.fileRead file PageNo (allocBuf env s 0).frame = Status.OK)
    (hi : env.insertOk = true) :
    readPage env s file PageNo
      = ⟨Status.OK, some (allocBuf env s 0).frame,
          installPage (allocBuf env s 0).st (allocBuf env s 0).frame file PageNo,
          (allocBuf env s 0).io ++ [IOCall.read file PageNo (allocBuf env s 0).frame]⟩ := by
  simp [readPage, hl, ha, hr, hi, BufHashTbl.insert, installPage]
  rfl

/-- The state after `readPage` misses is the state after `allocBuf`, or that
state with the page installed in the allocated frame. -/
theorem readPage_miss_cases (env : Collab) (s : BufMgr) (file : FilePtr) (PageNo : Int)
    (hl : s.hashTable.lookup file PageNo = none) :
    ((readPage env s file PageNo).status ≠ Status.OK ∧
      (readPage env s file PageNo).st = (allocBuf env s 0).st ∧
      ((readPage env s file PageNo).io = (allocBuf env s 0).io ∨
        ((allocBuf env s 0).status = Status.OK ∧
        (readPage env s file PageNo).io
          = (allocBuf env s 0).io ++ [IOCall.read file PageNo (allocBuf env s 0).frame]))) ∨
    ((allocBuf env s 0).status = Status.OK ∧
      env.fileRead file PageNo (allocBuf env s 0).frame = Status.OK ∧ env.insertOk = true ∧
      readPage env s file PageNo
        = ⟨Status.OK, some (allocBuf env s 0).frame,
            installPage (allocBuf env s 0).st (allocBuf env s 0).frame file PageNo,
            (allocBuf env s 0).io ++ [IOCall.read file PageNo (allocBuf env s 0).frame]⟩) := by
  by_cases ha : (allocBuf env s 0).status = Status.OK
  · by_cases hr : env.fileRead file PageNo (allocBuf env s 0).frame = Status.OK
    · cases hi : env.insertOk with
      | true => exact Or.inr ⟨ha, hr, rfl, readPage_miss env s file PageNo hl ha hr hi⟩
      | false =>
        left
        rw [readPage_insertFail env s file PageNo hl ha hr hi]
        exact ⟨fun h => Status.noConfusion h, rfl, Or.inr ⟨ha, rfl⟩⟩
    · left
      rw [readPage_readFail env s file PageNo hl ha hr]
      exact ⟨hr, rfl, Or.inr ⟨ha, rfl⟩⟩
  · left
    rw [readPage_allocFail env s file PageNo hl ha]
    exact ⟨ha, rfl, Or.inl rfl⟩

theorem installPage_inv (t : BufMgr) (fr : Nat) (file : FilePtr) (PageNo : Int)
    (ht : Inv t) (hfr : fr < t.numBufs) (hv : (t.desc fr).valid = false) (hf : file ≠ none)
    (hl : t.hashTable.lookup file PageNo = none) : Inv (installPage t fr file PageNo) := by
  refine ht.install fr hfr file PageNo hf (numBufs_installPage _ _ _ _) ?_ hv ?_ ?_
    (lookup_installPage t fr file PageNo) hl
  · rw [numBufs_installPage, clockHand_installPage]; exact ht.hand
  · rw [desc_installPage_self _ _ _ _ hfr]
    exact ⟨rfl, rfl, rfl, Int.zero_le_ofNat 1⟩
  · intro j _ hji
    exact desc_installPage_ne _ _ _ _ j hji

theorem readPage_inv (env : Collab) (s : BufMgr) (file : FilePtr) (PageNo : Int)
    (hf : file ≠ none) (hs : Inv s) : Inv (readPage env s file PageNo).st := by
  cases hl : s.hashTable.lookup file PageNo with
  | some fp =>
    rw [readPage_hit env s file PageNo fp hl]
    obtain ⟨hfp, hv, _, _⟩ := hs.mappedValid _ _ _ hl
    refine hs.touch (numBufs_setDesc _ _ _) rfl ?_ ?_
    · rw [numBufs_setDesc]; exact hs.hand
    · intro j hj
      simp only
      rw [desc_setDesc]
      by_cases hji : j = fp ∧ fp < s.numBufs
      · rw [if_pos hji, hji.1]
        refine ⟨rfl, rfl, rfl, ?_, ?_⟩
        · have := hs.pinNonneg fp hfp
          show 0 ≤ (s.desc fp).pinCnt + 1
          omega
        · intro h; rw [hv] at h; exact absurd h (by decide)
      · rw [if_neg hji]
        exact ⟨rfl, rfl, rfl, hs.pinNonneg j hj, fun _ => ⟨rfl, rfl⟩⟩
  | none =>
    have hsum := allocBuf_summary env s 0 hs
    rcases readPage_miss_cases env s file PageNo hl with ⟨_, e, _⟩ | ⟨ha, _, _, e⟩
    · rw [e]; exact hsum.inv
    · rw [e]
      obtain ⟨hlt, _, hcl, _, _, _⟩ := hsum.chosen ha
      refine installPage_inv _ _ _ _ hsum.inv (by rw [hsum.len]; exact hlt) (by rw [hcl]; rfl) hf ?_
      rw [hsum.idx, hl]
      simp

theorem unPinPage_inv (s : BufMgr) (file : FilePtr) (PageNo : Int) (dirty : Bool)
    (hs : Inv s) : Inv (unPinPage s file PageNo dirty).st := by
  unfold unPinPage
  cases hl : s.hashTable.lookup file PageNo with
  | none => exact hs
  | some fp =>
    simp only
    obtain ⟨hfp, hv, _, _⟩ := hs.mappedValid _ _ _ hl
    split
    · rename_i hp
      refine hs.touch (numBufs_setDesc _ _ _) rfl ?_ ?_
      · rw [numBufs_setDesc]; exact hs.hand
      · intro j hj
        rw [desc_setDesc]
        by_cases hji : j = fp ∧ fp < s.numBufs
        · rw [if_pos hji, hji.1]
          refine ⟨rfl, rfl, rfl, ?_, ?_⟩
          · show 0 ≤ (s.desc fp).pinCnt - 1
            omega
          · intro h; rw [hv] at h; exact absurd h (by decide)
        · rw [if_neg hji]
          exact ⟨rfl, rfl, rfl, hs.pinNonneg j hj, fun _ => ⟨rfl, rfl⟩⟩
    · exact hs

theorem disposePage_inv (env : Collab) (s : BufMgr) (file : FilePtr) (pageNo : Int)
    (hs : Inv s) : Inv (disposePage env s file pageNo).st := by
  unfold disposePage
  cases hl : s.hashTable.lookup file pageNo with
  | none =>
    simp only
    rw [remove_of_lookup_none _ _ _ hl]
    exact hs
  | some fp =>
    simp only
    obtain ⟨hfp, hv, hfile, hpage⟩ := hs.mappedValid _ _ _ hl
    have := hs.dropFrame fp (s.desc fp).Clear (s.hashTable.remove file pageNo).2
      ⟨rfl, rfl, rfl, rfl⟩ (by intro f p; rw [lookup_remove, hfile, hpage]) hfp
    exact this

theorem flushLoop_inv (env : Collab) (file : FilePtr) (n i : Nat) (s : BufMgr) (hs : Inv s) :
    Inv (flushLoop env file n i s).st := by
  induction n generalizing i s with
  | zero => exact hs
  | succ n ih =>
    simp only [flushLoop]
    split
    · rename_i hvf
      have hi : i < s.numBufs := valid_lt s i hvf.1
      have hdrop : ∀ d : BufDesc, (d.valid = false ∧ d.file = none ∧ d.pinCnt = 0 ∧
          d.dirty = false) →
          Inv ((BufMgr.mk s.bufTable s.clockHand
            (s.hashTable.remove file (s.desc i).pageNo).2).setDesc i d) := by
        intro d hd
        exact hs.dropFrame i d _ hd (by intro f p; rw [lookup_remove, hvf.2]) hi
      split
      · exact hs
      · rename_i hp
        have hp0 : (s.desc i).pinCnt = 0 :=
          Int.le_antisymm (Int.not_lt.mp hp) (hs.pinNonneg i hi)
        split
        · split
          · exact hs
          · exact ih _ _ (hdrop _ ⟨rfl, rfl, hp0, rfl⟩)
        · rename_i hd
          exact ih _ _ (hdrop _ ⟨rfl, rfl, hp0, by simpa using hd⟩)
    · split
      · exact hs
      · exact ih _ _ hs

theorem flushFile_inv (env : Collab) (s : BufMgr) (file : FilePtr) (hs : Inv s) :
    Inv (flushFile env s file).st :=
  flushLoop_inv env file _ _ s hs

/-- Every reachable state satisfies the invariant. -/
theorem Reachable.invariant {s : BufMgr} (h : Reachable s) : Inv s := by
  induction h with
  | init bufs => exact init_inv bufs
  | readPage env s file PageNo _ ih => exact readPage_inv env s _ PageNo (by simp) ih
  | unPinPage s file PageNo dirty _ ih => exact unPinPage_inv s file PageNo dirty ih
  | disposePage env s file pageNo _ ih => exact disposePage_inv env s _ pageNo ih
  | flushFile env s file _ ih => exact flushFile_inv env s file ih

/-- On any state, `allocBuf` that returns OK returns a frame of the pool, and
the only file calls it makes are writes. -/
theorem allocBuf_general (env : Collab) (s : BufMgr) (frame : Nat) :
    ((allocBuf env s frame).status = Status.OK →
      (allocBuf env s frame).frame < s.numBufs ∧
      (allocBuf env s frame).st.numBufs = s.numBufs) ∧
    (∀ c, c ∈ (allocBuf env s frame).io → c.isWrite = true ∧ c.isRead = false) := by
  by_cases hN : 0 < s.numBufs
  · obtain ⟨m, hm, _, he⟩ := allocLoop_char env (s.numBufs * 2) s frame hN
    have e0 : allocBuf env s frame = allocLoop env (s.numBufs * 2) s frame := rfl
    rcases he with he | ⟨hc, _, he⟩ | ⟨hc, _, _, _, he⟩
    · rw [e0, he]
      exact ⟨fun h => Status.noConfusion h, fun c hc => absurd hc (List.not_mem_nil c)⟩
    · rw [e0, he]
      refine ⟨fun _ => ⟨hm.len ▸ hc, ?_⟩, fun c hc => absurd hc (List.not_mem_nil c)⟩
      simp only
      rw [numBufs_setDesc]; exact hm.len
    · rw [e0, he]
      unfold evictStep
      simp only
      split
      · refine ⟨fun h => Status.noConfusion h, ?_⟩
        intro c hc
        rw [List.mem_singleton] at hc
        subst hc
        exact ⟨rfl, rfl⟩
      · have hio : ∀ c, c ∈ (if (m.desc m.clockHand).dirty = true
            then [IOCall.write (m.desc m.clockHand).file (m.desc m.clockHand).pageNo
              m.clockHand] else []) → c.isWrite = true ∧ c.isRead = false := by
          intro c hc
          split at hc
          · rw [List.mem_singleton] at hc
            subst hc
            exact ⟨rfl, rfl⟩
          · exact absurd hc (List.not_mem_nil c)
        split
        · exact ⟨fun h => Status.noConfusion h, hio⟩
        · refine ⟨fun _ => ⟨hm.len ▸ hc, ?_⟩, hio⟩
          simp only
          rw [numBufs_setDesc]; exact hm.len
  · have h0 : s.numBufs = 0 := Nat.eq_zero_of_not_pos hN
    have e0 : allocBuf env s frame = ⟨Status.BUFFEREXCEEDED, frame, s, []⟩ := by
      simp only [allocBuf, h0, allocLoop]
    rw [e0]
    exact ⟨fun h => Status.noConfusion h, fun c hc => absurd hc (List.not_mem_nil c)⟩

theorem filter_isRead_alloc (env : Collab) (s : BufMgr) (frame : Nat) :
    (allocBuf env s frame).io.filter IOCall.isRead = [] := by
  rw [List.filter_eq_nil_iff]
  intro c hc
  rw [((allocBuf_general env s frame).2 c hc).2]
  decide

/-! ## The scan of `flushFile` -/

theorem dirtyWrites_congr (s t : BufMgr) (file : FilePtr) (i n : Nat)
    (h : ∀ j, i ≤ j → t.desc j = s.desc j) : dirtyWrites t file i n = dirtyWrites s file i n := by
  induction n generalizing i with
  | zero => rfl
  | succ n ih =>
    simp only [dirtyWrites]
    rw [h i (Nat.le_refl i), ih (i + 1) (fun j hj => h j (by omega))]

theorem dirtyWrites_filter (s : BufMgr) (file : FilePtr) (i n : Nat) :
    dirtyWrites s file i n
      = ((List.range' i n).filter (fun j => (s.desc j).valid && decide ((s.desc j).file = file)
          && (s.desc j).dirty)).map (fun j => IOCall.write file (s.desc j).pageNo j) := by
  induction n generalizing i with
  | zero => rfl
  | succ n ih =>
    simp only [dirtyWrites, List.range'_succ]
    rw [ih (i + 1)]
    by_cases hc : (s.desc i).valid = true ∧ (s.desc i).file = file ∧ (s.desc i).dirty = true
    · rw [if_pos hc, List.filter_cons_of_pos (by simp [hc.1, hc.2.1, hc.2.2])]
      rfl
    · rw [if_neg hc, List.filter_cons_of_neg]
      · rfl
      · intro h
        simp only [Bool.and_eq_true, decide_eq_true_eq] at h
        exact hc ⟨h.1.1, h.1.2, h.2⟩

theorem numBufs_flushFrame (s : BufMgr) (file : FilePtr) (i : Nat) :
    (flushFrame s file i).numBufs = s.numBufs := by
  simp [flushFrame, BufMgr.setDesc, BufMgr.numBufs]

theorem desc_flushFrame_self (s : BufMgr) (file : FilePtr) (i : Nat) (h : i < s.numBufs) :
    (flushFrame s file i).desc i = (s.desc i).flushed := by
  unfold flushFrame
  have h2 : i < (BufMgr.mk s.bufTable s.clockHand
      (s.hashTable.remove file (s.desc i).pageNo).2).numBufs := h
  rw [desc_setDesc_self _ _ _ h2]

theorem desc_flushFrame_ne (s : BufMgr) (file : FilePtr) (i j : Nat) (h : j ≠ i) :
    (flushFrame s file i).desc j = s.desc j := by
  unfold flushFrame
  rw [desc_setDesc_ne _ _ _ _ h]
  rfl

theorem lookup_flushFrame (s : BufMgr) (file : FilePtr) (i : Nat) (f : FilePtr) (p : Int) :
    (flushFrame s file i).hashTable.lookup f p
      = if (f, p) = (file, (s.desc i).pageNo) then none else s.hashTable.lookup f p := by
  unfold flushFrame
  rw [hashTable_setDesc]
  exact lookup_remove _ _ _ f p

theorem flushFrame_inv (s : BufMgr) (file : FilePtr) (i : Nat) (hs : Inv s)
    (hv : (s.desc i).valid = true) (hf : (s.desc i).file = file)
    (hp : (s.desc i).pinCnt = 0) : Inv (flushFrame s file i) :=
  hs.dropFrame i _ _ ⟨rfl, rfl, hp, rfl⟩ (by intro f p; rw [lookup_remove, hf]) (valid_lt s i hv)

/-- One step of the scan of `flushFile`, examining frame `i`. -/
theorem flushLoop_succ (env : Collab) (file : FilePtr) (n i : Nat) (s : BufMgr) :
    flushLoop env file (n + 1) i s =
      if (s.desc i).valid = true ∧ (s.desc i).file = file then
        if (s.desc i).pinCnt > 0 then ⟨Status.PAGEPINNED, none, s, []⟩
        else if (s.desc i).dirty = true then
          if env.fileWrite file (s.desc i).pageNo i ≠ Status.OK then
            ⟨env.fileWrite file (s.desc i).pageNo i, none, s,
              [IOCall.write file (s.desc i).pageNo i]⟩
          else
            ⟨(flushLoop env file n (i + 1) (flushFrame s file i)).status,
              (flushLoop env file n (i + 1) (flushFrame s file i)).page,
              (flushLoop env file n (i + 1) (flushFrame s file i)).st,
              IOCall.write file (s.desc i).pageNo i ::
                (flushLoop env file n (i + 1) (flushFrame s file i)).io⟩
        else flushLoop env file n (i + 1) (flushFrame s file i)
      else if (s.desc i).valid = false ∧ (s.desc i).file = file then
        ⟨Status.BADBUFFER, none, s, []⟩
      else flushLoop env file n (i + 1) s := by
  simp only [flushLoop]
  by_cases hvf : (s.desc i).valid = true ∧ (s.desc i).file = file
  · rw [if_pos hvf, if_pos hvf, hvf.2]
    by_cases hp : (s.desc i).pinCnt > 0
    · rw [if_pos hp, if_pos hp]
    · rw [if_neg hp, if_neg hp]
      by_cases hd : (s.desc i).dirty = true
      · rw [if_pos hd, if_pos hd]
        rfl
      · rw [if_neg hd, if_neg hd]
        have hd2 : (s.desc i).dirty = false := by simpa using hd
        have e : ({ s.desc i with file := none, pageNo := -1, valid := false } : BufDesc)
            = (s.desc i).flushed := by
          simp [BufDesc.flushed, hd2]
        rw [e]
        rfl
  · rw [if_neg hvf, if_neg hvf]

theorem flushLoop_page (env : Collab) (file : FilePtr) (n i : Nat) (s : BufMgr) :
    (flushLoop env file n i s).page = none := by
  induction n generalizing i s with
  | zero => rfl
  | succ n ih =>
    rw [flushLoop_succ]
    split
    · split
      · rfl
      · split
        · split
          · rfl
          · exact ih _ _
        · exact ih _ _
    · split
      · rfl
      · exact ih _ _

theorem FlushTrace.here (env : Collab) (s : BufMgr) (file : FilePtr) (i n : Nat)
    (status : Status) (io : List IOCall)
    (hstop : FlushStop env s file i n ⟨status, none, s, io⟩ i) :
    FlushTrace env s file i n ⟨status, none, s, io⟩ i := by
  refine ⟨Nat.le_refl i, Nat.le_add_right i n, ?_, fun _ _ => rfl, ?_, ?_, ?_, fun _ _ h => h,
    rfl, rfl, hstop⟩
  · intro j h1 h2; omega
  · intro j h1 h2; omega
  · intro f p j hl _; exact hl
  · intro f p j _ h; omega

theorem FlushTrace.skip {env : Collab} {s : BufMgr} {file : FilePtr} {i n : Nat} {r : OpOut}
    {k : Nat} (hs : Inv s) (h : FlushTrace env s file (i + 1) n r k)
    (h1 : ¬((s.desc i).valid = true ∧ (s.desc i).file = file))
    (h2 : ¬((s.desc i).valid = false ∧ (s.desc i).file = file)) :
    FlushTrace env s file i (n + 1) r k := by
  have hlo := h.lo
  have hhi := h.hi
  have hnf : ¬ (s.desc i).file = file := by
    intro hf
    cases hv : (s.desc i).valid with
    | true => exact h1 ⟨hv, hf⟩
    | false => exact h2 ⟨hv, hf⟩
  have hdw : dirtyWrites s file i (k - i) = dirtyWrites s file (i + 1) (k - (i + 1)) := by
    have e : k - i = (k - (i + 1)) + 1 := by omega
    rw [e, dirtyWrites, if_neg (fun hc => hnf hc.2.1)]
    rfl
  refine ⟨by omega, by omega, ?_, ?_, ?_, ?_, ?_, h.idxNone, h.len, h.hand, ?_⟩
  · intro j hj1 hj2 hv hf
    by_cases hji : j = i
    · subst hji; exact absurd hf hnf
    · exact h.flushedFrames j (by omega) hj2 hv hf
  · intro j hj
    apply h.kept
    intro hc
    exact hj ⟨by omega, hc.2⟩
  · intro j hj1 hj2 hf
    by_cases hji : j = i
    · subst hji; exact absurd hf hnf
    · exact h.noBad j (by omega) hj2 hf
  · intro f p j hl hj
    apply h.idxKept f p j hl
    intro hc
    exact hj ⟨by omega, hc.2⟩
  · intro f p j hl hj
    by_cases hji : j = i
    · subst hji
      exfalso
      obtain ⟨_, _, hfile, _⟩ := hs.mappedValid f p j hl
      exact hnf (hfile.trans hj.2.2)
    · exact h.idxGone f p j hl ⟨by omega, hj.2⟩
  · rcases h.stop with ⟨a, b, c⟩ | ⟨a, b, c, d, e, g⟩ | ⟨a, b, c, d, e, g, g2, g3⟩ | ⟨a, b, c, d, e⟩
    · exact Or.inl ⟨by omega, b, by rw [c, hdw]⟩
    · exact Or.inr (Or.inl ⟨by omega, b, c, d, e, by rw [g, hdw]⟩)
    · exact Or.inr (Or.inr (Or.inl ⟨by omega, b, c, d, e, g, g2, by rw [g3, hdw]⟩))
    · exact Or.inr (Or.inr (Or.inr ⟨by omega, b, c, d, by rw [e, hdw]⟩))

theorem FlushTrace.flush {env : Collab} {s : BufMgr} {file : FilePtr} {i n : Nat}
    {r t : OpOut} {k : Nat} (hs : Inv s)
    (h : FlushTrace env (flushFrame s file i) file (i + 1) n r k)
    (hv : (s.desc i).valid = true) (hf : (s.desc i).file = file)
    (hp : (s.desc i).pinCnt = 0)
    (hw : (s.desc i).dirty = true → env.fileWrite file (s.desc i).pageNo i = Status.OK)
    (hst : t.st = r.st) (hstat : t.status = r.status)
    (hio : t.io = (if (s.desc i).dirty = true then [IOCall.write file (s.desc i).pageNo i]
      else []) ++ r.io) :
    FlushTrace env s file i (n + 1) t k := by
  have hlo := h.lo
  have hhi := h.hi
  have hiN : i < s.numBufs := valid_lt s i hv
  have hne : ∀ j, i + 1 ≤ j → (flushFrame s file i).desc j = s.desc j :=
    fun j hj => desc_flushFrame_ne s file i j (by omega)
  have hli := hs.validMapped i hiN hv
  rw [hf] at hli
  have hdw : dirtyWrites s file i (k - i)
      = (if (s.desc i).dirty = true then [IOCall.write file (s.desc i).pageNo i] else [])
        ++ dirtyWrites (flushFrame s file i) file (i + 1) (k - (i + 1)) := by
    have e : k - i = (k - (i + 1)) + 1 := by omega
    rw [e, dirtyWrites, dirtyWrites_congr s (flushFrame s file i) file (i + 1) _ hne]
    by_cases hd : (s.desc i).dirty = true
    · rw [if_pos ⟨hv, hf, hd⟩, if_pos hd]
    · rw [if_neg (fun hc => hd hc.2.2), if_neg hd]
  have hkey : ∀ f p j, s.hashTable.lookup f p = some j → j ≠ i →
      (flushFrame s file i).hashTable.lookup f p = some j := by
    intro f p j hl hji
    rw [lookup_flushFrame]
    by_cases hk : (f, p) = (file, (s.desc i).pageNo)
    · exfalso
      have h1 : f = file := congrArg Prod.fst hk
      have h2 : p = (s.desc i).pageNo := congrArg Prod.snd hk
      rw [h1, h2, hli] at hl
      exact hji (Option.some.inj hl).symm
    · rw [if_neg hk]; exact hl
  obtain ⟨tstat, tpage, tst, tio⟩ := t
  simp only at hst hstat hio
  subst hst
  refine ⟨by omega, by omega, ?_, ?_, ?_, ?_, ?_, ?_, ?_, ?_, ?_⟩ <;> try dsimp only
  · intro j hj1 hj2 hvj hfj
    by_cases hji : j = i
    · subst hji
      refine ⟨hp, ?_, hw⟩
      rw [h.kept j (by intro hc; omega)]
      exact desc_flushFrame_self s file j hiN
    · have e := hne j (by omega)
      have := h.flushedFrames j (by omega) hj2 (by rw [e]; exact hvj) (by rw [e]; exact hfj)
      rw [e] at this
      exact this
  · intro j hj
    have hji : j ≠ i := by
      intro e
      subst e
      exact hj ⟨Nat.le_refl j, by omega, hv, hf⟩
    rw [← desc_flushFrame_ne s file i j hji]
    apply h.kept
    rw [desc_flushFrame_ne s file i j hji]
    intro hc
    exact hj ⟨by omega, hc.2⟩
  · intro j hj1 hj2 hfj
    by_cases hji : j = i
    · subst hji; exact hv
    · have e := hne j (by omega)
      have := h.noBad j (by omega) hj2 (by rw [e]; exact hfj)
      rw [e] at this
      exact this
  · intro f p j hl hj
    have hji : j ≠ i := by
      intro e
      subst e
      obtain ⟨_, _, hfile, _⟩ := hs.mappedValid f p j hl
      exact hj ⟨Nat.le_refl j, by omega, hfile.symm.trans hf⟩
    apply h.idxKept f p j (hkey f p j hl hji)
    intro hc
    exact hj ⟨by omega, hc.2⟩
  · intro f p j hl hj
    by_cases hji : j = i
    · subst hji
      apply h.idxNone
      rw [lookup_flushFrame]
      obtain ⟨_, _, hfile, hpage⟩ := hs.mappedValid f p j hl
      rw [if_pos (by rw [hpage, hj.2.2])]
    · exact h.idxGone f p j (hkey f p j hl hji) ⟨by omega, hj.2⟩
  · intro f p hl
    apply h.idxNone
    rw [lookup_flushFrame, hl]
    simp
  · rw [h.len, numBufs_flushFrame]
  · rw [h.hand]; rfl
  · have ek : ∀ j, i + 1 ≤ j → (flushFrame s file i).desc j = s.desc j := hne
    rcases h.stop with ⟨a, b, c⟩ | ⟨a, b, c, d, e, g⟩ | ⟨a, b, c, d, e, g, g2, g3⟩ | ⟨a, b, c, d, e⟩
    · exact Or.inl ⟨by omega, hstat.trans b, by rw [hio, c, hdw]⟩
    · rw [ek k hlo] at b c d
      exact Or.inr (Or.inl ⟨by omega, b, c, d, hstat.trans e, by rw [hio, g, hdw]⟩)
    · rw [ek k hlo] at b c d e g g3
      refine Or.inr (Or.inr (Or.inl ⟨by omega, b, c, d, e, hstat.trans g, ?_, ?_⟩))
      · rw [hstat]; exact g2
      · rw [hio, g3, hdw, List.append_assoc]
    · rw [ek k hlo] at b c
      exact Or.inr (Or.inr (Or.inr ⟨by omega, b, c, hstat.trans d, by rw [hio, e, hdw]⟩))

/-- The scan of `flushFile` on a coherent state stops at some frame `k` with
the effect described by `FlushTrace`. -/
theorem flushLoop_trace (env : Collab) (file : FilePtr) (n i : Nat) (s : BufMgr)
    (hs : Inv s) : ∃ k, FlushTrace env s file i n (flushLoop env file n i s) k := by
  induction n generalizing i s with
  | zero =>
    refine ⟨i, FlushTrace.here env s file i 0 Status.OK [] (Or.inl ⟨rfl, rfl, ?_⟩)⟩
    simp [dirtyWrites]
  | succ n ih =>
    rw [flushLoop_succ]
    by_cases hvf : (s.desc i).valid = true ∧ (s.desc i).file = file
    · rw [if_pos hvf]
      by_cases hp : (s.desc i).pinCnt > 0
      · rw [if_pos hp]
        refine ⟨i, FlushTrace.here env s file i (n + 1) _ _
          (Or.inr (Or.inl ⟨by omega, hvf.1, hvf.2, hp, rfl, ?_⟩))⟩
        simp [dirtyWrites]
      · rw [if_neg hp]
        have hp0 : (s.desc i).pinCnt = 0 :=
          Int.le_antisymm (Int.not_lt.mp hp) (hs.pinNonneg i (valid_lt s i hvf.1))
        have hin := flushFrame_inv s file i hs hvf.1 hvf.2 hp0
        obtain ⟨k, hk⟩ := ih (i + 1) (flushFrame s file i) hin
        by_cases hd : (s.desc i).dirty = true
        · rw [if_pos hd]
          by_cases hw : env.fileWrite file (s.desc i).pageNo i ≠ Status.OK
          · rw [if_pos hw]
            refine ⟨i, FlushTrace.here env s file i (n + 1) _ _
              (Or.inr (Or.inr (Or.inl ⟨by omega, hvf.1, hvf.2, hp0, hd, rfl, hw, ?_⟩)))⟩
            simp [dirtyWrites]
          · rw [if_neg hw]
            have hw2 : env.fileWrite file (s.desc i).pageNo i = Status.OK := by
              simpa using hw
            exact ⟨k, hk.flush hs hvf.1 hvf.2 hp0 (fun _ => hw2) rfl rfl (by simp [hd])⟩
        · rw [if_neg hd]
          exact ⟨k, hk.flush hs hvf.1 hvf.2 hp0 (fun h => absurd h hd) rfl rfl (by simp [hd])⟩
    · rw [if_neg hvf]
      by_cases hb : (s.desc i).valid = false ∧ (s.desc i).file = file
      · rw [if_pos hb]
        refine ⟨i, FlushTrace.here env s file i (n + 1) _ _
          (Or.inr (Or.inr (Or.inr ⟨by omega, hb.1, hb.2, rfl, ?_⟩)))⟩
        simp [dirtyWrites]
      · rw [if_neg hb]
        obtain ⟨k, hk⟩ := ih (i + 1) s hs
        exact ⟨k, hk.skip hs hvf hb⟩

theorem flushFile_trace (env : Collab) (s : BufMgr) (file : FilePtr) (hs : Inv s) :
    ∃ k, FlushTrace env s file 0 s.numBufs (flushFile env s file) k :=
  flushLoop_trace env file s.numBufs 0 s hs

theorem dirtyWrites_isWrite (s : BufMgr) (file : FilePtr) (i n : Nat) :
    ∀ c, c ∈ dirtyWrites s file i n → c.isWrite = true ∧ c.isRead = false := by
  induction n generalizing i with
  | zero => intro c hc; exact absurd hc (List.not_mem_nil c)
  | succ n ih =>
    intro c hc
    simp only [dirtyWrites, List.mem_append] at hc
    rcases hc with hc | hc
    · split at hc
      · rw [List.mem_singleton] at hc
        subst hc
        exact ⟨rfl, rfl⟩
      · exact absurd hc (List.not_mem_nil c)
    · exact ih (i + 1) c hc

theorem mem_dirtyWrites (s : BufMgr) (file : FilePtr) (i n j : Nat) (h1 : i ≤ j)
    (h2 : j < i + n) (hv : (s.desc j).valid = true) (hf : (s.desc j).file = file)
    (hd : (s.desc j).dirty = true) :
    IOCall.write file (s.desc j).pageNo j ∈ dirtyWrites s file i n := by
  induction n generalizing i with
  | zero => omega
  | succ n ih =>
    simp only [dirtyWrites, List.mem_append]
    by_cases hji : j = i
    · subst hji
      left
      rw [if_pos ⟨hv, hf, hd⟩]
      exact List.mem_singleton.mpr rfl
    · right
      exact ih (i + 1) (by omega) (by omega)

/-- The file calls of `flushFile` on a coherent state stopping at frame `k`
are writes, and include the writes of the dirty frames flushed before `k`. -/
theorem FlushTrace.io_facts {env : Collab} {s : BufMgr} {file : FilePtr} {i n : Nat}
    {r : OpOut} {k : Nat} (h : FlushTrace env s file i n r k) :
    (∀ c, c ∈ r.io → c.isRead = false) ∧
    (∀ c, c ∈ dirtyWrites s file i (k - i) → c ∈ r.io) := by
  rcases h.stop with ⟨_, _, c⟩ | ⟨_, _, _, _, _, c⟩ | ⟨_, _, _, _, _, _, _, c⟩ | ⟨_, _, _, _, c⟩
  · rw [c]
    exact ⟨fun x hx => (dirtyWrites_isWrite _ _ _ _ x hx).2, fun _ hx => hx⟩
  · rw [c]
    exact ⟨fun x hx => (dirtyWrites_isWrite _ _ _ _ x hx).2, fun _ hx => hx⟩
  · rw [c]
    refine ⟨?_, fun _ hx => List.mem_append_left _ hx⟩
    intro x hx
    rw [List.mem_append] at hx
    rcases hx with hx | hx
    · exact (dirtyWrites_isWrite _ _ _ _ x hx).2
    · rw [List.mem_singleton] at hx
      subst hx
      rfl
  · rw [c]
    exact ⟨fun x hx => (dirtyWrites_isWrite _ _ _ _ x hx).2, fun _ hx => hx⟩

theorem readPage_keeps_pinned (env : Collab) (s : BufMgr) (hs : Inv s) (F : FilePtr) (p : Int)
    (f : Nat) (hres : s.hashTable.lookup F p = some f) (hpin : 0 < (s.desc f).pinCnt)
    (G : FilePtr) (q : Int) : StaysResident F p f (readPage env s G q) := by
  obtain ⟨hfN, hv, hfile, hpage⟩ := hs.mappedValid F p f hres
  cases hl : s.hashTable.lookup G q with
  | some g =>
    rw [readPage_hit env s G q g hl]
    refine ⟨hres, ?_, ?_, ?_, fun _ _ h => absurd h (List.not_mem_nil _)⟩ <;>
      dsimp only <;> rw [desc_setDesc] <;> split
    · rename_i h; rw [← h.1]; exact hv
    · exact hv
    · rename_i h; rw [← h.1]; exact hfile
    · exact hfile
    · rename_i h; rw [← h.1]; exact hpage
    · exact hpage
  | none =>
    have hsum := allocBuf_summary env s 0 hs
    have hne : (allocBuf env s 0).status ≠ Status.OK ∨ f ≠ (allocBuf env s 0).frame := by
      by_cases hok : (allocBuf env s 0).status = Status.OK
      · right
        intro e
        have := (hsum.chosen hok).2.2.2.1
        rw [← e] at this
        omega
      · exact Or.inl hok
    have hd := (hsum.others f hne).1
    have hidx : (allocBuf env s 0).st.hashTable.lookup F p = some f := by
      rw [hsum.idx, hres]
      rw [if_neg]
      intro hc
      rcases hne with h | h
      · exact h hc.1
      · exact h (Option.some.inj hc.2)
    have hnoread : ∀ G' q', IOCall.read G' q' f ∉ (allocBuf env s 0).io := by
      intro G' q' hm
      have := ((allocBuf_general env s 0).2 _ hm).2
      simp [IOCall.isRead] at this
    have hkey : (F, p) ≠ (G, q) := by
      intro e
      have h1 : F = G := congrArg Prod.fst e
      have h2 : p = q := congrArg Prod.snd e
      rw [h1, h2, hl] at hres
      exact absurd hres (by simp)
    rcases readPage_miss_cases env s G q hl with ⟨_, e, hio⟩ | ⟨hok, _, _, e⟩
    · refine ⟨by rw [e]; exact hidx, by rw [e, hd]; exact hv, by rw [e, hd]; exact hfile,
        by rw [e, hd]; exact hpage, ?_⟩
      intro G' q' hm
      rcases hio with hio | ⟨hok, hio⟩
      · rw [hio] at hm; exact hnoread G' q' hm
      · rw [hio, List.mem_append, List.mem_singleton] at hm
        rcases hm with hm | hm
        · exact hnoread G' q' hm
        · have hff : f = (allocBuf env s 0).frame := by injection hm
          rcases hne with h | h
          · exact h hok
          · exact h hff
    · have hff : f ≠ (allocBuf env s 0).frame := by
        rcases hne with h | h
        · exact absurd hok h
        · exact h
      rw [e]
      refine ⟨?_, ?_, ?_, ?_, ?_⟩ <;> dsimp only
      · rw [lookup_installPage, if_neg hkey]; exact hidx
      · rw [desc_installPage_ne _ _ _ _ _ hff, hd]; exact hv
      · rw [desc_installPage_ne _ _ _ _ _ hff, hd]; exact hfile
      · rw [desc_installPage_ne _ _ _ _ _ hff, hd]; exact hpage
      · intro G' q' hm
        rw [List.mem_append, List.mem_singleton] at hm
        rcases hm with hm | hm
        · exact hnoread G' q' hm
        · have : f = (allocBuf env s 0).frame := by injection hm
          exact hff this

theorem unPinPage_keeps_resident (s : BufMgr) (hs : Inv s) (F : FilePtr) (p : Int)
    (f : Nat) (hres : s.hashTable.lookup F p = some f)
    (G : FilePtr) (q : Int) (d : Bool) : StaysResident F p f (unPinPage s G q d) := by
  obtain ⟨hfN, hv, hfile, hpage⟩ := hs.mappedValid F p f hres
  unfold unPinPage
  cases hl : s.hashTable.lookup G q with
  | none => exact ⟨hres, hv, hfile, hpage, fun _ _ h => absurd h (List.not_mem_nil _)⟩
  | some g =>
    dsimp only
    split
    · refine ⟨hres, ?_, ?_, ?_, fun _ _ h => absurd h (List.not_mem_nil _)⟩ <;>
        dsimp only <;> rw [desc_setDesc] <;> split
      · rename_i h; rw [← h.1]; exact hv
      · exact hv
      · rename_i h; rw [← h.1]; exact hfile
      · exact hfile
      · rename_i h; rw [← h.1]; exact hpage
      · exact hpage
    · exact ⟨hres, hv, hfile, hpage, fun _ _ h => absurd h (List.not_mem_nil _)⟩

theorem flushFile_keeps_pinned (env : Collab) (s : BufMgr) (hs : Inv s) (F : FilePtr) (p : Int)
    (f : Nat) (hres : s.hashTable.lookup F p = some f) (hpin : 0 < (s.desc f).pinCnt)
    (G : FilePtr) : StaysResident F p f (flushFile env s G) := by
  obtain ⟨hfN, hv, hfile, hpage⟩ := hs.mappedValid F p f hres
  obtain ⟨k, hk⟩ := flushFile_trace env s G hs
  have hnot : ¬(0 ≤ f ∧ f < k ∧ (s.desc f).valid = true ∧ (s.desc f).file = G) := by
    intro hc
    have := (hk.flushedFrames f hc.1 hc.2.1 hc.2.2.1 hc.2.2.2).1
    omega
  have hd := hk.kept f hnot
  refine ⟨?_, by rw [hd]; exact hv, by rw [hd]; exact hfile, by rw [hd]; exact hpage, ?_⟩
  · apply hk.idxKept F p f hres
    intro hc
    exact hnot ⟨hc.1, hc.2.1, hv, hfile.trans hc.2.2⟩
  · intro G' q' hm
    have := hk.io_facts.1 _ hm
    simp [IOCall.isRead] at this

theorem readPage_keeps_dirty (env : Collab) (s : BufMgr) (hs : Inv s) (f : Nat)
    (hv : (s.desc f).valid = true) (hd : (s.desc f).dirty = true) (G : FilePtr) (q : Int) :
    DirtyKept env (s.desc f).file (s.desc f).pageNo f (readPage env s G q) := by
  cases hl : s.hashTable.lookup G q with
  | some g =>
    rw [readPage_hit env s G q g hl]
    left
    dsimp only
    rw [desc_setDesc]
    split
    · rename_i h
      rw [← h.1]
      exact ⟨hv, rfl, rfl, hd⟩
    · exact ⟨hv, rfl, rfl, hd⟩
  | none =>
    have hsum := allocBuf_summary env s 0 hs
    by_cases hsel : (allocBuf env s 0).status = Status.OK ∧ (allocBuf env s 0).frame = f
    · right
      obtain ⟨_, _, _, _, hio, hw⟩ := hsum.chosen hsel.1
      rw [hsel.2] at hio hw
      rw [if_pos ⟨hv, hd⟩] at hio
      refine ⟨?_, hw hv hd⟩
      have hmem : IOCall.write (s.desc f).file (s.desc f).pageNo f ∈ (allocBuf env s 0).io := by
        rw [hio]; exact List.mem_singleton.mpr rfl
      rcases readPage_miss_cases env s G q hl with ⟨_, _, hio2⟩ | ⟨_, _, _, e⟩
      · rcases hio2 with hio2 | ⟨_, hio2⟩
        · rw [hio2]; exact hmem
        · rw [hio2]; exact List.mem_append_left _ hmem
      · rw [e]; exact List.mem_append_left _ hmem
    · left
      have hne : (allocBuf env s 0).status ≠ Status.OK ∨ f ≠ (allocBuf env s 0).frame := by
        by_cases hok : (allocBuf env s 0).status = Status.OK
        · exact Or.inr (fun e => hsel ⟨hok, e.symm⟩)
        · exact Or.inl hok
      have hdesc := (hsum.others f hne).1
      rcases readPage_miss_cases env s G q hl with ⟨_, e, _⟩ | ⟨hok, _, _, e⟩
      · rw [e, hdesc]
        exact ⟨hv, rfl, rfl, hd⟩
      · have hff : f ≠ (allocBuf env s 0).frame := fun e => hsel ⟨hok, e.symm⟩
        rw [e]
        dsimp only
        rw [desc_installPage_ne _ _ _ _ _ hff, hdesc]
        exact ⟨hv, rfl, rfl, hd⟩

theorem unPinPage_keeps_dirty (s : BufMgr) (f : Nat)
    (hv : (s.desc f).valid = true) (hd : (s.desc f).dirty = true) (G : FilePtr) (q : Int)
    (d : Bool) :
    ((unPinPage s G q d).st.desc f).valid = true ∧
    ((unPinPage s G q d).st.desc f).file = (s.desc f).file ∧
    ((unPinPage s G q d).st.desc f).pageNo = (s.desc f).pageNo ∧
    ((unPinPage s G q d).st.desc f).dirty = true := by
  unfold unPinPage
  cases hl : s.hashTable.lookup G q with
  | none => exact ⟨hv, rfl, rfl, hd⟩
  | some g =>
    dsimp only
    split
    · dsimp only
      rw [desc_setDesc]
      split
      · rename_i h
        rw [← h.1]
        exact ⟨hv, rfl, rfl, by simp [hd]⟩
      · exact ⟨hv, rfl, rfl, hd⟩
    · exact ⟨hv, rfl, rfl, hd⟩

theorem flushFile_keeps_dirty (env : Collab) (s : BufMgr) (hs : Inv s) (f : Nat)
    (hv : (s.desc f).valid = true) (hd : (s.desc f).dirty = true) (G : FilePtr) :
    DirtyKept env (s.desc f).file (s.desc f).pageNo f (flushFile env s G) := by
  obtain ⟨k, hk⟩ := flushFile_trace env s G hs
  by_cases hc : f < k ∧ (s.desc f).file = G
  · right
    obtain ⟨_, _, hw⟩ := hk.flushedFrames f (Nat.zero_le f) hc.1 hv hc.2
    rw [hc.2]
    refine ⟨?_, hw hd⟩
    apply hk.io_facts.2
    exact mem_dirtyWrites s G 0 (k - 0) f (Nat.zero_le f) (by omega) hv hc.2 hd
  · left
    rw [hk.kept f (fun h => hc ⟨h.2.1, h.2.2.2⟩)]
    exact ⟨hv, rfl, rfl, hd⟩

/-! ## The sweep when every frame is pinned, and when one is not -/

theorem advance_hand (s : BufMgr) (hc : s.clockHand < s.numBufs) :
    s.advanceClock.clockHand = if s.clockHand + 1 < s.numBufs then s.clockHand + 1 else 0 := by
  show (s.clockHand + 1) % s.numBufs = _
  split
  · rename_i h; exact Nat.mod_eq_of_lt h
  · rename_i h
    have e : s.clockHand + 1 = s.numBufs := by omega
    rw [e, Nat.mod_self]

theorem clockDist_step (s : BufMgr) (j : Nat) (hc : s.clockHand < s.numBufs)
    (hj : j < s.numBufs) :
    1 ≤ clockDist s.clockHand j s.numBufs ∧ clockDist s.clockHand j s.numBufs ≤ s.numBufs ∧
    (s.advanceClock.clockHand = j → clockDist s.clockHand j s.numBufs = 1) ∧
    clockDist j j s.numBufs = s.numBufs ∧
    (s.advanceClock.clockHand ≠ j →
      clockDist s.advanceClock.clockHand j s.numBufs + 1
        = clockDist s.clockHand j s.numBufs) := by
  rw [advance_hand s hc]
  unfold clockDist
  refine ⟨?_, ?_, ?_, ?_, ?_⟩
  · split <;> omega
  · split <;> omega
  · split <;> split <;> omega
  · simp
  · split <;> split <;> split <;> omega

theorem AllPinned.of_refbitOnly {s m : BufMgr} (h : AllPinned s) (hm : RefbitOnly s m) :
    AllPinned m := by
  intro i hi
  rw [hm.len] at hi
  rw [hm.valid_eq, hm.pinCnt_eq]
  exact h i hi

/-- When every frame is valid and pinned, the sweep gives up after its `n`
examinations, makes no file call and changes reference bits only. -/
theorem allocLoop_allPinned (env : Collab) (n : Nat) (s : BufMgr) (frame : Nat)
    (hN : 0 < s.numBufs) (h : AllPinned s) :
    allocLoop env n s frame
        = ⟨Status.BUFFEREXCEEDED, frame, (allocLoop env n s frame).st, []⟩ ∧
    RefbitOnly s (allocLoop env n s frame).st := by
  obtain ⟨m, hm, _, he⟩ := allocLoop_char env n s frame hN
  have hpm := h.of_refbitOnly hm
  rcases he with he | ⟨hc, hv, _⟩ | ⟨hc, _, _, hp, _⟩
  · rw [he]; exact ⟨rfl, hm⟩
  · have := (hpm _ hc).1
    rw [hv] at this
    exact absurd this (by decide)
  · have := (hpm _ hc).2
    omega

theorem allocLoop_allPinned_hand (env : Collab) (n : Nat) (s : BufMgr) (frame : Nat)
    (hN : 0 < s.numBufs) (hc : s.clockHand < s.numBufs) (h : AllPinned s) :
    (allocLoop env n s frame).st.clockHand = (s.clockHand + n) % s.numBufs := by
  induction n generalizing s with
  | zero => exact (Nat.mod_eq_of_lt hc).symm
  | succ n ih =>
    have hlt := advanceClock_lt s hN
    have hcur := h s.advanceClock.clockHand hlt
    have harith : ((s.clockHand + 1) % s.numBufs + n) % s.numBufs
        = (s.clockHand + (n + 1)) % s.numBufs := by
      rw [Nat.mod_add_mod]
      congr 1
      omega
    simp only [allocLoop]
    split
    · rename_i hv
      have : (s.desc s.advanceClock.clockHand).valid = false := hv
      rw [hcur.1] at this
      exact absurd this (by decide)
    · split
      · rw [ih _ (by rw [numBufs_setDesc]; exact hN) (by rw [numBufs_setDesc]; exact hlt)
          (h.of_refbitOnly ((RefbitOnly.advance s).trans (RefbitOnly.clear _ _)))]
        rw [numBufs_setDesc]
        exact harith
      · split
        · rw [ih s.advanceClock hN hlt (h.of_refbitOnly (RefbitOnly.advance s))]
          exact harith
        · rename_i hp
          have : 0 < (s.desc s.advanceClock.clockHand).pinCnt := hcur.2
          exact absurd this hp

theorem allocLoop_allPinned_refbit (env : Collab) (n : Nat) (s : BufMgr) (frame : Nat)
    (hN : 0 < s.numBufs) (hc : s.clockHand < s.numBufs) (h : AllPinned s) (j : Nat)
    (hj : j < s.numBufs) (hd : clockDist s.clockHand j s.numBufs ≤ n) :
    ((allocLoop env n s frame).st.desc j).refbit = false := by
  induction n generalizing s with
  | zero =>
    have := (clockDist_step s j hc hj).1
    omega
  | succ n ih =>
    have hlt := advanceClock_lt s hN
    have hcur := h s.advanceClock.clockHand hlt
    obtain ⟨_, _, _, _, hstep⟩ := clockDist_step s j hc hj
    have hfalse : ∀ t : BufMgr, 0 < t.numBufs → AllPinned t → (t.desc j).refbit = false →
        ((allocLoop env n t frame).st.desc j).refbit = false := by
      intro t ht hpt hr
      have hmono := (allocLoop_allPinned env n t frame ht hpt).2.mono j
      cases hb : ((allocLoop env n t frame).st.desc j).refbit with
      | false => rfl
      | true => rw [hmono hb] at hr; exact absurd hr (by decide)
    simp only [allocLoop]
    split
    · rename_i hv
      have : (s.desc s.advanceClock.clockHand).valid = false := hv
      rw [hcur.1] at this
      exact absurd this (by decide)
    · have hp2 := h.of_refbitOnly ((RefbitOnly.advance s).trans
        (RefbitOnly.clear s.advanceClock s.advanceClock.clockHand))
      split
      · by_cases hcj : s.advanceClock.clockHand = j
        · apply hfalse _ (by rw [numBufs_setDesc]; exact hN) hp2
          rw [← hcj, desc_setDesc_self _ _ _ hlt]
        · have hdj : (s.advanceClock.setDesc s.advanceClock.clockHand
              { s.advanceClock.desc s.advanceClock.clockHand with refbit := false }).clockHand
              = s.advanceClock.clockHand := rfl
          apply ih _ (by rw [numBufs_setDesc]; exact hN) (by rw [numBufs_setDesc]; exact hlt) hp2
            (by rw [numBufs_setDesc]; exact hj)
          rw [numBufs_setDesc, hdj]
          have := hstep hcj
          have e : s.advanceClock.numBufs = s.numBufs := rfl
          rw [e]
          omega
      · rename_i hr
        split
        · by_cases hcj : s.advanceClock.clockHand = j
          · apply hfalse s.advanceClock hN (h.of_refbitOnly (RefbitOnly.advance s))
            rw [← hcj]
            simpa using hr
          · apply ih s.advanceClock hN hlt (h.of_refbitOnly (RefbitOnly.advance s)) hj
            have := hstep hcj
            have e : s.advanceClock.numBufs = s.numBufs := rfl
            rw [e]
            omega
        · rename_i hp
          have : 0 < (s.desc s.advanceClock.clockHand).pinCnt := hcur.2
          exact absurd this hp

/-- `allocBuf` on a state whose frames are all valid and pinned: it returns
BUFFEREXCEEDED without any file call; the index, the clock hand and every
descriptor field other than `refbit` are as before, and every `refbit` is
false afterwards. -/
theorem allocBuf_allPinned (env : Collab) (s : BufMgr) (frame : Nat)
    (hc : s.clockHand < s.numBufs ∨ s.numBufs = 0) (h : AllPinned s) :
    (allocBuf env s frame).status = Status.BUFFEREXCEEDED ∧
    (allocBuf env s frame).frame = frame ∧
    (allocBuf env s frame).io = [] ∧
    (allocBuf env s frame).st.hashTable = s.hashTable ∧
    (allocBuf env s frame).st.clockHand = s.clockHand ∧
    (allocBuf env s frame).st.numBufs = s.numBufs ∧
    (∀ i, (allocBuf env s frame).st.desc i = { s.desc i with refbit := false }) := by
  by_cases hN : 0 < s.numBufs
  · have hc2 : s.clockHand < s.numBufs := by
      rcases hc with hc | hc
      · exact hc
      · omega
    obtain ⟨e, hm⟩ := allocLoop_allPinned env (s.numBufs * 2) s frame hN h
    have hhand := allocLoop_allPinned_hand env (s.numBufs * 2) s frame hN hc2 h
    have e0 : allocBuf env s frame = allocLoop env (s.numBufs * 2) s frame := rfl
    rw [e0]
    refine ⟨by rw [e], by rw [e], by rw [e], hm.tbl, ?_, hm.len, ?_⟩
    · rw [hhand]
      have : s.clockHand + s.numBufs * 2 = s.clockHand + s.numBufs + s.numBufs := by omega
      rw [this, Nat.add_mod_right, Nat.add_mod_right]
      exact Nat.mod_eq_of_lt hc2
    · intro i
      have hr : ((allocLoop env (s.numBufs * 2) s frame).st.desc i).refbit = false := by
        by_cases hi : i < s.numBufs
        · apply allocLoop_allPinned_refbit env _ s frame hN hc2 h i hi
          have := (clockDist_step s i hc2 hi).2.1
          omega
        · rw [desc_default_of_le _ i (by rw [hm.len]; omega)]
          rfl
      have := hm.same i
      rw [hr] at this
      exact this
  · have h0 : s.numBufs = 0 := Nat.eq_zero_of_not_pos hN
    have e0 : allocBuf env s frame = ⟨Status.BUFFEREXCEEDED, frame, s, []⟩ := by
      simp only [allocBuf, h0, allocLoop]
    rw [e0]
    refine ⟨rfl, rfl, rfl, rfl, rfl, rfl, ?_⟩
    intro i
    dsimp only
    rw [desc_default_of_le s i (by omega)]
    rfl

/-- When the writes succeed and some frame `j` is invalid or unpinned, the
sweep returns OK within `sweepBudget s j` examinations. -/
theorem allocLoop_finds (env : Collab) (hw : ∀ f p i, env.fileWrite f p i = Status.OK)
    (n : Nat) (s : BufMgr) (frame : Nat) (j : Nat) (hs : Inv s)
    (hc : s.clockHand < s.numBufs) (hj : j < s.numBufs)
    (hfree : (s.desc j).valid = false ∨ (s.desc j).pinCnt ≤ 0)
    (hn : sweepBudget s j ≤ n) : (allocLoop env n s frame).status = Status.OK := by
  induction n generalizing s with
  | zero =>
    have := (clockDist_step s j hc hj).1
    unfold sweepBudget at hn
    omega
  | succ n ih =>
    have hN : 0 < s.numBufs := by omega
    have hlt := advanceClock_lt s hN
    obtain ⟨_, _, hone, hself, hstep⟩ := clockDist_step s j hc hj
    have hi1 : Inv s.advanceClock := (RefbitOnly.advance s).keepsInv hs (Or.inl hlt)
    simp only [allocLoop]
    split
    · rfl
    · rename_i hv
      have hv1 : (s.desc s.advanceClock.clockHand).valid = true := by simpa using hv
      split
      · rename_i hr
        have hr1 : (s.desc s.advanceClock.clockHand).refbit = true := hr
        have hm := (RefbitOnly.advance s).trans
          (RefbitOnly.clear s.advanceClock s.advanceClock.clockHand)
        apply ih _ (hm.keepsInv hs (Or.inl (by rw [numBufs_setDesc]; exact hlt)))
          (by rw [numBufs_setDesc]; exact hlt) (by rw [numBufs_setDesc]; exact hj)
          (by rw [hm.valid_eq, hm.pinCnt_eq]; exact hfree)
        unfold sweepBudget at hn ⊢
        rw [numBufs_setDesc, clockHand_setDesc]
        have e : s.advanceClock.numBufs = s.numBufs := rfl
        rw [e]
        by_cases hcj : s.advanceClock.clockHand = j
        · have h1 := hone hcj
          rw [hcj] at hv1 hr1 ⊢
          rw [if_pos ⟨hv1, hr1⟩] at hn
          rw [desc_setDesc_self _ _ _ (by rw [e]; exact hj)]
          rw [if_neg (by simp), hself]
          omega
        · rw [desc_setDesc_ne _ _ _ _ (fun e => hcj e.symm)]
          have h1 := hstep hcj
          have e2 : s.advanceClock.desc j = s.desc j := rfl
          rw [e2]
          omega
      · rename_i hr
        split
        · rename_i hp
          have hp1 : 0 < (s.desc s.advanceClock.clockHand).pinCnt := hp
          have hcj : s.advanceClock.clockHand ≠ j := by
            intro e
            rw [e] at hv1 hp1
            rcases hfree with hf | hf
            · rw [hf] at hv1; exact absurd hv1 (by decide)
            · omega
          apply ih s.advanceClock hi1 hlt hj hfree
          unfold sweepBudget at hn ⊢
          have h1 := hstep hcj
          have e : s.advanceClock.numBufs = s.numBufs := rfl
          have e2 : s.advanceClock.desc j = s.desc j := rfl
          rw [e, e2]
          omega
        · have hl := hi1.validMapped _ hlt hv1
          have hrm : (s.advanceClock.hashTable.remove
              (s.advanceClock.desc s.advanceClock.clockHand).file
              (s.advanceClock.desc s.advanceClock.clockHand).pageNo).1 = Status.OK := by
            rw [remove_status, hl]
            simp
          rw [if_neg (by rw [hw]; simp), if_neg (by rw [hrm]; simp)]

/-- In a coherent state, when the file writes succeed, `allocBuf` returns
BUFFEREXCEEDED iff every frame is valid and pinned, and OK otherwise. -/
theorem allocBuf_exceeded_iff (env : Collab) (hw : ∀ f p i, env.fileWrite f p i = Status.OK)
    (s : BufMgr) (frame : Nat) (hs : Inv s) :
    ((allocBuf env s frame).status = Status.BUFFEREXCEEDED ↔ AllPinned s) ∧
    (¬ AllPinned s → (allocBuf env s frame).status = Status.OK) := by
  have hok : ¬ AllPinned s → (allocBuf env s frame).status = Status.OK := by
    intro hnp
    unfold AllPinned at hnp
    push_neg at hnp
    obtain ⟨j, hj, hfree⟩ := hnp
    have hc : s.clockHand < s.numBufs := by
      rcases hs.hand with h | h
      · exact h
      · omega
    apply allocLoop_finds env hw _ s frame j hs hc hj
    · cases hv : (s.desc j).valid with
      | false => exact Or.inl rfl
      | true => exact Or.inr (hfree hv)
    · unfold sweepBudget
      have := (clockDist_step s j hc hj).2.1
      split <;> omega
  refine ⟨⟨?_, ?_⟩, hok⟩
  · intro hst
    by_contra hnp
    rw [hok hnp] at hst
    exact Status.noConfusion hst
  · intro hp
    exact (allocBuf_allPinned env s frame hs.hand hp).1

theorem filled_init (N : Nat) : Filled N (BufMgr.init N) 0 [] := by
  refine ⟨numBufs_init N, Nat.zero_le N, ?_, ?_, ?_, ?_, ?_⟩
  · intro i hi; omega
  · intro i _; exact (desc_init_fields N i).1
  · intro hN
    show (N - 1 + 1) % N = 0
    rw [Nat.sub_add_cancel hN, Nat.mod_self]
  · by_cases h : N = 0
    · exact Or.inr h
    · left
      show N - 1 < N
      omega
  · intro f p _; rfl

theorem allocBuf_next_free (env : Collab) (s : BufMgr) (frame : Nat) (hN : 0 < s.numBufs)
    (hv : (s.desc s.advanceClock.clockHand).valid = false) :
    allocBuf env s frame
      = ⟨Status.OK, s.advanceClock.clockHand,
          s.advanceClock.setDesc s.advanceClock.clockHand
            (s.desc s.advanceClock.clockHand).Clear, []⟩ := by
  obtain ⟨m, hm⟩ : ∃ m, s.numBufs * 2 = m + 1 := ⟨s.numBufs * 2 - 1, by omega⟩
  have hv1 : (s.advanceClock.desc s.advanceClock.clockHand).valid = false := hv
  unfold allocBuf
  rw [hm]
  simp only [allocLoop]
  rw [if_pos hv1]
  rfl

theorem filled_step (N : Nat) (s : BufMgr) (k : Nat) (seen : List (FilePtr × Int))
    (h : Filled N s k seen) (hk : k < N) (env : Collab) (file : FilePtr) (p : Int)
    (hnew : (file, p) ∉ seen) (hok : (readPage env s file p).status = Status.OK) :
    Filled N (readPage env s file p).st (k + 1) ((file, p) :: seen) := by
  have hl := h.idx file p hnew
  have hN : 0 < s.numBufs := by rw [h.len]; omega
  have hc : s.advanceClock.clockHand = k := by
    show (s.clockHand + 1) % s.numBufs = k
    rw [h.len]; exact h.next hk
  have ha := allocBuf_next_free env s 0 hN (by rw [hc]; exact h.free k (Nat.le_refl k))
  rw [hc] at ha
  have hkN : k < (s.advanceClock.setDesc k (s.desc k).Clear).numBufs := by
    rw [numBufs_setDesc]; show k < s.numBufs; rw [h.len]; exact hk
  rcases readPage_miss_cases env s file p hl with ⟨hne, _, _⟩ | ⟨_, _, _, e⟩
  · exact absurd hok hne
  · rw [e, ha]
    dsimp only
    refine ⟨?_, hk, ?_, ?_, ?_, ?_, ?_⟩
    · rw [numBufs_installPage, numBufs_setDesc]; exact h.len
    · intro i hi
      by_cases hik : i = k
      · subst hik
        rw [desc_installPage_self _ _ _ _ hkN]
        exact ⟨rfl, Int.zero_lt_one⟩
      · rw [desc_installPage_ne _ _ _ _ _ hik, desc_setDesc_ne _ _ _ _ hik]
        exact h.pinned i (by omega)
    · intro i hi
      have hik : i ≠ k := by omega
      rw [desc_installPage_ne _ _ _ _ _ hik, desc_setDesc_ne _ _ _ _ hik]
      exact h.free i (by omega)
    · intro hk1
      rw [clockHand_installPage, clockHand_setDesc, hc]
      exact Nat.mod_eq_of_lt hk1
    · left
      rw [clockHand_installPage, clockHand_setDesc, hc]
      exact hk
    · intro f q hfq
      rw [lookup_installPage, hashTable_setDesc]
      rw [if_neg (fun e => hfq (by rw [e]; exact List.mem_cons_self _ _))]
      exact h.idx f q (fun hm => hfq (List.mem_cons_of_mem _ hm))

theorem filled_run (N : Nat) (calls : List (Collab × Nat × Int)) (s t : BufMgr) (k : Nat)
    (seen : List (FilePtr × Int)) (h : Filled N s k seen) (hlen : k + calls.length = N)
    (hnd : (calls.map callKey).Nodup) (hdisj : ∀ c, c ∈ calls → callKey c ∉ seen)
    (hrun : readAll s calls = some t) :
    AllPinned t ∧ (t.clockHand < t.numBufs ∨ t.numBufs = 0) ∧
    ∀ f p, (f, p) ∉ seen → (f, p) ∉ calls.map callKey → t.hashTable.lookup f p = none := by
  induction calls generalizing s k seen with
  | nil =>
    simp only [readAll, Option.some.injEq] at hrun
    subst hrun
    have hk : k = N := by simpa using hlen
    subst hk
    refine ⟨?_, ?_, fun f p hf _ => h.idx f p hf⟩
    · intro i hi
      rw [h.len] at hi
      exact h.pinned i hi
    · rw [h.len]; exact h.handLt
  | cons c rest ih =>
    obtain ⟨env, file, p⟩ := c
    simp only [List.length_cons] at hlen
    simp only [List.map_cons, List.nodup_cons] at hnd
    simp only [readAll] at hrun
    split at hrun
    · rename_i hok
      have hnew : ((some file : FilePtr), p) ∉ seen :=
        hdisj (env, file, p) (List.mem_cons_self _ _)
      have hstep := filled_step N s k seen h (by omega) env (some file) p hnew hok
      obtain ⟨h1, h2, h3⟩ := ih _ (k + 1) _ hstep (by omega) hnd.2 (by
        intro c hc hm
        rcases List.mem_cons.mp hm with hm | hm
        · apply hnd.1
          have : callKey c ∈ rest.map callKey := List.mem_map_of_mem _ hc
          rw [hm] at this
          exact this
        · exact hdisj c (List.mem_cons_of_mem _ hc) hm) hrun
      refine ⟨h1, h2, ?_⟩
      intro f q hf hq
      apply h3 f q
      · intro hm
        rcases List.mem_cons.mp hm with hm | hm
        · apply hq
          rw [hm]
          exact List.mem_cons_self _ _
        · exact hf hm
      · intro hm
        exact hq (List.mem_cons_of_mem _ hm)
    · exact absurd hrun (by simp)

theorem pinned3_reachable : Reachable pinned3 :=
  Reachable.readPage okEnv _ 1 3 (Reachable.readPage okEnv _ 1 2
    (Reachable.readPage okEnv _ 1 1 (Reachable.init 3)))

theorem mixed2_reachable : Reachable mixed2 :=
  Reachable.readPage okEnv _ 2 7 (Reachable.readPage readFailEnv _ 1 2
    (Reachable.readPage okEnv _ 1 1 (Reachable.init 2)))

theorem dirty2_reachable : Reachable dirty2 :=
  Reachable.unPinPage _ (some 1) 5 true (Reachable.readPage okEnv _ 1 5 (Reachable.init 2))

/-! ## The contract -/

/-- C1: in every reachable state, whenever `allocBuf` returns OK with frame
`f`, `f` is a frame of the pool and had `pinCnt == 0` immediately before the
call; this covers the branch that takes an invalid frame without looking at
its pin count. -/
theorem allocBuf_never_selects_pinned (s : BufMgr) (hs : Reachable s) (env : Collab)
    (frame : Nat) (hok : (allocBuf env s frame).status = Status.OK) :
    (allocBuf env s frame).frame < s.numBufs ∧
    (s.desc (allocBuf env s frame).frame).pinCnt = 0 := by
  obtain ⟨h1, _, _, h4, _, _⟩ := (allocBuf_summary env s frame hs.invariant).chosen hok
  exact ⟨h1, h4⟩

theorem allocBuf_never_selects_pinned_witness :
    Reachable dirty2 ∧ (allocBuf okEnv dirty2 0).status = Status.OK ∧
    (allocBuf okEnv dirty2 0).frame < dirty2.numBufs ∧
    (dirty2.desc (allocBuf okEnv dirty2 0).frame).pinCnt = 0 :=
  ⟨dirty2_reachable, by decide,
    allocBuf_never_selects_pinned dirty2 dirty2_reachable okEnv 0 (by decide)⟩

/-- C3: in every reachable state (failed calls included), a frame is valid
iff the index maps its (file, pageNo) to it; every index entry points at a
valid frame of the pool holding exactly that file and page; so no two valid
frames hold the same (file, pageNo). -/
theorem valid_iff_indexed (s : BufMgr) (hs : Reachable s) :
    (∀ i, i < s.numBufs →
      ((s.desc i).valid = true ↔
        s.hashTable.lookup (s.desc i).file (s.desc i).pageNo = some i)) ∧
    (∀ F p i, s.hashTable.lookup F p = some i →
      i < s.numBufs ∧ (s.desc i).valid = true ∧ (s.desc i).file = F ∧
      (s.desc i).pageNo = p) ∧
    (∀ i j, i < s.numBufs → j < s.numBufs → (s.desc i).valid = true →
      (s.desc j).valid = true → (s.desc i).file = (s.desc j).file →
      (s.desc i).pageNo = (s.desc j).pageNo → i = j) := by
  have hi := hs.invariant
  refine ⟨?_, hi.mappedValid, ?_⟩
  · intro i hlt
    constructor
    · exact hi.validMapped i hlt
    · intro hl
      exact (hi.mappedValid _ _ _ hl).2.1
  · intro i j hlt hlt2 hv hv2 hf hp
    have h1 := hi.validMapped i hlt hv
    have h2 := hi.validMapped j hlt2 hv2
    rw [hf, hp, h2] at h1
    exact (Option.some.inj h1).symm

theorem valid_iff_indexed_witness :
    Reachable mixed2 ∧
    ((mixed2.desc 1).valid = true ↔
      mixed2.hashTable.lookup (mixed2.desc 1).file (mixed2.desc 1).pageNo = some 1) ∧
    (mixed2.hashTable.lookup (some 2) 7 = some 1 →
      1 < mixed2.numBufs ∧ (mixed2.desc 1).valid = true ∧ (mixed2.desc 1).file = some 2 ∧
      (mixed2.desc 1).pageNo = 7) :=
  ⟨mixed2_reachable, (valid_iff_indexed mixed2 mixed2_reachable).1 1 (by decide),
    (valid_iff_indexed mixed2 mixed2_reachable).2.1 (some 2) 7 1⟩

/-- C4: on every state in which the index maps (file, PageNo) to a frame `f`
of the pool, `readPage(file, PageNo)` returns OK with `page` set to slot `f`,
increases `pinCnt` of `f` by exactly 1 and sets its `refbit`; it calls neither
`readPage` nor `writePage` of the file collaborator, and every other field of
frame `f`, every other frame, the clock hand and the index are unchanged. -/
theorem readPage_hit_effect (env : Collab) (s : BufMgr) (file : FilePtr) (PageNo : Int)
    (f : Nat) (hl : s.hashTable.lookup file PageNo = some f) (hf : f < s.numBufs) :
    (readPage env s file PageNo).status = Status.OK ∧
    (readPage env s file PageNo).page = some f ∧
    ((readPage env s file PageNo).st.desc f).pinCnt = (s.desc f).pinCnt + 1 ∧
    ((readPage env s file PageNo).st.desc f).refbit = true ∧
    (readPage env s file PageNo).io = [] ∧
    ((readPage env s file PageNo).st.desc f).file = (s.desc f).file ∧
    ((readPage env s file PageNo).st.desc f).pageNo = (s.desc f).pageNo ∧
    ((readPage env s file PageNo).st.desc f).frameNo = (s.desc f).frameNo ∧
    ((readPage env s file PageNo).st.desc f).dirty = (s.desc f).dirty ∧
    ((readPage env s file PageNo).st.desc f).valid = (s.desc f).valid ∧
    (∀ j, j ≠ f → (readPage env s file PageNo).st.desc j = s.desc j) ∧
    (readPage env s file PageNo).st.numBufs = s.numBufs ∧
    (readPage env s file PageNo).st.clockHand = s.clockHand ∧
    (readPage env s file PageNo).st.hashTable = s.hashTable := by
  rw [readPage_hit env s file PageNo f hl]
  simp only
  rw [desc_setDesc_self _ _ _ hf]
  refine ⟨by trivial, by trivial, by trivial, by trivial, by trivial, by trivial, by trivial,
    by trivial, by trivial, by trivial, ?_, numBufs_setDesc _ _ _, by trivial, by trivial⟩
  intro j hj
  exact desc_setDesc_ne _ _ _ _ hj

theorem readPage_hit_effect_witness :
    pinned3.hashTable.lookup (some 1) 2 = some 1 ∧ 1 < pinned3.numBufs ∧
    (readPage writeFailEnv pinned3 (some 1) 2).status = Status.OK ∧
    (readPage writeFailEnv pinned3 (some 1) 2).page = some 1 ∧
    ((readPage writeFailEnv pinned3 (some 1) 2).st.desc 1).pinCnt = (pinned3.desc 1).pinCnt + 1 ∧
    ((readPage writeFailEnv pinned3 (some 1) 2).st.desc 1).refbit = true ∧
    (readPage writeFailEnv pinned3 (some 1) 2).io = [] :=
  have h := readPage_hit_effect writeFailEnv pinned3 (some 1) 2 1 (by decide) (by decide)
  ⟨by decide, by decide, h.1, h.2.1, h.2.2.1, h.2.2.2.1, h.2.2.2.2.1⟩

/-- C5: on every state in which (file, PageNo) is not in the index, if
`allocBuf` returns OK with frame `f`, the file read of PageNo into slot `f`
returns OK and the index insertion succeeds, then `readPage(file, PageNo)`
returns OK with `page` set to slot `f`; afterwards the index maps
(file, PageNo) to `f`, frame `f` has valid=true, file=file, pageNo=PageNo,
pinCnt=1, refbit=true, dirty=false, and the file read was issued exactly
once, for PageNo, into slot `f`. -/
theorem readPage_miss_effect (env : Collab) (s : BufMgr) (file : FilePtr) (PageNo : Int)
    (hl : s.hashTable.lookup file PageNo = none)
    (ha : (allocBuf env s 0).status = Status.OK)
    (hr : env.fileRead file PageNo (allocBuf env s 0).frame = Status.OK)
    (hi : env.insertOk = true) :
    (readPage env s file PageNo).status = Status.OK ∧
    (readPage env s file PageNo).page = some (allocBuf env s 0).frame ∧
    (readPage env s file PageNo).st.hashTable.lookup file PageNo
      = some (allocBuf env s 0).frame ∧
    ((readPage env s file PageNo).st.desc (allocBuf env s 0).frame).valid = true ∧
    ((readPage env s file PageNo).st.desc (allocBuf env s 0).frame).file = file ∧
    ((readPage env s file PageNo).st.desc (allocBuf env s 0).frame).pageNo = PageNo ∧
    ((readPage env s file PageNo).st.desc (allocBuf env s 0).frame).pinCnt = 1 ∧
    ((readPage env s file PageNo).st.desc (allocBuf env s 0).frame).refbit = true ∧
    ((readPage env s file PageNo).st.desc (allocBuf env s 0).frame).dirty = false ∧
    (readPage env s file PageNo).io.filter IOCall.isRead
      = [IOCall.read file PageNo (allocBuf env s 0).frame] := by
  rw [readPage_miss env s file PageNo hl ha hr hi]
  simp only
  obtain ⟨hlt, hlen⟩ := (allocBuf_general env s 0).1 ha
  rw [desc_installPage_self _ _ _ _ (hlen ▸ hlt), lookup_installPage, List.filter_append,
    filter_isRead_alloc]
  refine ⟨by trivial, by trivial, by simp, by trivial, by trivial, by trivial, by trivial,
    by trivial, by trivial, ?_⟩
  simp [IOCall.isRead]

theorem readPage_miss_effect_witness :
    dirty2.hashTable.lookup (some 1) 6 = none ∧
    (allocBuf okEnv dirty2 0).status = Status.OK ∧ (allocBuf okEnv dirty2 0).frame = 1 ∧
    (readPage okEnv dirty2 (some 1) 6).status = Status.OK ∧
    (readPage okEnv dirty2 (some 1) 6).page = some 1 ∧
    (readPage okEnv dirty2 (some 1) 6).st.hashTable.lookup (some 1) 6 = some 1 ∧
    ((readPage okEnv dirty2 (some 1) 6).st.desc 1).pinCnt = 1 ∧
    (readPage okEnv dirty2 (some 1) 6).io.filter IOCall.isRead = [IOCall.read (some 1) 6 1] :=
  have h := readPage_miss_effect okEnv dirty2 (some 1) 6 (by decide) (by decide) (by decide)
    (by decide)
  ⟨by decide, by decide, by decide, h.1, h.2.1, h.2.2.1, h.2.2.2.2.2.2.1, h.2.2.2.2.2.2.2.2.2⟩

/-- C2: in every reachable state, a page (F, p) resident in frame `f` with
`pinCnt > 0` is not evicted by any single call of `readPage` (any file and
page), `unPinPage` (any page, (F, p) included) or `flushFile` (any file):
afterwards (F, p) is still mapped to `f`, frame `f` is valid with the same
file and page number, and no file read was made into slot `f`. -/
theorem pinned_page_not_evicted (s : BufMgr) (hs : Reachable s) (F : FilePtr) (p : Int)
    (f : Nat) (hres : s.hashTable.lookup F p = some f) (hpin : 0 < (s.desc f).pinCnt) :
    (∀ env G q, StaysResident F p f (readPage env s G q)) ∧
    (∀ G q d, StaysResident F p f (unPinPage s G q d)) ∧
    (∀ env G, StaysResident F p f (flushFile env s G)) :=
  ⟨fun env G q => readPage_keeps_pinned env s hs.invariant F p f hres hpin G q,
   fun G q d => unPinPage_keeps_resident s hs.invariant F p f hres G q d,
   fun env G => flushFile_keeps_pinned env s hs.invariant F p f hres hpin G⟩

theorem pinned_page_not_evicted_witness :
    Reachable mixed2 ∧ mixed2.hashTable.lookup (some 1) 1 = some 0 ∧
    0 < (mixed2.desc 0).pinCnt ∧
    StaysResident (some 1) 1 0 (readPage okEnv mixed2 (some 3) 9) ∧
    StaysResident (some 1) 1 0 (unPinPage mixed2 (some 1) 1 true) ∧
    StaysResident (some 1) 1 0 (flushFile okEnv mixed2 (some 1)) :=
  have h := pinned_page_not_evicted mixed2 mixed2_reachable (some 1) 1 0 (by decide)
    (by decide)
  ⟨mixed2_reachable, by decide, by decide, h.1 okEnv (some 3) 9, h.2.1 (some 1) 1 true,
    h.2.2 okEnv (some 1)⟩

/-- C9: a dirty page is never dropped or marked clean without a successful
write-back. In every reachable state, for every frame `f` holding a page
(F, p) with `dirty == true`, after any single `readPage`, `unPinPage` (either
value of the dirty argument) or `flushFile` call, frame `f` still holds (F, p)
with `dirty == true`, or during the call `writePage(p, slot f)` was invoked on
F and returned OK. -/
theorem dirty_page_written_before_dropped (s : BufMgr) (hs : Reachable s) (f : Nat)
    (F : FilePtr) (p : Int) (hv : (s.desc f).valid = true) (hF : (s.desc f).file = F)
    (hp : (s.desc f).pageNo = p) (hd : (s.desc f).dirty = true) :
    (∀ env G q, DirtyKept env F p f (readPage env s G q)) ∧
    (∀ G q d, ((unPinPage s G q d).st.desc f).valid = true ∧
      ((unPinPage s G q d).st.desc f).file = F ∧
      ((unPinPage s G q d).st.desc f).pageNo = p ∧
      ((unPinPage s G q d).st.desc f).dirty = true) ∧
    (∀ env G, DirtyKept env F p f (flushFile env s G)) := by
  subst hF
  subst hp
  exact ⟨fun env G q => readPage_keeps_dirty env s hs.invariant f hv hd G q,
    fun G q d => unPinPage_keeps_dirty s f hv hd G q d,
    fun env G => flushFile_keeps_dirty env s hs.invariant f hv hd G⟩

theorem dirty_page_written_before_dropped_witness :
    Reachable dirty2 ∧ (dirty2.desc 0).valid = true ∧ (dirty2.desc 0).file = some 1 ∧
    (dirty2.desc 0).pageNo = 5 ∧ (dirty2.desc 0).dirty = true ∧
    DirtyKept writeFailEnv (some 1) 5 0 (readPage writeFailEnv dirty2 (some 1) 6) ∧
    DirtyKept okEnv (some 1) 5 0 (flushFile okEnv dirty2 (some 1)) ∧
    (flushFile okEnv dirty2 (some 1)).io = [IOCall.write (some 1) 5 0] ∧
    ((flushFile writeFailEnv dirty2 (some 1)).st.desc 0).dirty = true :=
  have h := dirty_page_written_before_dropped dirty2 dirty2_reachable 0 (some 1) 5
    (by decide) (by decide) (by decide) (by decide)
  ⟨dirty2_reachable, by decide, by decide, by decide, by decide,
    h.1 writeFailEnv (some 1) 6, h.2.2 okEnv (some 1), by decide, by decide⟩

/-- C10: in every reachable state, if `flushFile(F)` returns OK then
afterwards no valid frame has file F and the index has no entry for any page
of F; the file calls made are exactly one `writePage`, with the frame's page
number and its pool slot, for each frame that was valid, of file F and dirty
before the call, in frame order (none for clean frames of F or frames of
other files); and the descriptors and index entries of other files, the
frame count and the clock hand are unchanged. -/
theorem flushFile_ok_effect (s : BufMgr) (hs : Reachable s) (env : Collab) (F : FilePtr)
    (hok : (flushFile env s F).status = Status.OK) :
    (∀ j, j < s.numBufs →
      ¬(((flushFile env s F).st.desc j).valid = true ∧
        ((flushFile env s F).st.desc j).file = F)) ∧
    (∀ p, (flushFile env s F).st.hashTable.lookup F p = none) ∧
    (flushFile env s F).io
      = ((List.range s.numBufs).filter (fun j => (s.desc j).valid &&
          decide ((s.desc j).file = F) && (s.desc j).dirty)).map
          (fun j => IOCall.write F (s.desc j).pageNo j) ∧
    (∀ j, (s.desc j).file ≠ F → (flushFile env s F).st.desc j = s.desc j) ∧
    (∀ G q, G ≠ F → (flushFile env s F).st.hashTable.lookup G q = s.hashTable.lookup G q) ∧
    (flushFile env s F).st.numBufs = s.numBufs ∧
    (flushFile env s F).st.clockHand = s.clockHand := by
  have hi := hs.invariant
  obtain ⟨k, hk⟩ := flushFile_trace env s F hi
  have hstop : k = s.numBufs ∧ (flushFile env s F).io = dirtyWrites s F 0 (k - 0) := by
    rcases hk.stop with ⟨a, _, c⟩ | ⟨_, _, _, _, e, _⟩ | ⟨_, _, _, _, _, _, e, _⟩ |
      ⟨_, _, _, e, _⟩
    · exact ⟨by omega, c⟩
    · rw [hok] at e; exact Status.noConfusion e
    · exact absurd hok e
    · rw [hok] at e; exact Status.noConfusion e
  obtain ⟨hkN, hio⟩ := hstop
  subst hkN
  refine ⟨?_, ?_, ?_, ?_, ?_, hk.len, hk.hand⟩
  · intro j hj hc
    by_cases hvf : (s.desc j).valid = true ∧ (s.desc j).file = F
    · have := (hk.flushedFrames j (Nat.zero_le j) hj hvf.1 hvf.2).2.1
      rw [this] at hc
      exact absurd hc.1 (by simp [BufDesc.flushed])
    · rw [hk.kept j (fun h => hvf h.2.2)] at hc
      exact hvf hc
  · intro p
    cases hl : s.hashTable.lookup F p with
    | none => exact hk.idxNone F p hl
    | some j =>
      exact hk.idxGone F p j hl ⟨Nat.zero_le j, (hi.mappedValid F p j hl).1, rfl⟩
  · rw [hio, dirtyWrites_filter, Nat.sub_zero, List.range_eq_range']
  · intro j hj
    exact hk.kept j (fun h => hj h.2.2.2)
  · intro G q hG
    cases hl : s.hashTable.lookup G q with
    | none => exact hk.idxNone G q hl
    | some j => exact hk.idxKept G q j hl (fun h => hG h.2.2)

theorem flushFile_ok_effect_witness :
    Reachable dirty2 ∧ (flushFile okEnv dirty2 (some 1)).status = Status.OK ∧
    (flushFile okEnv dirty2 (some 1)).io = [IOCall.write (some 1) 5 0] ∧
    (flushFile okEnv dirty2 (some 1)).st.hashTable.lookup (some 1) 5 = none ∧
    ¬(((flushFile okEnv dirty2 (some 1)).st.desc 0).valid = true ∧
      ((flushFile okEnv dirty2 (some 1)).st.desc 0).file = some 1) :=
  have h := flushFile_ok_effect dirty2 dirty2_reachable okEnv (some 1) (by decide)
  ⟨dirty2_reachable, by decide, by decide, h.2.1 5, h.1 0 (by decide)⟩

/-- C6: for every frame count and every reachable state, when the file
writes succeed, `allocBuf` returns BUFFEREXCEEDED iff every frame is valid
with `pinCnt > 0`; it returns OK whenever some frame is invalid or unpinned,
whatever the reference bits (the sweep has `2 * numBufs` examinations); and
after `N` successful `readPage` calls on `N` distinct pages of a fresh
`N`-frame cache, `readPage` of one more distinct page returns BUFFEREXCEEDED. -/
theorem allocBuf_exceeded_iff_all_pinned :
    (∀ (s : BufMgr) (env : Collab) (frame : Nat), Reachable s →
      (∀ f p i, env.fileWrite f p i = Status.OK) →
      ((allocBuf env s frame).status = Status.BUFFEREXCEEDED ↔
        ∀ i, i < s.numBufs → (s.desc i).valid = true ∧ 0 < (s.desc i).pinCnt)) ∧
    (∀ (s : BufMgr) (env : Collab) (frame j : Nat), Reachable s →
      (∀ f p i, env.fileWrite f p i = Status.OK) → j < s.numBufs →
      ((s.desc j).valid = false ∨ (s.desc j).pinCnt = 0) →
      (allocBuf env s frame).status = Status.OK) ∧
    (∀ (N : Nat) (calls : List (Collab × Nat × Int)) (t : BufMgr) (env : Collab)
      (file : FilePtr) (PageNo : Int), calls.length = N → (calls.map callKey).Nodup →
      readAll (BufMgr.init N) calls = some t → (file, PageNo) ∉ calls.map callKey →
      (readPage env t file PageNo).status = Status.BUFFEREXCEEDED) := by
  refine ⟨?_, ?_, ?_⟩
  · intro s env frame hs hw
    exact (allocBuf_exceeded_iff env hw s frame hs.invariant).1
  · intro s env frame j hs hw hj hfree
    apply (allocBuf_exceeded_iff env hw s frame hs.invariant).2
    intro hp
    have := hp j hj
    rcases hfree with h | h
    · rw [h] at this; exact absurd this.1 (by decide)
    · rw [h] at this; exact absurd this.2 (by decide)
  · intro N calls t env file PageNo hlen hnd hrun hnew
    obtain ⟨hp, hhand, hidx⟩ := filled_run N calls (BufMgr.init N) t 0 [] (filled_init N)
      (by omega) hnd (fun _ _ h => absurd h (List.not_mem_nil _)) hrun
    have hl := hidx file PageNo (List.not_mem_nil _) hnew
    have ha := (allocBuf_allPinned env t 0 hhand hp).1
    rw [readPage_allocFail env t file PageNo hl (by rw [ha]; decide)]
    exact ha

theorem allocBuf_exceeded_iff_all_pinned_witness :
    Reachable pinned3 ∧ (allocBuf okEnv pinned3 0).status = Status.BUFFEREXCEEDED ∧
    (∀ i, i < pinned3.numBufs → (pinned3.desc i).valid = true ∧ 0 < (pinned3.desc i).pinCnt) ∧
    Reachable dirty2 ∧ (dirty2.desc 0).pinCnt = 0 ∧
    (allocBuf okEnv dirty2 0).status = Status.OK ∧
    readAll (BufMgr.init 3) [(okEnv, 1, 1), (okEnv, 1, 2), (okEnv, 1, 3)] = some pinned3 ∧
    (readPage writeFailEnv pinned3 (some 1) 4).status = Status.BUFFEREXCEEDED :=
  have hall : ∀ i, i < pinned3.numBufs →
      (pinned3.desc i).valid = true ∧ 0 < (pinned3.desc i).pinCnt := by decide
  ⟨pinned3_reachable,
    (allocBuf_exceeded_iff_all_pinned.1 pinned3 okEnv 0 pinned3_reachable
      (fun _ _ _ => rfl)).2 hall,
    hall, dirty2_reachable, by decide,
    allocBuf_exceeded_iff_all_pinned.2.1 dirty2 okEnv 0 0 dirty2_reachable (fun _ _ _ => rfl)
      (by decide) (Or.inr (by decide)),
    by decide,
    allocBuf_exceeded_iff_all_pinned.2.2 3 [(okEnv, 1, 1), (okEnv, 1, 2), (okEnv, 1, 3)]
      pinned3 writeFailEnv (some 1) 4 rfl (by decide) (by decide) (by decide)⟩

/-- C7 (as stated, refuted): with 3 frames pinned by reads of pages 1, 2, 3,
`readPage` of page 4 returns BUFFEREXCEEDED but the state is mutated: the
sweep cleared the reference bit of frame 0. -/
theorem readPage_exceeded_clears_refbit :
    (∀ i, i < pinned3.numBufs → (pinned3.desc i).valid = true ∧ 0 < (pinned3.desc i).pinCnt) ∧
    pinned3.hashTable.lookup (some 1) 4 = none ∧
    (readPage okEnv pinned3 (some 1) 4).status = Status.BUFFEREXCEEDED ∧
    (pinned3.desc 0).refbit = true ∧
    ((readPage okEnv pinned3 (some 1) 4).st.desc 0).refbit = false ∧
    (readPage okEnv pinned3 (some 1) 4).st ≠ pinned3 := by
  decide

/-- C7 (amended): when every frame is valid and pinned and the clock hand is
a frame number, `readPage` of a non-resident page returns BUFFEREXCEEDED
without any file call; the index, the clock hand, the frame count and every
descriptor field other than `refbit` (file, pageNo, pinCnt, dirty, valid)
are as before, and every `refbit` is false afterwards. -/
theorem readPage_exceeded_effect (env : Collab) (s : BufMgr) (file : FilePtr) (PageNo : Int)
    (hc : s.clockHand < s.numBufs ∨ s.numBufs = 0)
    (hall : ∀ i, i < s.numBufs → (s.desc i).valid = true ∧ 0 < (s.desc i).pinCnt)
    (hl : s.hashTable.lookup file PageNo = none) :
    (readPage env s file PageNo).status = Status.BUFFEREXCEEDED ∧
    (readPage env s file PageNo).page = none ∧
    (readPage env s file PageNo).io = [] ∧
    (readPage env s file PageNo).st.hashTable = s.hashTable ∧
    (readPage env s file PageNo).st.clockHand = s.clockHand ∧
    (readPage env s file PageNo).st.numBufs = s.numBufs ∧
    (∀ i, (readPage env s file PageNo).st.desc i = { s.desc i with refbit := false }) := by
  obtain ⟨h1, _, h3, h4, h5, h6, h7⟩ := allocBuf_allPinned env s 0 hc hall
  rw [readPage_allocFail env s file PageNo hl (by rw [h1]; decide)]
  exact ⟨h1, rfl, h3, h4, h5, h6, h7⟩

theorem readPage_exceeded_effect_witness :
    (pinned3.clockHand < pinned3.numBufs ∨ pinned3.numBufs = 0) ∧
    pinned3.hashTable.lookup (some 1) 4 = none ∧
    (readPage okEnv pinned3 (some 1) 4).status = Status.BUFFEREXCEEDED ∧
    (readPage okEnv pinned3 (some 1) 4).io = [] ∧
    (readPage okEnv pinned3 (some 1) 4).st.hashTable = pinned3.hashTable ∧
    (readPage okEnv pinned3 (some 1) 4).st.clockHand = pinned3.clockHand ∧
    (readPage okEnv pinned3 (some 1) 4).st.desc 1 = { pinned3.desc 1 with refbit := false } :=
  have h := readPage_exceeded_effect okEnv pinned3 (some 1) 4 (by decide) (by decide)
    (by decide)
  ⟨by decide, by decide, h.1, h.2.2.1, h.2.2.2.1, h.2.2.2.2.1, h.2.2.2.2.2.2 1⟩

/-- C8: `unPinPage(file, PageNo, dirty)` equals the reference of the
specification on every state of the data model (the pin count of the mapped
frame is non-negative, as in every reachable state): if (file, PageNo) is
not in the index it returns HASHNOTFOUND and changes nothing; else, with `f`
the mapped frame, if `pinCnt == 0` it returns PAGENOTPINNED and changes
nothing; else (`f` a frame of the pool) it returns OK, decreases `pinCnt` of
`f` by exactly 1, sets its `dirty` to (old dirty OR dirty), and leaves
refbit, valid, file and pageNo of `f`, every other frame, the clock hand and
the index unchanged. It makes no file call. -/
theorem unPinPage_refines_spec (s : BufMgr) (file : FilePtr) (PageNo : Int) (dirty : Bool)
    (hnn : ∀ f, s.hashTable.lookup file PageNo = some f → 0 ≤ (s.desc f).pinCnt) :
    unPinPage s file PageNo dirty = unPinPageSpec s file PageNo dirty ∧
    (s.hashTable.lookup file PageNo = none →
      (unPinPage s file PageNo dirty).status = Status.HASHNOTFOUND ∧
      (unPinPage s file PageNo dirty).st = s) ∧
    (∀ f, s.hashTable.lookup file PageNo = some f → (s.desc f).pinCnt = 0 →
      (unPinPage s file PageNo dirty).status = Status.PAGENOTPINNED ∧
      (unPinPage s file PageNo dirty).st = s) ∧
    (∀ f, s.hashTable.lookup file PageNo = some f → f < s.numBufs → (s.desc f).pinCnt ≠ 0 →
      (unPinPage s file PageNo dirty).status = Status.OK ∧
      ((unPinPage s file PageNo dirty).st.desc f).pinCnt = (s.desc f).pinCnt - 1 ∧
      ((unPinPage s file PageNo dirty).st.desc f).dirty = ((s.desc f).dirty || dirty) ∧
      ((unPinPage s file PageNo dirty).st.desc f).refbit = (s.desc f).refbit ∧
      ((unPinPage s file PageNo dirty).st.desc f).valid = (s.desc f).valid ∧
      ((unPinPage s file PageNo dirty).st.desc f).file = (s.desc f).file ∧
      ((unPinPage s file PageNo dirty).st.desc f).pageNo = (s.desc f).pageNo ∧
      ((unPinPage s file PageNo dirty).st.desc f).frameNo = (s.desc f).frameNo ∧
      (∀ j, j ≠ f → (unPinPage s file PageNo dirty).st.desc j = s.desc j) ∧
      (unPinPage s file PageNo dirty).st.numBufs = s.numBufs ∧
      (unPinPage s file PageNo dirty).st.clockHand = s.clockHand ∧
      (unPinPage s file PageNo dirty).st.hashTable = s.hashTable) ∧
    (unPinPage s file PageNo dirty).io = [] := by
  refine ⟨?_, ?_, ?_, ?_, ?_⟩
  · unfold unPinPage unPinPageSpec
    cases hl : s.hashTable.lookup file PageNo with
    | none => rfl
    | some f =>
      dsimp only
      have := hnn f hl
      by_cases hp : (s.desc f).pinCnt > 0
      · rw [if_pos hp, if_neg (by omega)]
      · rw [if_neg hp, if_pos (by omega)]
  · intro hl
    simp only [unPinPage, hl]
    exact ⟨trivial, trivial⟩
  · intro f hl hp
    have hp2 : ¬ (s.desc f).pinCnt > 0 := by omega
    simp only [unPinPage, hl, if_neg hp2]
    exact ⟨trivial, trivial⟩
  · intro f hl hf hp
    have := hnn f hl
    have hp2 : (s.desc f).pinCnt > 0 := by omega
    simp only [unPinPage, hl, if_pos hp2]
    rw [desc_setDesc_self _ _ _ hf]
    refine ⟨by trivial, by trivial, by trivial, by trivial, by trivial, by trivial, by trivial,
      by trivial, ?_, numBufs_setDesc _ _ _, by trivial, by trivial⟩
    intro j hj
    exact desc_setDesc_ne _ _ _ _ hj
  · unfold unPinPage
    cases s.hashTable.lookup file PageNo with
    | none => rfl
    | some f =>
      dsimp only
      split <;> rfl

theorem unPinPage_refines_spec_witness :
    Reachable pinned3 ∧ Reachable dirty2 ∧
    pinned3.hashTable.lookup (some 1) 2 = some 1 ∧ 1 < pinned3.numBufs ∧
    (pinned3.desc 1).pinCnt ≠ 0 ∧
    unPinPage pinned3 (some 1) 2 true = unPinPageSpec pinned3 (some 1) 2 true ∧
    (unPinPage pinned3 (some 1) 2 true).status = Status.OK ∧
    ((unPinPage pinned3 (some 1) 2 true).st.desc 1).pinCnt = (pinned3.desc 1).pinCnt - 1 ∧
    ((unPinPage pinned3 (some 1) 2 true).st.desc 1).dirty = ((pinned3.desc 1).dirty || true) ∧
    (dirty2.hashTable.lookup (some 1) 5 = some 0 ∧ (dirty2.desc 0).pinCnt = 0 ∧
      (unPinPage dirty2 (some 1) 5 false).status = Status.PAGENOTPINNED ∧
      (unPinPage dirty2 (some 1) 5 false).st = dirty2) ∧
    (pinned3.hashTable.lookup (some 2) 2 = none ∧
      (unPinPage pinned3 (some 2) 2 false).status = Status.HASHNOTFOUND) :=
  have hp := pinned3_reachable.invariant
  have hd := dirty2_reachable.invariant
  have h := unPinPage_refines_spec pinned3 (some 1) 2 true
    (fun f hl => hp.pinNonneg f (hp.mappedValid _ _ f hl).1)
  have h1 := h.2.2.2.1 1 (by decide) (by decide) (by decide)
  have h2 := (unPinPage_refines_spec dirty2 (some 1) 5 false
    (fun f hl => hd.pinNonneg f (hd.mappedValid _ _ f hl).1)).2.2.1 0 (by decide) (by decide)
  have h3 := (unPinPage_refines_spec pinned3 (some 2) 2 false
    (fun f hl => hp.pinNonneg f (hp.mappedValid _ _ f hl).1)).2.1 (by decide)
  ⟨pinned3_reachable, dirty2_reachable, by decide, by decide, by decide, h.1, h1.1, h1.2.1,
    h1.2.2.1, ⟨by decide, by decide, h2.1, h2.2⟩, ⟨by decide, h3.1⟩⟩

/-! ## Further contract: flush status, dispose, teardown, frame invariants -/

/-- C20: in every reachable state (failing calls included), every frame has
`pinCnt >= 0`, and every frame with `valid == false` has `dirty == false`,
`pinCnt == 0` and a null file reference; so `dirty` is true only on valid
frames. -/
theorem invalid_frames_are_clean (s : BufMgr) (hs : Reachable s) :
    (∀ i, i < s.numBufs → 0 ≤ (s.desc i).pinCnt) ∧
    (∀ i, i < s.numBufs → (s.desc i).valid = false →
      (s.desc i).dirty = false ∧ (s.desc i).pinCnt = 0 ∧ (s.desc i).file = none) ∧
    (∀ i, i < s.numBufs → (s.desc i).dirty = true → (s.desc i).valid = true) := by
  have hi := hs.invariant
  refine ⟨hi.pinNonneg, ?_, ?_⟩
  · intro i hlt hv
    obtain ⟨a, b, c⟩ := hi.invalidClean i hlt hv
    exact ⟨c, b, a⟩
  · intro i hlt hd
    cases hv : (s.desc i).valid with
    | true => rfl
    | false =>
      rw [(hi.invalidClean i hlt hv).2.2] at hd
      exact absurd hd (by decide)

theorem invalid_frames_are_clean_witness :
    Reachable (flushFile okEnv dirty2 (some 1)).st ∧
    0 ≤ ((flushFile okEnv dirty2 (some 1)).st.desc 0).pinCnt ∧
    (((flushFile okEnv dirty2 (some 1)).st.desc 0).valid = false →
      ((flushFile okEnv dirty2 (some 1)).st.desc 0).dirty = false ∧
      ((flushFile okEnv dirty2 (some 1)).st.desc 0).pinCnt = 0 ∧
      ((flushFile okEnv dirty2 (some 1)).st.desc 0).file = none) ∧
    ((flushFile okEnv dirty2 (some 1)).st.desc 0).valid = false :=
  have hr : Reachable (flushFile okEnv dirty2 (some 1)).st :=
    Reachable.flushFile okEnv dirty2 (some 1) dirty2_reachable
  have h := invalid_frames_are_clean (flushFile okEnv dirty2 (some 1)).st hr
  ⟨hr, h.1 0 (by decide), h.2.1 0 (by decide), by decide⟩

/-- C11: in every reachable state, for every non-null file F, when the file
writes succeed, `flushFile(F)` returns PAGEPINNED if at least one valid frame
of F has `pinCnt > 0` and OK otherwise; it never returns BADBUFFER, because
no invalid frame of a reachable state has its file field equal to F. -/
theorem flushFile_status (s : BufMgr) (hs : Reachable s) (env : Collab) (F : Nat)
    (hw : ∀ f p i, env.fileWrite f p i = Status.OK) :
    ((∃ j, j < s.numBufs ∧ (s.desc j).valid = true ∧ (s.desc j).file = some F ∧
        0 < (s.desc j).pinCnt) →
      (flushFile env s (some F)).status = Status.PAGEPINNED) ∧
    ((¬ ∃ j, j < s.numBufs ∧ (s.desc j).valid = true ∧ (s.desc j).file = some F ∧
        0 < (s.desc j).pinCnt) →
      (flushFile env s (some F)).status = Status.OK) ∧
    (flushFile env s (some F)).status ≠ Status.BADBUFFER ∧
    (∀ j, j < s.numBufs → (s.desc j).valid = false → (s.desc j).file ≠ some F) := by
  have hi := hs.invariant
  have hinv : ∀ j, j < s.numBufs → (s.desc j).valid = false → (s.desc j).file ≠ some F := by
    intro j hj hv hf
    rw [(hi.invalidClean j hj hv).1] at hf
    exact absurd hf (by simp)
  obtain ⟨k, hk⟩ := flushFile_trace env s (some F) hi
  rcases hk.stop with ⟨a, b, _⟩ | ⟨a, b, c, d, e, _⟩ | ⟨_, _, _, _, _, e, g, _⟩ | ⟨a, b, c, _, _⟩
  · refine ⟨?_, fun _ => b, by rw [b]; decide, hinv⟩
    intro ⟨j, hj, hv, hf, hp⟩
    have := (hk.flushedFrames j (Nat.zero_le j) (by omega) hv hf).1
    omega
  · refine ⟨fun _ => e, ?_, by rw [e]; decide, hinv⟩
    intro hne
    exact absurd ⟨k, by omega, b, c, d⟩ hne
  · rw [hw] at e
    exact absurd e g
  · exact absurd c (hinv k (by omega) b)

theorem flushFile_status_witness :
    Reachable mixed2 ∧
    (mixed2.desc 0).valid = true ∧ (mixed2.desc 0).file = some 1 ∧ 0 < (mixed2.desc 0).pinCnt ∧
    (flushFile okEnv mixed2 (some 1)).status = Status.PAGEPINNED ∧
    Reachable dirty2 ∧ (flushFile okEnv dirty2 (some 1)).status = Status.OK ∧
    (flushFile okEnv dirty2 (some 1)).status ≠ Status.BADBUFFER :=
  have h := flushFile_status mixed2 mixed2_reachable okEnv 1 (fun _ _ _ => rfl)
  have h2 := flushFile_status dirty2 dirty2_reachable okEnv 1 (fun _ _ _ => rfl)
  ⟨mixed2_reachable, by decide, by decide, by decide,
    h.1 ⟨0, by decide, by decide, by decide, by decide⟩,
    dirty2_reachable, h2.2.1 (by decide), h2.2.2.1⟩

/-- C13: on every state, `disposePage(file, pageNo)` returns exactly the
status of the file collaborator's `disposePage(pageNo)`, whether or not the
page was resident; afterwards (file, pageNo) is not in the index; if it was
resident in a frame `f` of the pool, frame `f` is reset to the invalid state
(valid=false, pinCnt=0, dirty=false, refbit=false) whatever its pin count
and dirty flag were; the only file call is the `disposePage` (no
`writePage`); all other frames and index entries, the frame count and the
clock hand are unchanged. -/
theorem disposePage_effect (env : Collab) (s : BufMgr) (file : FilePtr) (pageNo : Int) :
    (disposePage env s file pageNo).status = env.fileDispose file pageNo ∧
    (disposePage env s file pageNo).st.hashTable.lookup file pageNo = none ∧
    (disposePage env s file pageNo).io = [IOCall.dispose file pageNo] ∧
    (∀ f, s.hashTable.lookup file pageNo = some f → f < s.numBufs →
      (disposePage env s file pageNo).st.desc f = (s.desc f).Clear ∧
      ((disposePage env s file pageNo).st.desc f).valid = false ∧
      ((disposePage env s file pageNo).st.desc f).pinCnt = 0 ∧
      ((disposePage env s file pageNo).st.desc f).dirty = false ∧
      ((disposePage env s file pageNo).st.desc f).refbit = false) ∧
    (∀ j, s.hashTable.lookup file pageNo ≠ some j →
      (disposePage env s file pageNo).st.desc j = s.desc j) ∧
    (∀ G q, (G, q) ≠ (file, pageNo) →
      (disposePage env s file pageNo).st.hashTable.lookup G q = s.hashTable.lookup G q) ∧
    (disposePage env s file pageNo).st.numBufs = s.numBufs ∧
    (disposePage env s file pageNo).st.clockHand = s.clockHand := by
  unfold disposePage
  cases hl : s.hashTable.lookup file pageNo with
  | none =>
    dsimp only
    refine ⟨rfl, ?_, rfl, ?_, fun _ _ => rfl, ?_, rfl, rfl⟩
    · rw [lookup_remove]; simp
    · intro f hf; exact absurd hf (by simp)
    · intro G q hne
      rw [lookup_remove, if_neg hne]
  | some g =>
    dsimp only
    refine ⟨rfl, ?_, rfl, ?_, ?_, ?_, ?_, rfl⟩
    · rw [hashTable_setDesc, lookup_remove]; simp
    · intro f hf hlt
      have e : g = f := Option.some.inj hf
      subst e
      have hd : ((BufMgr.mk (s.setDesc g (s.desc g).Clear).bufTable
          (s.setDesc g (s.desc g).Clear).clockHand
          ((s.setDesc g (s.desc g).Clear).hashTable.remove file pageNo).2).desc g)
          = (s.desc g).Clear := desc_setDesc_self s g _ hlt
      rw [hd]
      exact ⟨rfl, rfl, rfl, rfl, rfl⟩
    · intro j hj
      have hjg : j ≠ g := fun e => hj (by rw [e])
      exact desc_setDesc_ne s g _ j hjg
    · intro G q hne
      rw [hashTable_setDesc, lookup_remove, if_neg hne]
    · exact numBufs_setDesc s g _

theorem disposePage_effect_witness :
    pinned3.hashTable.lookup (some 1) 2 = some 1 ∧ 1 < pinned3.numBufs ∧
    0 < (pinned3.desc 1).pinCnt ∧
    (disposePage readFailEnv pinned3 (some 1) 2).status = Status.OK ∧
    (disposePage readFailEnv pinned3 (some 1) 2).st.hashTable.lookup (some 1) 2 = none ∧
    (disposePage readFailEnv pinned3 (some 1) 2).io = [IOCall.dispose (some 1) 2] ∧
    ((disposePage readFailEnv pinned3 (some 1) 2).st.desc 1).valid = false ∧
    ((disposePage readFailEnv pinned3 (some 1) 2).st.desc 1).pinCnt = 0 ∧
    (disposePage readFailEnv pinned3 (some 1) 2).st.desc 0 = pinned3.desc 0 ∧
    (disposePage readFailEnv pinned3 (some 1) 2).st.hashTable.lookup (some 1) 3
      = pinned3.hashTable.lookup (some 1) 3 :=
  have h := disposePage_effect readFailEnv pinned3 (some 1) 2
  have hf := h.2.2.2.1 1 (by decide) (by decide)
  ⟨by decide, by decide, by decide, h.1, h.2.1, h.2.2.1, hf.2.1, hf.2.2.1,
    h.2.2.2.2.1 0 (by decide), h.2.2.2.2.2.1 (some 1) 3 (by decide)⟩

theorem teardownLoop_filter (s : BufMgr) (n i : Nat) :
    teardownLoop s n i
      = ((List.range' i n).filter (fun j => (s.desc j).valid && (s.desc j).dirty)).map
          (fun j => IOCall.write (s.desc j).file (s.desc j).pageNo j) := by
  induction n generalizing i with
  | zero => rfl
  | succ n ih =>
    simp only [teardownLoop, List.range'_succ]
    by_cases hc : (s.desc i).valid = true ∧ (s.desc i).dirty = true
    · rw [if_pos hc, List.filter_cons_of_pos (by simp [hc.1, hc.2]), ih (i + 1)]
      rfl
    · rw [if_neg hc, List.filter_cons_of_neg, ih (i + 1)]
      intro h
      simp only [Bool.and_eq_true] at h
      exact hc h

theorem mem_teardownLoop (s : BufMgr) (n i : Nat) (F : FilePtr) (p : Int) (j : Nat) :
    IOCall.write F p j ∈ teardownLoop s n i →
      i ≤ j ∧ j < i + n ∧ (s.desc j).valid = true ∧ (s.desc j).dirty = true ∧
      F = (s.desc j).file ∧ p = (s.desc j).pageNo := by
  induction n generalizing i with
  | zero => intro h; exact absurd h (List.not_mem_nil _)
  | succ n ih =>
    intro h
    simp only [teardownLoop] at h
    split at h
    · rename_i hc
      rcases List.mem_cons.mp h with h | h
      · injection h with h1 h2 h3
        subst h3
        exact ⟨Nat.le_refl _, by omega, hc.1, hc.2, h1, h2⟩
      · obtain ⟨a, b, c⟩ := ih (i + 1) h
        exact ⟨by omega, by omega, c⟩
    · obtain ⟨a, b, c⟩ := ih (i + 1) h
      exact ⟨by omega, by omega, c⟩

theorem count_teardownLoop (s : BufMgr) (n i j : Nat) (hv : (s.desc j).valid = true)
    (hd : (s.desc j).dirty = true) :
    (teardownLoop s n i).count (IOCall.write (s.desc j).file (s.desc j).pageNo j)
      = if i ≤ j ∧ j < i + n then 1 else 0 := by
  induction n generalizing i with
  | zero =>
    rw [if_neg (by omega)]
    rfl
  | succ n ih =>
    simp only [teardownLoop]
    by_cases hij : i = j
    · subst hij
      rw [if_pos ⟨hv, hd⟩, List.count_cons_self, ih (i + 1), if_neg (by omega),
        if_pos (by omega)]
    · have hne : IOCall.write (s.desc i).file (s.desc i).pageNo i
          ≠ IOCall.write (s.desc j).file (s.desc j).pageNo j := by
        intro e
        injection e with _ _ e3
        exact hij e3
      split
      · rw [List.count_cons_of_ne (fun e => hne e.symm), ih (i + 1)]
        by_cases hc : i ≤ j ∧ j < i + (n + 1)
        · rw [if_pos hc, if_pos (by omega)]
        · rw [if_neg hc, if_neg (by omega)]
      · rw [ih (i + 1)]
        by_cases hc : i ≤ j ∧ j < i + (n + 1)
        · rw [if_pos hc, if_pos (by omega)]
        · rw [if_neg hc, if_neg (by omega)]

/-- C14: on teardown from any state, the file calls are exactly one
`writePage`, with the frame's page number and its pool slot, for each frame
that is valid and dirty (pinned or not), in increasing frame order; there is
no call for a frame that is invalid or clean. -/
theorem teardown_writes (s : BufMgr) :
    teardown s
      = ((List.range s.numBufs).filter (fun i => (s.desc i).valid && (s.desc i).dirty)).map
          (fun i => IOCall.write (s.desc i).file (s.desc i).pageNo i) ∧
    (∀ c, c ∈ teardown s → c.isWrite = true) ∧
    (∀ F p i, IOCall.write F p i ∈ teardown s →
      i < s.numBufs ∧ (s.desc i).valid = true ∧ (s.desc i).dirty = true ∧
      F = (s.desc i).file ∧ p = (s.desc i).pageNo) ∧
    (∀ i, i < s.numBufs → (s.desc i).valid = true → (s.desc i).dirty = true →
      (teardown s).count (IOCall.write (s.desc i).file (s.desc i).pageNo i) = 1) := by
  have e : teardown s
      = ((List.range s.numBufs).filter (fun i => (s.desc i).valid && (s.desc i).dirty)).map
          (fun i => IOCall.write (s.desc i).file (s.desc i).pageNo i) := by
    unfold teardown
    rw [teardownLoop_filter, List.range_eq_range']
  refine ⟨e, ?_, ?_, ?_⟩
  · intro c hc
    rw [e, List.mem_map] at hc
    obtain ⟨i, _, hi⟩ := hc
    rw [← hi]
    rfl
  · intro F p i h
    obtain ⟨_, b, c⟩ := mem_teardownLoop s s.numBufs 0 F p i h
    exact ⟨by omega, c⟩
  · intro i hi hv hd
    unfold teardown
    rw [count_teardownLoop s s.numBufs 0 i hv hd, if_pos ⟨Nat.zero_le i, by omega⟩]

theorem teardown_writes_witness :
    teardown dirty2 = [IOCall.write (some 1) 5 0] ∧
    teardown pinned3 = [] ∧
    (0 < dirty2.numBufs ∧ (dirty2.desc 0).valid = true ∧ (dirty2.desc 0).dirty = true ∧
      (teardown dirty2).count (IOCall.write (dirty2.desc 0).file (dirty2.desc 0).pageNo 0) = 1) :=
  ⟨by decide, by decide, by decide, by decide, by decide,
    (teardown_writes dirty2).2.2.2 0 (by decide) (by decide) (by decide)⟩

/-! ## Further contract: the effects of the sweep -/

/-- C16: whenever `allocBuf` returns OK with frame `f` from a reachable
state, `f` equals the clock hand after the call and is a frame of the pool;
the descriptor of `f` is reset (file cleared, pinCnt=0, dirty=false,
refbit=false, valid=false); if `f` held a page before the call, that page is
no longer in the index; every other frame keeps valid, file, pageNo, pinCnt
and dirty, its refbit can only go from true to false, and every index entry
pointing at another frame is unchanged. -/
theorem allocBuf_ok_effect (s : BufMgr) (hs : Reachable s) (env : Collab) (frame : Nat)
    (hok : (allocBuf env s frame).status = Status.OK) :
    (allocBuf env s frame).frame = (allocBuf env s frame).st.clockHand ∧
    (allocBuf env s frame).frame < s.numBufs ∧
    (allocBuf env s frame).st.numBufs = s.numBufs ∧
    ((allocBuf env s frame).st.desc (allocBuf env s frame).frame).file = none ∧
    ((allocBuf env s frame).st.desc (allocBuf env s frame).frame).pinCnt = 0 ∧
    ((allocBuf env s frame).st.desc (allocBuf env s frame).frame).dirty = false ∧
    ((allocBuf env s frame).st.desc (allocBuf env s frame).frame).refbit = false ∧
    ((allocBuf env s frame).st.desc (allocBuf env s frame).frame).valid = false ∧
    ((s.desc (allocBuf env s frame).frame).valid = true →
      (allocBuf env s frame).st.hashTable.lookup (s.desc (allocBuf env s frame).frame).file
        (s.desc (allocBuf env s frame).frame).pageNo = none) ∧
    (∀ j, j ≠ (allocBuf env s frame).frame →
      ((allocBuf env s frame).st.desc j).valid = (s.desc j).valid ∧
      ((allocBuf env s frame).st.desc j).file = (s.desc j).file ∧
      ((allocBuf env s frame).st.desc j).pageNo = (s.desc j).pageNo ∧
      ((allocBuf env s frame).st.desc j).pinCnt = (s.desc j).pinCnt ∧
      ((allocBuf env s frame).st.desc j).dirty = (s.desc j).dirty ∧
      (((allocBuf env s frame).st.desc j).refbit = true → (s.desc j).refbit = true)) ∧
    (∀ F p j, j ≠ (allocBuf env s frame).frame →
      ((allocBuf env s frame).st.hashTable.lookup F p = some j ↔
        s.hashTable.lookup F p = some j)) := by
  have hi := hs.invariant
  have hsum := allocBuf_summary env s frame hi
  obtain ⟨hlt, hhand, hcl, _, _, _⟩ := hsum.chosen hok
  refine ⟨hhand.symm, hlt, hsum.len, by rw [hcl]; rfl, by rw [hcl]; rfl, by rw [hcl]; rfl,
    by rw [hcl]; rfl, by rw [hcl]; rfl, ?_, ?_, ?_⟩
  · intro hv
    rw [hsum.idx, if_pos ⟨hok, hi.validMapped _ hlt hv⟩]
  · intro j hj
    obtain ⟨h1, h2⟩ := hsum.others j (Or.inr hj)
    refine ⟨by rw [h1], by rw [h1], by rw [h1], by rw [h1], by rw [h1], h2⟩
  · intro F p j hj
    rw [hsum.idx]
    by_cases hc : (allocBuf env s frame).status = Status.OK ∧
        s.hashTable.lookup F p = some (allocBuf env s frame).frame
    · rw [if_pos hc]
      constructor
      · intro h; exact absurd h (by simp)
      · intro h
        rw [hc.2] at h
        exact absurd (Option.some.inj h).symm hj
    · rw [if_neg hc]

theorem allocBuf_ok_effect_witness :
    Reachable (unPinPage pinned3 (some 1) 2 false).st ∧
    (allocBuf okEnv (unPinPage pinned3 (some 1) 2 false).st 0).status = Status.OK ∧
    (allocBuf okEnv (unPinPage pinned3 (some 1) 2 false).st 0).frame = 1 ∧
    (allocBuf okEnv (unPinPage pinned3 (some 1) 2 false).st 0).frame
      = (allocBuf okEnv (unPinPage pinned3 (some 1) 2 false).st 0).st.clockHand ∧
    (allocBuf okEnv (unPinPage pinned3 (some 1) 2 false).st 0).frame
      < (unPinPage pinned3 (some 1) 2 false).st.numBufs :=
  have hr : Reachable (unPinPage pinned3 (some 1) 2 false).st :=
    Reachable.unPinPage pinned3 (some 1) 2 false pinned3_reachable
  have h := allocBuf_ok_effect (unPinPage pinned3 (some 1) 2 false).st hr okEnv 0 (by decide)
  ⟨hr, by decide, by decide, h.1, h.2.1⟩

/-- C15: if an examination of `allocBuf` finds an eviction candidate (valid,
refbit false, not pinned) that is dirty and the file write for it fails, the
loop returns UNIXERR at once, without assigning `frame`, its only file call
being that write, and nothing but the clock hand differs from the state
before the examination. In a reachable state, when `allocBuf` returns
UNIXERR, the frame under the clock hand is that candidate: it is still valid
with the same file and pageNo, pinCnt 0, dirty true, refbit false, and still
mapped in the index. -/
theorem allocBuf_write_failure :
    (∀ (env : Collab) (n : Nat) (s : BufMgr) (frame : Nat),
      (s.desc s.advanceClock.clockHand).valid = true →
      (s.desc s.advanceClock.clockHand).refbit = false →
      (s.desc s.advanceClock.clockHand).pinCnt ≤ 0 →
      (s.desc s.advanceClock.clockHand).dirty = true →
      env.fileWrite (s.desc s.advanceClock.clockHand).file
        (s.desc s.advanceClock.clockHand).pageNo s.advanceClock.clockHand ≠ Status.OK →
      allocLoop env (n + 1) s frame
        = ⟨Status.UNIXERR, frame, ⟨s.bufTable, s.advanceClock.clockHand, s.hashTable⟩,
            [IOCall.write (s.desc s.advanceClock.clockHand).file
              (s.desc s.advanceClock.clockHand).pageNo s.advanceClock.clockHand]⟩) ∧
    (∀ (s : BufMgr) (env : Collab) (frame : Nat), Reachable s →
      (allocBuf env s frame).status = Status.UNIXERR →
      (allocBuf env s frame).frame = frame ∧
      (allocBuf env s frame).st.clockHand < s.numBufs ∧
      (allocBuf env s frame).st.hashTable = s.hashTable ∧
      ((allocBuf env s frame).st.desc (allocBuf env s frame).st.clockHand).valid = true ∧
      ((allocBuf env s frame).st.desc (allocBuf env s frame).st.clockHand).file
        = (s.desc (allocBuf env s frame).st.clockHand).file ∧
      ((allocBuf env s frame).st.desc (allocBuf env s frame).st.clockHand).pageNo
        = (s.desc (allocBuf env s frame).st.clockHand).pageNo ∧
      ((allocBuf env s frame).st.desc (allocBuf env s frame).st.clockHand).pinCnt = 0 ∧
      ((allocBuf env s frame).st.desc (allocBuf env s frame).st.clockHand).dirty = true ∧
      ((allocBuf env s frame).st.desc (allocBuf env s frame).st.clockHand).refbit = false ∧
      (allocBuf env s frame).st.hashTable.lookup
        ((allocBuf env s frame).st.desc (allocBuf env s frame).st.clockHand).file
        ((allocBuf env s frame).st.desc (allocBuf env s frame).st.clockHand).pageNo
        = some (allocBuf env s frame).st.clockHand ∧
      (allocBuf env s frame).io
        = [IOCall.write (s.desc (allocBuf env s frame).st.clockHand).file
            (s.desc (allocBuf env s frame).st.clockHand).pageNo
            (allocBuf env s frame).st.clockHand] ∧
      env.fileWrite (s.desc (allocBuf env s frame).st.clockHand).file
        (s.desc (allocBuf env s frame).st.clockHand).pageNo
        (allocBuf env s frame).st.clockHand ≠ Status.OK) := by
  constructor
  · intro env n s frame hv hr hp hd hw
    have hv1 : (s.advanceClock.desc s.advanceClock.clockHand).valid = true := hv
    have hr1 : (s.advanceClock.desc s.advanceClock.clockHand).refbit = false := hr
    have hp1 : ¬ (s.advanceClock.desc s.advanceClock.clockHand).pinCnt > 0 := by
      show ¬ (s.desc s.advanceClock.clockHand).pinCnt > 0
      omega
    have hd1 : (s.advanceClock.desc s.advanceClock.clockHand).dirty = true := hd
    simp only [allocLoop]
    rw [if_neg (by rw [hv1]; decide), if_neg (by rw [hr1]; decide), if_neg hp1,
      if_pos ⟨hd1, hw⟩]
    rfl
  · intro s env frame hs hst
    rcases allocBuf_cases env s frame hs.invariant with ⟨m, _, _, e⟩ | ⟨m, _, _, _, _, e⟩ |
      ⟨m, hm, hi, hc, hv, hr, hp, hd, hw, e⟩ | ⟨m, _, _, _, _, _, _, _, e⟩
    · rw [e] at hst; exact Status.noConfusion hst
    · rw [e] at hst; exact Status.noConfusion hst
    · rw [e]
      dsimp only
      refine ⟨rfl, hm.len ▸ hc, hm.tbl, hv, hm.file_eq _, hm.pageNo_eq _, hp, hd, hr,
        hi.validMapped _ hc hv, ?_, ?_⟩
      · rw [hm.file_eq, hm.pageNo_eq]
      · rw [← hm.file_eq, ← hm.pageNo_eq]; exact hw
    · rw [e] at hst; exact Status.noConfusion hst

theorem allocBuf_write_failure_witness :
    (cold2.desc cold2.advanceClock.advanceClock.clockHand).valid = true ∧
    (cold2.desc cold2.advanceClock.advanceClock.clockHand).pinCnt ≤ 0 ∧
    (allocLoop writeFailEnv 1 cold2.advanceClock 9).status = Status.UNIXERR ∧
    (allocLoop writeFailEnv 1 cold2.advanceClock 9).frame = 9 ∧
    (allocLoop writeFailEnv 1 cold2.advanceClock 9).st.bufTable = cold2.bufTable ∧
    (allocLoop writeFailEnv 1 cold2.advanceClock 9).io = [IOCall.write (some 1) 5 0] ∧
    Reachable full2 ∧
    (allocBuf writeFailEnv full2 9).status = Status.UNIXERR ∧
    (allocBuf writeFailEnv full2 9).frame = 9 ∧
    ((allocBuf writeFailEnv full2 9).st.desc (allocBuf writeFailEnv full2 9).st.clockHand).dirty
      = true ∧
    (allocBuf writeFailEnv full2 9).st.hashTable.lookup (some 1) 5 = some 0 :=
  have hr : Reachable full2 := Reachable.readPage okEnv dirty2 1 6 dirty2_reachable
  have h1 := allocBuf_write_failure.1 writeFailEnv 0 cold2.advanceClock 9
    (by decide) (by decide) (by decide) (by decide) (by decide)
  have h := allocBuf_write_failure.2 full2 writeFailEnv 9 hr (by decide)
  ⟨by decide, by decide, congrArg AllocOut.status h1, congrArg AllocOut.frame h1,
    congrArg (fun r => r.st.bufTable) h1, by decide, hr, by decide, h.1,
    h.2.2.2.2.2.2.2.1, by decide⟩

/-- C17: at every examination inside `allocBuf`, if the examined frame is
valid and its refbit is true, the examination does not evict it, whatever
its pin count: the scan continues with the next frame from a state in which
only that frame's refbit changed (to false) and the index is untouched, and
if it was the last examination the loop gives up with no file call at all.
A frame that held a page is evicted only by an examination that finds its
refbit false. -/
theorem refbit_gives_second_chance :
    (∀ (env : Collab) (n : Nat) (s : BufMgr) (frame : Nat),
      (s.desc s.advanceClock.clockHand).valid = true →
      (s.desc s.advanceClock.clockHand).refbit = true →
      allocLoop env (n + 1) s frame
        = allocLoop env n (s.advanceClock.setDesc s.advanceClock.clockHand
            { s.desc s.advanceClock.clockHand with refbit := false }) frame ∧
      allocLoop env 1 s frame
        = ⟨Status.BUFFEREXCEEDED, frame,
            s.advanceClock.setDesc s.advanceClock.clockHand
              { s.desc s.advanceClock.clockHand with refbit := false }, []⟩) ∧
    (∀ (s : BufMgr), 0 < s.numBufs →
      (s.advanceClock.setDesc s.advanceClock.clockHand
        { s.desc s.advanceClock.clockHand with refbit := false }).hashTable = s.hashTable ∧
      (s.advanceClock.setDesc s.advanceClock.clockHand
        { s.desc s.advanceClock.clockHand with refbit := false }).clockHand
        = s.advanceClock.clockHand ∧
      (s.advanceClock.setDesc s.advanceClock.clockHand
        { s.desc s.advanceClock.clockHand with refbit := false }).desc s.advanceClock.clockHand
        = { s.desc s.advanceClock.clockHand with refbit := false } ∧
      (∀ j, j ≠ s.advanceClock.clockHand →
        (s.advanceClock.setDesc s.advanceClock.clockHand
          { s.desc s.advanceClock.clockHand with refbit := false }).desc j = s.desc j)) ∧
    (∀ (env : Collab) (n : Nat) (s : BufMgr) (frame : Nat), 0 < s.numBufs →
      (allocLoop env n s frame).status = Status.OK →
      (s.desc (allocLoop env n s frame).frame).valid = true →
      ∃ m, RefbitOnly s m ∧ m.clockHand = (allocLoop env n s frame).frame ∧
        (m.desc m.clockHand).refbit = false ∧ (m.desc m.clockHand).pinCnt ≤ 0 ∧
        allocLoop env n s frame = evictStep env m frame) := by
  refine ⟨?_, ?_, ?_⟩
  · intro env n s frame hv hr
    have hv1 : (s.advanceClock.desc s.advanceClock.clockHand).valid = true := hv
    have hr1 : (s.advanceClock.desc s.advanceClock.clockHand).refbit = true := hr
    constructor
    · simp only [allocLoop]
      rw [if_neg (by rw [hv1]; decide), if_pos hr1]
      rfl
    · simp only [allocLoop]
      rw [if_neg (by rw [hv1]; decide), if_pos hr1]
      rfl
  · intro s hN
    have hlt := advanceClock_lt s hN
    refine ⟨rfl, rfl, ?_, ?_⟩
    · exact desc_setDesc_self _ _ _ hlt
    · intro j hj
      exact desc_setDesc_ne _ _ _ _ hj
  · intro env n s frame hN hok hv
    obtain ⟨m, hm, _, he⟩ := allocLoop_char env n s frame hN
    rcases he with he | ⟨hc, hv2, he⟩ | ⟨hc, hv2, hr, hp, he⟩
    · rw [he] at hok; exact Status.noConfusion hok
    · exfalso
      rw [he] at hv
      dsimp only at hv
      rw [← hm.valid_eq, hv2] at hv
      exact absurd hv (by decide)
    · refine ⟨m, hm, ?_, hr, hp, he⟩
      have hfr : (evictStep env m frame).status = Status.OK := by rw [← he]; exact hok
      rw [he]
      unfold evictStep at hfr ⊢
      dsimp only at hfr ⊢
      split
      · rename_i h1; rw [if_pos h1] at hfr; exact Status.noConfusion hfr
      · rename_i h1
        rw [if_neg h1] at hfr
        split
        · rename_i h2; rw [if_pos h2] at hfr; exact Status.noConfusion hfr
        · rfl

theorem refbit_gives_second_chance_witness :
    (dirty2.desc dirty2.advanceClock.advanceClock.clockHand).valid = true ∧
    (dirty2.desc dirty2.advanceClock.advanceClock.clockHand).refbit = true ∧
    (dirty2.desc dirty2.advanceClock.advanceClock.clockHand).pinCnt = 0 ∧
    (allocLoop okEnv 1 dirty2.advanceClock 7).status = Status.BUFFEREXCEEDED ∧
    (allocLoop okEnv 1 dirty2.advanceClock 7).io = [] ∧
    ((allocLoop okEnv 1 dirty2.advanceClock 7).st.desc 0).valid = true ∧
    ((allocLoop okEnv 1 dirty2.advanceClock 7).st.desc 0).refbit = false ∧
    (allocLoop okEnv 1 dirty2.advanceClock 7).st.hashTable = dirty2.hashTable ∧
    (allocLoop okEnv 2 full2 7).status = Status.BUFFEREXCEEDED ∧
    (allocLoop okEnv 3 full2 7).status = Status.OK ∧
    (allocLoop okEnv 3 full2 7).frame = 0 :=
  have h := (refbit_gives_second_chance.1 okEnv 0 dirty2.advanceClock 7
    (by decide) (by decide)).2
  ⟨by decide, by decide, by decide, congrArg AllocOut.status h, congrArg AllocOut.io h,
    by decide, by decide, by decide, by decide, by decide, by decide⟩

/-- When some frame `j` is invalid or unpinned, the sweep does not give up
within `sweepBudget s j` examinations, whatever the collaborators do. -/
theorem allocLoop_not_exceeded (env : Collab) (n : Nat) (s : BufMgr) (frame : Nat) (j : Nat)
    (hc : s.clockHand < s.numBufs) (hj : j < s.numBufs)
    (hfree : (s.desc j).valid = false ∨ (s.desc j).pinCnt ≤ 0)
    (hn : sweepBudget s j ≤ n) : (allocLoop env n s frame).status ≠ Status.BUFFEREXCEEDED := by
  induction n generalizing s with
  | zero =>
    have := (clockDist_step s j hc hj).1
    unfold sweepBudget at hn
    omega
  | succ n ih =>
    have hN : 0 < s.numBufs := by omega
    have hlt := advanceClock_lt s hN
    obtain ⟨_, _, hone, hself, hstep⟩ := clockDist_step s j hc hj
    simp only [allocLoop]
    split
    · exact fun h => Status.noConfusion h
    · rename_i hv
      have hv1 : (s.desc s.advanceClock.clockHand).valid = true := by simpa using hv
      split
      · rename_i hr
        have hr1 : (s.desc s.advanceClock.clockHand).refbit = true := hr
        have hm := (RefbitOnly.advance s).trans
          (RefbitOnly.clear s.advanceClock s.advanceClock.clockHand)
        apply ih _ (by rw [numBufs_setDesc]; exact hlt) (by rw [numBufs_setDesc]; exact hj)
          (by rw [hm.valid_eq, hm.pinCnt_eq]; exact hfree)
        unfold sweepBudget at hn ⊢
        rw [numBufs_setDesc, clockHand_setDesc]
        have e : s.advanceClock.numBufs = s.numBufs := rfl
        rw [e]
        by_cases hcj : s.advanceClock.clockHand = j
        · have h1 := hone hcj
          rw [hcj] at hv1 hr1 ⊢
          rw [if_pos ⟨hv1, hr1⟩] at hn
          rw [desc_setDesc_self _ _ _ (by rw [e]; exact hj)]
          rw [if_neg (by simp), hself]
          omega
        · rw [desc_setDesc_ne _ _ _ _ (fun e => hcj e.symm)]
          have h1 := hstep hcj
          have e2 : s.advanceClock.desc j = s.desc j := rfl
          rw [e2]
          omega
      · split
        · rename_i hp
          have hp1 : 0 < (s.desc s.advanceClock.clockHand).pinCnt := hp
          have hcj : s.advanceClock.clockHand ≠ j := by
            intro e
            rw [e] at hv1 hp1
            rcases hfree with hf | hf
            · rw [hf] at hv1; exact absurd hv1 (by decide)
            · omega
          apply ih s.advanceClock hlt hj hfree
          unfold sweepBudget at hn ⊢
          have h1 := hstep hcj
          have e : s.advanceClock.numBufs = s.numBufs := rfl
          have e2 : s.advanceClock.desc j = s.desc j := rfl
          rw [e, e2]
          omega
        · split
          · exact fun h => Status.noConfusion h
          · split
            · exact fun h => Status.noConfusion h
            · exact fun h => Status.noConfusion h

/-- C12 (as stated, refuted): in a 2-frame cache whose frames are both valid,
with frame 0 unpinned and dirty and frame 1 pinned, and every file write
failing, `allocBuf` and `readPage` of a non-resident page return UNIXERR,
not BUFFEREXCEEDED. -/
theorem failed_write_gives_unixerr :
    (∀ i, i < full2.numBufs → (full2.desc i).valid = true) ∧
    (full2.desc 0).pinCnt = 0 ∧
    (∀ i, i < full2.numBufs → (full2.desc i).pinCnt ≤ 0 → (full2.desc i).dirty = true) ∧
    full2.hashTable.lookup (some 1) 7 = none ∧
    (allocBuf writeFailEnv full2 0).status = Status.UNIXERR ∧
    (allocBuf writeFailEnv full2 0).status ≠ Status.BUFFEREXCEEDED ∧
    (readPage writeFailEnv full2 (some 1) 7).status = Status.UNIXERR ∧
    (readPage writeFailEnv full2 (some 1) 7).status ≠ Status.BUFFEREXCEEDED := by
  decide

/-- When the clock hand is a frame number, all frames are valid, some frame is
unpinned, every unpinned frame is dirty and every file write fails,
`allocBuf` returns UNIXERR after attempting exactly one write. -/
theorem all_writes_fail_of_hand (env : Collab) (s : BufMgr) (frame : Nat)
    (hc : s.clockHand < s.numBufs)
    (hall : ∀ i, i < s.numBufs → (s.desc i).valid = true)
    (hu : ∃ j, j < s.numBufs ∧ (s.desc j).pinCnt ≤ 0)
    (hd : ∀ i, i < s.numBufs → (s.desc i).pinCnt ≤ 0 → (s.desc i).dirty = true)
    (hw : ∀ f p i, env.fileWrite f p i ≠ Status.OK) :
    (allocBuf env s frame).status = Status.UNIXERR ∧
    (∃ c, (allocBuf env s frame).io = [c] ∧ c.isWrite = true) ∧
    (∀ file PageNo, s.hashTable.lookup file PageNo = none →
      (readPage env s file PageNo).status = Status.UNIXERR) := by
  obtain ⟨j, hj, hpj⟩ := hu
  have hN : 0 < s.numBufs := by omega
  have hne : (allocBuf env s 0).status ≠ Status.BUFFEREXCEEDED ∧
      (allocBuf env s frame).status ≠ Status.BUFFEREXCEEDED := by
    constructor <;>
    · apply allocLoop_not_exceeded env _ s _ j hc hj (Or.inr hpj)
      unfold sweepBudget
      have := (clockDist_step s j hc hj).2.1
      split <;> omega
  have key : ∀ fr, (allocBuf env s fr).status ≠ Status.BUFFEREXCEEDED →
      (allocBuf env s fr).status = Status.UNIXERR ∧
      ∃ c, (allocBuf env s fr).io = [c] ∧ c.isWrite = true := by
    intro fr hnx
    obtain ⟨m, hm, _, he⟩ := allocLoop_char env (s.numBufs * 2) s fr hN
    have e0 : allocBuf env s fr = allocLoop env (s.numBufs * 2) s fr := rfl
    rw [e0] at hnx ⊢
    rcases he with he | ⟨hcm, hv, _⟩ | ⟨hcm, _, _, hp, he⟩
    · rw [he] at hnx; exact absurd rfl hnx
    · have := hall m.clockHand (hm.len ▸ hcm)
      rw [← hm.valid_eq, hv] at this
      exact absurd this (by decide)
    · have hdm : (m.desc m.clockHand).dirty = true := by
        rw [hm.dirty_eq]
        exact hd m.clockHand (hm.len ▸ hcm) (by rw [← hm.pinCnt_eq]; exact hp)
      rw [he]
      unfold evictStep
      dsimp only
      rw [if_pos ⟨hdm, hw _ _ _⟩]
      exact ⟨rfl, _, rfl, rfl⟩
  refine ⟨(key frame hne.2).1, (key frame hne.2).2, ?_⟩
  intro file PageNo hl
  have h0 := (key 0 hne.1).1
  rw [readPage_allocFail env s file PageNo hl (by rw [h0]; decide)]
  exact h0

/-- The allocation loop reads the clock hand only modulo the frame count. -/
theorem allocLoop_hand_mod (env : Collab) (n : Nat) (s : BufMgr) (frame : Nat) :
    allocLoop env (n + 1) s frame
      = allocLoop env (n + 1) ⟨s.bufTable, s.clockHand % s.numBufs, s.hashTable⟩ frame := by
  have e : (⟨s.bufTable, s.clockHand % s.numBufs, s.hashTable⟩ : BufMgr).advanceClock
      = s.advanceClock := by
    simp [BufMgr.advanceClock, BufMgr.numBufs, Nat.mod_add_mod]
  simp only [allocLoop, e]

/-- C12 (amended): when all write-backs fail, allocation fails with UNIXERR.
In every state where all frames are valid, at least one frame is unpinned,
every unpinned frame is dirty, and every `writePage` call of the file
collaborator fails, `allocBuf` (and so `readPage` of a non-resident page)
returns UNIXERR, after attempting exactly one write. -/
theorem allocBuf_all_writes_fail (env : Collab) (s : BufMgr) (frame : Nat)
    (hall : ∀ i, i < s.numBufs → (s.desc i).valid = true)
    (hu : ∃ j, j < s.numBufs ∧ (s.desc j).pinCnt ≤ 0)
    (hd : ∀ i, i < s.numBufs → (s.desc i).pinCnt ≤ 0 → (s.desc i).dirty = true)
    (hw : ∀ f p i, env.fileWrite f p i ≠ Status.OK) :
    (allocBuf env s frame).status = Status.UNIXERR ∧
    (∃ c, (allocBuf env s frame).io = [c] ∧ c.isWrite = true) ∧
    (∀ file PageNo, s.hashTable.lookup file PageNo = none →
      (readPage env s file PageNo).status = Status.UNIXERR) := by
  obtain ⟨j, hj, hpj⟩ := hu
  have hN : 0 < s.numBufs := by omega
  obtain ⟨m, hm⟩ : ∃ m, s.numBufs * 2 = m + 1 := ⟨s.numBufs * 2 - 1, by omega⟩
  have e : ∀ fr, allocBuf env s fr
      = allocBuf env ⟨s.bufTable, s.clockHand % s.numBufs, s.hashTable⟩ fr := by
    intro fr
    show allocLoop env (s.numBufs * 2) s fr = allocLoop env (s.numBufs * 2) _ fr
    rw [hm]
    exact allocLoop_hand_mod env m s fr
  have haux := fun fr => all_writes_fail_of_hand env
    ⟨s.bufTable, s.clockHand % s.numBufs, s.hashTable⟩ fr (Nat.mod_lt _ hN) hall
    ⟨j, hj, hpj⟩ hd hw
  refine ⟨by rw [e]; exact (haux frame).1, by rw [e]; exact (haux frame).2.1, ?_⟩
  intro file PageNo hl
  have h0 : (allocBuf env s 0).status = Status.UNIXERR := by rw [e]; exact (haux 0).1
  rw [readPage_allocFail env s file PageNo hl (by rw [h0]; decide)]
  exact h0

theorem allocBuf_all_writes_fail_witness :
    (allocBuf writeFailEnv full2 3).status = Status.UNIXERR ∧
    (∃ c, (allocBuf writeFailEnv full2 3).io = [c] ∧ c.isWrite = true) ∧
    (readPage writeFailEnv full2 (some 2) 1).status = Status.UNIXERR :=
  have h := allocBuf_all_writes_fail writeFailEnv full2 3 (by decide)
    ⟨0, by decide, by decide⟩ (by decide) (fun _ _ _ h => Status.noConfusion h)
  ⟨h.1, h.2.1, h.2.2 (some 2) 1 (by decide)⟩

theorem scenarioA_reachable : Reachable scenarioA :=
  Reachable.unPinPage pinned3 (some 1) 2 false pinned3_reachable

/-- C18: in a coherent state (any clock-hand position, any reference bits)
where all frames are valid and exactly one frame `u` has `pinCnt == 0` while
all others are pinned, `readPage` of a non-resident page, with the
collaborator calls succeeding, returns the slot of `u`: the page `u` held is
gone from the index, the new page is loaded into `u` (pinCnt 1, refbit true,
clean), every other frame keeps its page, pin count and dirty flag and stays
resident, and a `writePage` is issued iff `u` was dirty (then exactly one,
of the page of `u` from slot `u`, before the read). -/
theorem readPage_evicts_the_unpinned_frame (env : Collab) (s : BufMgr) (file : FilePtr)
    (PageNo : Int) (u : Nat) (hs : Inv s) (hu : u < s.numBufs)
    (hall : ∀ i, i < s.numBufs → (s.desc i).valid = true)
    (hpin : ∀ i, i < s.numBufs → i ≠ u → 0 < (s.desc i).pinCnt)
    (hup : (s.desc u).pinCnt = 0)
    (hl : s.hashTable.lookup file PageNo = none)
    (hw : ∀ f p i, env.fileWrite f p i = Status.OK)
    (hr : ∀ f p i, env.fileRead f p i = Status.OK)
    (hi : env.insertOk = true) :
    (readPage env s file PageNo).status = Status.OK ∧
    (readPage env s file PageNo).page = some u ∧
    (readPage env s file PageNo).st.desc u = ((s.desc u).Clear).Set file PageNo ∧
    (readPage env s file PageNo).st.hashTable.lookup file PageNo = some u ∧
    (readPage env s file PageNo).st.hashTable.lookup (s.desc u).file (s.desc u).pageNo = none ∧
    (∀ j, j ≠ u →
      ((readPage env s file PageNo).st.desc j).valid = (s.desc j).valid ∧
      ((readPage env s file PageNo).st.desc j).file = (s.desc j).file ∧
      ((readPage env s file PageNo).st.desc j).pageNo = (s.desc j).pageNo ∧
      ((readPage env s file PageNo).st.desc j).pinCnt = (s.desc j).pinCnt ∧
      ((readPage env s file PageNo).st.desc j).dirty = (s.desc j).dirty) ∧
    (∀ j, j < s.numBufs → j ≠ u →
      (readPage env s file PageNo).st.hashTable.lookup (s.desc j).file (s.desc j).pageNo
        = some j) ∧
    (readPage env s file PageNo).io
      = (if (s.desc u).dirty = true
          then [IOCall.write (s.desc u).file (s.desc u).pageNo u] else [])
        ++ [IOCall.read file PageNo u] ∧
    ((readPage env s file PageNo).io.filter IOCall.isWrite
      = if (s.desc u).dirty = true
          then [IOCall.write (s.desc u).file (s.desc u).pageNo u] else []) := by
  have hsum := allocBuf_summary env s 0 hs
  have hok : (allocBuf env s 0).status = Status.OK := by
    apply (allocBuf_exceeded_iff env hw s 0 hs).2
    intro hp
    have := (hp u hu).2
    omega
  obtain ⟨hlt, _, hcl, hp0, hio, _⟩ := hsum.chosen hok
  have hfu : (allocBuf env s 0).frame = u := by
    by_contra hne
    have := hpin _ hlt hne
    omega
  rw [hfu] at hcl hio
  have hvu := hall u hu
  have hku := hs.validMapped u hu hvu
  have hkey : ∀ j, j < s.numBufs →
      ((s.desc j).file, (s.desc j).pageNo) ≠ (file, PageNo) := by
    intro j hj e
    have h1 : (s.desc j).file = file := congrArg Prod.fst e
    have h2 : (s.desc j).pageNo = PageNo := congrArg Prod.snd e
    have := hs.validMapped j hj (hall j hj)
    rw [h1, h2, hl] at this
    exact absurd this (by simp)
  have hlen : u < (allocBuf env s 0).st.numBufs := by rw [hsum.len]; exact hu
  have hio2 : (allocBuf env s 0).io
      = if (s.desc u).dirty = true
          then [IOCall.write (s.desc u).file (s.desc u).pageNo u] else [] := by
    rw [hio]
    by_cases hd : (s.desc u).dirty = true
    · rw [if_pos ⟨hvu, hd⟩, if_pos hd]
    · rw [if_neg (fun h => hd h.2), if_neg hd]
  rw [readPage_miss env s file PageNo hl hok (hr _ _ _) hi, hfu]
  dsimp only
  refine ⟨rfl, rfl, ?_, ?_, ?_, ?_, ?_, ?_, ?_⟩
  · rw [desc_installPage_self _ _ _ _ hlen, hcl]
  · rw [lookup_installPage, if_pos rfl]
  · rw [lookup_installPage, if_neg (hkey u hu), hsum.idx, if_pos ⟨hok, by rw [hfu]; exact hku⟩]
  · intro j hj
    rw [desc_installPage_ne _ _ _ _ _ hj]
    have := (hsum.others j (Or.inr (by rw [hfu]; exact hj))).1
    refine ⟨by rw [this], by rw [this], by rw [this], by rw [this], by rw [this]⟩
  · intro j hj hju
    rw [lookup_installPage, if_neg (hkey j hj), hsum.idx, hs.validMapped j hj (hall j hj)]
    rw [if_neg]
    intro hc
    rw [hfu] at hc
    exact hju (Option.some.inj hc.2)
  · rw [hio2]
  · rw [hio2, List.filter_append]
    by_cases hd : (s.desc u).dirty = true
    · rw [if_pos hd]; rfl
    · rw [if_neg hd]; rfl

theorem readPage_evicts_the_unpinned_frame_witness :
    scenarioA.hashTable.lookup (some 1) 2 = some 1 ∧ (scenarioA.desc 1).pinCnt = 0 ∧
    (scenarioA.desc 1).dirty = false ∧
    (readPage okEnv scenarioA (some 1) 4).status = Status.OK ∧
    (readPage okEnv scenarioA (some 1) 4).page = some 1 ∧
    (readPage okEnv scenarioA (some 1) 4).st.hashTable.lookup (some 1) 4 = some 1 ∧
    (readPage okEnv scenarioA (some 1) 4).st.hashTable.lookup (some 1) 2 = none ∧
    (readPage okEnv scenarioA (some 1) 4).st.hashTable.lookup (some 1) 1 = some 0 ∧
    (readPage okEnv scenarioA (some 1) 4).st.hashTable.lookup (some 1) 3 = some 2 ∧
    (readPage okEnv scenarioA (some 1) 4).io.filter IOCall.isWrite = [] :=
  have h := readPage_evicts_the_unpinned_frame okEnv scenarioA (some 1) 4 1
    scenarioA_reachable.invariant (by decide) (by decide) (by decide) (by decide) (by decide)
    (fun _ _ _ => rfl) (fun _ _ _ => rfl) rfl
  ⟨by decide, by decide, by decide, h.1, h.2.1, h.2.2.2.1, by decide, by decide, by decide,
    by decide⟩

/-- C19: in a reachable state, when `flushFile(F)` for a file object F does
not return OK, it stopped at a frame `i` of the pool that is a valid frame
of F, either pinned (status PAGEPINNED) or dirty with a failed write-back
(status of that write; frame `i` is then still valid, dirty and mapped in
the index). Every frame `j < i` that was a valid frame of F is flushed:
written back successfully if it was dirty, invalid, and removed from the
index; every other frame before `i`, frame `i` and every frame after it are
unchanged, and those that held a page are still resident. -/
theorem flushFile_partial_effect (s : BufMgr) (hs : Reachable s) (env : Collab) (F : Nat)
    (hne : (flushFile env s (some F)).status ≠ Status.OK) :
    ∃ i, i < s.numBufs ∧ (s.desc i).valid = true ∧ (s.desc i).file = some F ∧
      ((0 < (s.desc i).pinCnt ∧ (flushFile env s (some F)).status = Status.PAGEPINNED) ∨
        ((s.desc i).pinCnt = 0 ∧ (s.desc i).dirty = true ∧
          (flushFile env s (some F)).status = env.fileWrite (some F) (s.desc i).pageNo i ∧
          ((flushFile env s (some F)).st.desc i).valid = true ∧
          ((flushFile env s (some F)).st.desc i).dirty = true ∧
          (flushFile env s (some F)).st.hashTable.lookup (some F) (s.desc i).pageNo
            = some i)) ∧
      (∀ j, j < i → (s.desc j).valid = true → (s.desc j).file = some F →
        ((flushFile env s (some F)).st.desc j).valid = false ∧
        (flushFile env s (some F)).st.desc j = (s.desc j).flushed ∧
        (flushFile env s (some F)).st.hashTable.lookup (some F) (s.desc j).pageNo = none ∧
        ((s.desc j).dirty = true →
          IOCall.write (some F) (s.desc j).pageNo j ∈ (flushFile env s (some F)).io ∧
          env.fileWrite (some F) (s.desc j).pageNo j = Status.OK)) ∧
      (∀ j, j < i → ¬((s.desc j).valid = true ∧ (s.desc j).file = some F) →
        (flushFile env s (some F)).st.desc j = s.desc j) ∧
      (∀ j, i ≤ j → (flushFile env s (some F)).st.desc j = s.desc j) ∧
      (∀ j, i ≤ j → j < s.numBufs → (s.desc j).valid = true →
        (flushFile env s (some F)).st.hashTable.lookup (s.desc j).file (s.desc j).pageNo
          = some j) := by
  have hi := hs.invariant
  obtain ⟨k, hk⟩ := flushFile_trace env s (some F) hi
  have hkept : ∀ j, k ≤ j → (flushFile env s (some F)).st.desc j = s.desc j :=
    fun j hj => hk.kept j (fun h => by omega)
  have hrest : (∀ j, j < k → (s.desc j).valid = true → (s.desc j).file = some F →
        ((flushFile env s (some F)).st.desc j).valid = false ∧
        (flushFile env s (some F)).st.desc j = (s.desc j).flushed ∧
        (flushFile env s (some F)).st.hashTable.lookup (some F) (s.desc j).pageNo = none ∧
        ((s.desc j).dirty = true →
          IOCall.write (some F) (s.desc j).pageNo j ∈ (flushFile env s (some F)).io ∧
          env.fileWrite (some F) (s.desc j).pageNo j = Status.OK)) ∧
      (∀ j, j < k → ¬((s.desc j).valid = true ∧ (s.desc j).file = some F) →
        (flushFile env s (some F)).st.desc j = s.desc j) ∧
      (∀ j, k ≤ j → (flushFile env s (some F)).st.desc j = s.desc j) ∧
      (∀ j, k ≤ j → j < s.numBufs → (s.desc j).valid = true →
        (flushFile env s (some F)).st.hashTable.lookup (s.desc j).file (s.desc j).pageNo
          = some j) := by
    refine ⟨?_, ?_, hkept, ?_⟩
    · intro j hj hv hf
      obtain ⟨_, hfl, hw⟩ := hk.flushedFrames j (Nat.zero_le j) hj hv hf
      have hjN : j < s.numBufs := valid_lt s j hv
      have hl := hi.validMapped j hjN hv
      rw [hf] at hl
      refine ⟨by rw [hfl]; rfl, hfl, hk.idxGone _ _ j hl ⟨Nat.zero_le j, hj, rfl⟩, ?_⟩
      intro hd
      refine ⟨?_, hw hd⟩
      apply hk.io_facts.2
      exact mem_dirtyWrites s (some F) 0 (k - 0) j (Nat.zero_le j) (by omega) hv hf hd
    · intro j _ hn
      exact hk.kept j (fun h => hn h.2.2)
    · intro j hj hjN hv
      exact hk.idxKept _ _ j (hi.validMapped j hjN hv) (fun h => by omega)
  rcases hk.stop with ⟨_, b, _⟩ | ⟨a, b, c, d, e, _⟩ | ⟨a, b, c, d, e, g, _, _⟩ | ⟨a, b, c, _, _⟩
  · exact absurd b hne
  · exact ⟨k, by omega, b, c, Or.inl ⟨d, e⟩, hrest⟩
  · refine ⟨k, by omega, b, c, Or.inr ⟨d, e, g, ?_, ?_, ?_⟩, hrest⟩
    · rw [hkept k (Nat.le_refl k)]; exact b
    · rw [hkept k (Nat.le_refl k)]; exact e
    · have hl := hi.validMapped k (by omega) b
      rw [c] at hl
      exact hk.idxKept _ _ k hl (fun h => by omega)
  · exfalso
    rw [(hi.invalidClean k (by omega) b).1] at c
    exact absurd c (by simp)

theorem flushFile_partial_effect_witness :
    Reachable full2 ∧ (flushFile okEnv full2 (some 1)).status ≠ Status.OK ∧
    (∃ i, i < full2.numBufs ∧ (full2.desc i).valid = true ∧ (full2.desc i).file = some 1 ∧
      (∀ j, j < i → (full2.desc j).valid = true → (full2.desc j).file = some 1 →
        ((flushFile okEnv full2 (some 1)).st.desc j).valid = false) ∧
      (∀ j, i ≤ j → (flushFile okEnv full2 (some 1)).st.desc j = full2.desc j)) ∧
    (flushFile okEnv full2 (some 1)).status = Status.PAGEPINNED ∧
    (flushFile okEnv full2 (some 1)).io = [IOCall.write (some 1) 5 0] ∧
    ((flushFile okEnv full2 (some 1)).st.desc 0).valid = false ∧
    (flushFile okEnv full2 (some 1)).st.hashTable.lookup (some 1) 5 = none ∧
    (flushFile okEnv full2 (some 1)).st.desc 1 = full2.desc 1 ∧
    (flushFile okEnv full2 (some 1)).st.hashTable.lookup (some 1) 6 = some 1 ∧
    (flushFile writeFailEnv full2 (some 1)).status = Status.UNIXERR ∧
    (flushFile writeFailEnv full2 (some 1)).st = full2 :=
  have hr : Reachable full2 := Reachable.readPage okEnv dirty2 1 6 dirty2_reachable
  have h := flushFile_partial_effect full2 hr okEnv 1 (by decide)
  ⟨hr, by decide,
    h.elim (fun i hi => ⟨i, hi.1, hi.2.1, hi.2.2.1,
      fun j hj hv hf => (hi.2.2.2.2.1 j hj hv hf).1, hi.2.2.2.2.2.2.1⟩),
    by decide, by decide, by decide, by decide, by decide, by decide, by decide, by decide⟩

end BufferManager
